import Mathlib

set_option maxRecDepth 100000

/-!
Verification of the virtual-memory simulator `vmsim.py`.

The Python program is shallowly embedded below.  Python dictionaries are
modelled as insertion-ordered association lists (reassigning an existing key
keeps its position, inserting a new key appends — exactly CPython's dict
iteration order).  Python exceptions are modelled with `Except PyErr`.
Python's real arithmetic on capacities (`ratio * frames`) is modelled
exactly with `ℚ`; every concrete value appearing in the theorems below is
a dyadic rational represented exactly by an IEEE double, so the modelled
behaviour agrees with the float behaviour of the source on these inputs.
-/

/-- Errors the Python source can raise at runtime. -/
inductive PyErr where
  | keyError
  | valueError
  | indexError
  | typeError
  | zeroDivisionError
  deriving DecidableEq, Repr

/-- Insertion-ordered dictionary with integer keys, as a list of pairs. -/
abbrev Dict (α : Type) := List (Int × α)

/-- Membership test, `k in d` of Python. -/
def dcontains (d : Dict α) (k : Int) : Bool :=
  d.any (fun p => p.1 = k)

/-- Lookup, `d[k]` of Python (`none` models a KeyError). -/
def dget (d : Dict α) (k : Int) : Option α :=
  (d.find? (fun p => p.1 = k)).map Prod.snd

/-- Assignment `d[k] = v` of Python: reassigning an existing key keeps its
position, a new key is appended. -/
def dset (d : Dict α) (k : Int) (v : α) : Dict α :=
  if dcontains d k then d.map (fun p => if p.1 = k then (k, v) else p)
  else d ++ [(k, v)]

/-- Removal `d.pop(k)` of Python (the source only pops present keys). -/
def dpop (d : Dict α) (k : Int) : Dict α :=
  d.filter (fun p => ¬ p.1 = k)

/-- Python's `sys.maxsize` on a 64-bit platform. -/
def sysMaxsize : Nat := 2 ^ 63 - 1

/-- Python's arithmetic right shift on (possibly negative) integers:
floor division by a power of two. -/
def pyShr (a : Int) (k : Nat) : Int :=
  Int.fdiv a (2 ^ k)

/-- ASCII whitespace stripped by Python's `int` constructor. -/
def pyWs (c : Char) : Bool :=
  c = ' ' ∨ c = '\t' ∨ c = '\n' ∨ c = '\r' ∨ c = '\x0b' ∨ c = '\x0c'

/-- Hexadecimal digit test. -/
def isHexDig (c : Char) : Bool :=
  c.isDigit ∨ ('a' ≤ c ∧ c ≤ 'f') ∨ ('A' ≤ c ∧ c ≤ 'F')

/-- Value of a hexadecimal digit. -/
def hexVal (c : Char) : Nat :=
  if c.isDigit then c.toNat - '0'.toNat
  else if 'a' ≤ c ∧ c ≤ 'f' then c.toNat - 'a'.toNat + 10
  else c.toNat - 'A'.toNat + 10

/-- Hex digits with optional single underscores between digits,
accumulating a value: models the tail of CPython's base-16 digit parser. -/
def hexTail : List Char → Nat → Option Nat
  | [], acc => some acc
  | '_' :: c :: r, acc => if isHexDig c then hexTail r (16 * acc + hexVal c) else none
  | ['_'], _ => none
  | c :: r, acc => if isHexDig c then hexTail r (16 * acc + hexVal c) else none

/-- At least one hex digit, then `hexTail`. -/
def hexDigits : List Char → Option Nat
  | [] => none
  | c :: r => if isHexDig c then hexTail r (hexVal c) else none

/-- Digit part of CPython's `int(s, 16)` after sign removal: optional
`0x`/`0X` prefix, an underscore may follow the prefix. -/
def pyIntHexCore : List Char → Option Nat
  | '0' :: x :: rest =>
      if x = 'x' ∨ x = 'X' then
        match rest with
        | '_' :: r2 => hexDigits r2
        | _ => hexDigits rest
      else hexDigits ('0' :: x :: rest)
  | l => hexDigits l

/-- CPython's `int(s, 16)` on ASCII strings: surrounding whitespace is
stripped, then an optional sign, optional `0x` prefix and hex digits with
single underscores between digits.  `none` models a ValueError.  (Beyond
ASCII, CPython also accepts Unicode decimal digits and whitespace —
`int('١A', 16) = 26` — outside this model.) -/
def pyIntHex (s : String) : Option Int :=
  let l := ((s.toList.dropWhile pyWs).reverse.dropWhile pyWs).reverse
  match l with
  | '+' :: r => (pyIntHexCore r).map (fun n => (n : Int))
  | '-' :: r => (pyIntHexCore r).map (fun n => -(n : Int))
  | _ => (pyIntHexCore l).map (fun n => (n : Int))

/-- CPython's `int(c)` on a one-character ASCII string: only a decimal
digit parses; `none` models a ValueError.  (Beyond ASCII, CPython also
accepts any Unicode decimal digit, e.g. `int('٥') = 5` — outside this
model.) -/
def pyIntDigit (c : Char) : Option Nat :=
  if c.isDigit then some (c.toNat - '0'.toNat) else none

/-- Per-process page table, `class page_table` of the source.  Entries map a
frame number to `[dirty bit, line number]`; `freq` maps a frame number to
the (reversed) list of line numbers at which it is accessed (OPT only).
The constructor argument `frames` is `ratio * self.frames`, a real number. -/
structure page_table where
  frames : ℚ
  entries : Dict (Nat × Nat)
  freq : Dict (List Nat)
  deriving DecidableEq, Repr

/-- Constructor `page_table(frames)`: empty dictionaries. -/
def page_table.init (frames : ℚ) : page_table :=
  ⟨frames, [], []⟩

/-- Method `page_table.isFull`: true exactly when `len(self.entries)` is
numerically equal to `self.frames`. -/
def page_table.isFull (t : page_table) : Bool :=
  decide ((t.entries.length : ℚ) = t.frames)

/-- The three statistics counters of `virtual_memory_sim`. -/
structure Stats where
  memory_accesses : Nat
  page_faults : Nat
  disk_writes : Nat
  deriving DecidableEq, Repr

/-- Counters as initialised in `virtual_memory_sim.__init__`. -/
def Stats.init : Stats := ⟨0, 0, 0⟩

/-- Fragment of `parse_args` computing the shift amount: for a nonzero
page size, `self.offset = int(math.log2(pagesize)) + 10`.  `math.log2`
raises a ValueError on negative input; on positive input it returns a
platform float whose truncation is modeled by the parameter `lg`
(standing for `p ↦ int(math.log2(p))`), because the C library's rounding
of the irrational logarithm is not determined by the source.  A zero
page size leaves `self.offset` at its initial `None`. -/
def configureOffset (lg : Int → Int) (pagesize : Int) : Except PyErr (Option Nat) :=
  if pagesize ≠ 0 then
    if pagesize < 0 then .error .valueError
    else .ok (some ((lg pagesize).toNat + 10))
  else .ok none

/-- What `int(math.log2(p))` guarantees on positive integers for every
faithful C library: exact on powers of two (CPython's test suite asserts
`math.log2(2 ** k) == k`), and within one of the floor of the exact
logarithm in general (the float can land on either side of an integer
only when `p` is within an ulp of a power of two). -/
def log2Faithful (lg : Int → Int) : Prop :=
  ∀ p : Int, 0 < p →
    ((Nat.log2 p.toNat : Int) - 1 ≤ lg p ∧ lg p ≤ (Nat.log2 p.toNat : Int) + 1) ∧
    (∀ k : Nat, p = 2 ^ k → lg p = (k : Int))

/-- The floor implementation of `int(math.log2(·))`: one admissible
platform behavior. -/
def lgFloor (p : Int) : Int := (Nat.log2 p.toNat : Int)

/-- A second admissible platform behavior: a correctly rounded `log2`
returns exactly `49.0` at `2 ^ 49 - 1` (the exact logarithm is within
half an ulp below 49), so `int` of it is 49, one above the floor 48. -/
def lgNear (p : Int) : Int := if p = 2 ^ 49 - 1 then 49 else lgFloor p

/-- The normalization loop of binary64 rounding: bring a positive
rational into the binade `[2^52, 2^53)` by doublings and halvings while
keeping the product `s * pw` constant.  The fuel 2200 covers the whole
normal range of doubles. -/
def flNorm : Nat → ℚ → ℚ → ℚ × ℚ
  | 0, s, pw => (s, pw)
  | fuel + 1, s, pw =>
      if s < 2 ^ 52 then flNorm fuel (s * 2) (pw / 2)
      else if 2 ^ 53 ≤ s then flNorm fuel (s / 2) (pw * 2)
      else (s, pw)

/-- Round a normalized significand to the nearest integer, ties to even,
and scale back. -/
def flRound (s pw : ℚ) : ℚ :=
  (((if s - (⌊s⌋ : ℚ) < 1 / 2 then ⌊s⌋
     else if (1 : ℚ) / 2 < s - (⌊s⌋ : ℚ) then ⌊s⌋ + 1
     else if ⌊s⌋ % 2 = 0 then ⌊s⌋ else ⌊s⌋ + 1) : ℤ) : ℚ) * pw

def flPos (q : ℚ) : ℚ :=
  flRound (flNorm 2200 q 1).1 (flNorm 2200 q 1).2

/-- The IEEE-754 binary64 value nearest a rational — the value a CPython
float stores.  Exact on zero and sign-symmetric; faithful on the normal
range of doubles, which contains every value the simulator computes (the
split ratios lie in `[0, 1]` and their products with a frame count stay
below `2^1024`; frame counts of magnitude `≥ 2^1024` would raise
OverflowError at the int-to-float conversion and are outside this
model). -/
def fl64 (q : ℚ) : ℚ :=
  if q = 0 then 0 else if 0 < q then flPos q else -flPos (-q)

/-- Method `split_memory`: reads the digits at positions 0 and 2 of the
memory-split string, guards negative values (unreachable for single-digit
parses; Python would return `-1`, which the caller then fails to
subscript), and builds the two page tables with capacities
`ratio1 * frames` and `ratio2 * frames` computed in IEEE doubles: each
ratio is the correctly rounded quotient of the two small ints, `frames`
is rounded to a double, and each product is rounded again — so the
stored capacity generally differs from the exact quotient
(`0.7 * 90` stores `63 - 2⁻⁴⁷`). -/
def split_memory (ms : String) (frames : Int) : Except PyErr (List page_table) :=
  match ms.toList.get? 0 with
  | none => .error .indexError
  | some c0 =>
    match pyIntDigit c0 with
    | none => .error .valueError
    | some d0 =>
      match ms.toList.get? 2 with
      | none => .error .indexError
      | some c2 =>
        match pyIntDigit c2 with
        | none => .error .valueError
        | some d2 =>
          if (d0 : Int) < 0 ∨ (d2 : Int) < 0 then .error .typeError
          else if d0 + d2 = 0 then .error .zeroDivisionError
          else
            let ratio1 : ℚ := fl64 ((d0 : ℚ) / ((d0 : ℚ) + (d2 : ℚ)))
            let ratio2 : ℚ := fl64 ((d2 : ℚ) / ((d0 : ℚ) + (d2 : ℚ)))
            .ok [page_table.init (fl64 (ratio1 * fl64 (frames : ℚ))),
              page_table.init (fl64 (ratio2 * fl64 (frames : ℚ)))]

/-- Method `parse_line`: split the line on single spaces, read the dirty
bit from the first field, parse the second field as hexadecimal and shift
it right by `self.offset` (a `None` offset raises a TypeError), and take
the integer value of the first character of the third field. -/
def parse_line (offset : Option Nat) (lineStr : String) :
    Except PyErr (Nat × Int × Nat) :=
  let line := lineStr.splitOn " "
  match line.get? 0 with
  | none => .error .indexError
  | some f0 =>
    let dirty_bit : Nat := if f0 = "l" then 0 else 1
    match line.get? 1 with
    | none => .error .indexError
    | some f1 =>
      match pyIntHex f1 with
      | none => .error .valueError
      | some addr =>
        match offset with
        | none => .error .typeError
        | some off =>
          let frame : Int := pyShr addr off
          match line.get? 2 with
          | none => .error .indexError
          | some f2 =>
            match f2.toList.get? 0 with
            | none => .error .indexError
            | some c =>
              match pyIntDigit c with
              | none => .error .valueError
              | some table_idx => .ok (dirty_bit, frame, table_idx)

/-- The eviction scan of `lru_sim`: walk the resident entries in dictionary
order, tracking the smallest last-access order seen so far (seeded with
`sys.maxsize`) and the frame attaining it. -/
def lruScan : List (Int × Nat × Nat) → Nat → Option Int → Option Int
  | [], _, fte => fte
  | (k, e) :: rest, lru, fte =>
      if e.2 < lru then lruScan rest e.2 (some k)
      else lruScan rest lru fte

/-- Victim chosen by the `lru_sim` eviction loop. -/
def lruVictim (entries : Dict (Nat × Nat)) : Option Int :=
  lruScan entries sysMaxsize none

/-- One loop iteration of `lru_sim` for the decoded event
`(dirty_bit, frame, table_idx)` at line index `i`. -/
def lruStep (tables : List page_table) (st : Stats) (i : Nat)
    (dirty_bit : Nat) (frame : Int) (table_idx : Nat) :
    Except PyErr (List page_table × Stats) :=
  let st := { st with memory_accesses := st.memory_accesses + 1 }
  match tables.get? table_idx with
  | none => .error .indexError
  | some t =>
    if ¬ dcontains t.entries frame then
      -- miss
      let st := { st with page_faults := st.page_faults + 1 }
      if t.isFull then
        -- table full: find the least recently used entry and evict it
        match lruVictim t.entries with
        | none => .error .keyError
        | some fte =>
          match dget t.entries fte with
          | none => .error .keyError
          | some e =>
            let st :=
              if e.1 = 1 then { st with disk_writes := st.disk_writes + 1 } else st
            let t := { t with entries := dset (dpop t.entries fte) frame (dirty_bit, i) }
            .ok (tables.set table_idx t, st)
      else
        .ok (tables.set table_idx
          { t with entries := dset t.entries frame (dirty_bit, i) }, st)
    else
      -- hit
      match dget t.entries frame with
      | none => .error .keyError
      | some e =>
        .ok (tables.set table_idx
          (if e.1 = 1 ∨ dirty_bit = 1 then { t with entries := dset t.entries frame (1, i) }
           else { t with entries := dset t.entries frame (0, i) }), st)

/-- The main loop of `lru_sim` over the (already read) trace lines. -/
def lruRunAux (offset : Option Nat) :
    List String → List page_table → Stats → Nat → Except PyErr (List page_table × Stats)
  | [], tables, st, _ => .ok (tables, st)
  | l :: rest, tables, st, i =>
      match parse_line offset l with
      | .error e => .error e
      | .ok (d, f, idx) =>
        match lruStep tables st i d f idx with
        | .error e => .error e
        | .ok (tables, st) => lruRunAux offset rest tables st (i + 1)

/-- Method `lru_sim`: split the memory, then run the trace once. -/
def lru_sim (ms : String) (frames : Int) (offset : Option Nat) (lines : List String) :
    Except PyErr (List page_table × Stats) :=
  match split_memory ms frames with
  | .error e => .error e
  | .ok tables => lruRunAux offset lines tables Stats.init 0

/-- First pass of `opt_sim`: append each line index to the accessed frame's
occurrence list in the table the event is routed to. -/
def optPass1 (offset : Option Nat) :
    List String → List page_table → Nat → Except PyErr (List page_table)
  | [], tables, _ => .ok tables
  | l :: rest, tables, i =>
      match parse_line offset l with
      | .error e => .error e
      | .ok (_, frame, idx) =>
        match tables.get? idx with
        | none => .error .indexError
        | some t =>
          let t :=
            if ¬ dcontains t.freq frame then { t with freq := dset t.freq frame [i] }
            else
              match dget t.freq frame with
              | some fl => { t with freq := dset t.freq frame (fl ++ [i]) }
              | none => t
          optPass1 offset rest (tables.set idx t) (i + 1)

/-- Between the passes of `opt_sim` every occurrence list is reversed, so
that the soonest future access sits at the end of the list. -/
def reverseFreq (t : page_table) : page_table :=
  { t with freq := t.freq.map (fun p => (p.1, p.2.reverse)) }

/-- The eviction scan of `opt_sim`: walk the resident entries in dictionary
order; a frame with an empty occurrence list and a last-access order below
the running `lru` becomes the victim; otherwise, while no such frame has
been seen (`lru` still `sys.maxsize`), the frame whose next future access
is beyond the running `nxt_access` becomes the victim. -/
def optScan (freq : Dict (List Nat)) :
    List (Int × Nat × Nat) → Int → Nat → Option Int → Except PyErr (Option Int)
  | [], _, _, fte => .ok fte
  | (k, e) :: rest, nxt, lru, fte =>
      match dget freq k with
      | none => .error .keyError
      | some fl =>
          if fl.isEmpty ∧ e.2 < lru then
            optScan freq rest nxt e.2 (some k)
          else if lru = sysMaxsize then
            match fl.getLast? with
            | none => .error .indexError
            | some last =>
                if (last : Int) > nxt then optScan freq rest (last : Int) lru (some k)
                else optScan freq rest nxt lru fte
          else
            optScan freq rest nxt lru fte

/-- The part of the `opt_sim` miss branch shared by the insertion after an
eviction and the insertion into a non-full table: consume the faulting
frame's own next occurrence (`freq[frame].pop()`), then insert the entry. -/
def optInsert (tables : List page_table) (st : Stats) (i : Nat)
    (dirty_bit : Nat) (frame : Int) (table_idx : Nat) (t : page_table) :
    Except PyErr (List page_table × Stats) :=
  match dget t.freq frame with
  | none => .error .keyError
  | some fl =>
    if fl.isEmpty then .error .indexError
    else
      let t := { t with freq := dset t.freq frame fl.dropLast }
      let t := { t with entries := dset t.entries frame (dirty_bit, i) }
      .ok (tables.set table_idx t, st)

/-- One second-pass loop iteration of `opt_sim` for the decoded event
`(dirty_bit, frame, table_idx)` at line index `i`. -/
def optStep (tables : List page_table) (st : Stats) (i : Nat)
    (dirty_bit : Nat) (frame : Int) (table_idx : Nat) :
    Except PyErr (List page_table × Stats) :=
  let st := { st with memory_accesses := st.memory_accesses + 1 }
  match tables.get? table_idx with
  | none => .error .indexError
  | some t =>
    if ¬ dcontains t.entries frame then
      -- miss
      let st := { st with page_faults := st.page_faults + 1 }
      if t.isFull then
        -- table full: scan for the victim and evict it
        match optScan t.freq t.entries (-1) sysMaxsize none with
        | .error e => .error e
        | .ok none => .error .keyError
        | .ok (some fte) =>
          match dget t.entries fte with
          | none => .error .keyError
          | some e =>
            let st :=
              if e.1 = 1 then { st with disk_writes := st.disk_writes + 1 } else st
            optInsert tables st i dirty_bit frame table_idx
              { t with entries := dpop t.entries fte }
      else
        optInsert tables st i dirty_bit frame table_idx t
    else
      -- hit: consume this frame's own occurrence, then refresh the entry
      match dget t.freq frame with
      | none => .error .keyError
      | some fl =>
        if fl.isEmpty then .error .indexError
        else
          let t := { t with freq := dset t.freq frame fl.dropLast }
          match dget t.entries frame with
          | none => .error .keyError
          | some e =>
            .ok (tables.set table_idx
              (if e.1 = 1 ∨ dirty_bit = 1 then { t with entries := dset t.entries frame (1, i) }
               else { t with entries := dset t.entries frame (0, i) }), st)

/-- The second-pass loop of `opt_sim` over the trace lines. -/
def optRunAux (offset : Option Nat) :
    List String → List page_table → Stats → Nat → Except PyErr (List page_table × Stats)
  | [], tables, st, _ => .ok (tables, st)
  | l :: rest, tables, st, i =>
      match parse_line offset l with
      | .error e => .error e
      | .ok (d, f, idx) =>
        match optStep tables st i d f idx with
        | .error e => .error e
        | .ok (tables, st) => optRunAux offset rest tables st (i + 1)

/-- Method `opt_sim`: split the memory, build the occurrence lists in a
first pass, reverse them, then simulate in a second pass. -/
def opt_sim (ms : String) (frames : Int) (offset : Option Nat) (lines : List String) :
    Except PyErr (List page_table × Stats) :=
  match split_memory ms frames with
  | .error e => .error e
  | .ok tables =>
    match optPass1 offset lines tables 0 with
    | .error e => .error e
    | .ok tables => optRunAux offset lines (tables.map reverseFreq) Stats.init 0

/-! ### Specification-side victim selection

The following definitions transcribe the SPEC's description of victim
selection (smallest last-access order, ties to the earliest-inserted
entry; for OPT, never-used-again frames first, otherwise the farthest
next use).  They are compared against the scans of the source. -/

/-- Entry demanded by the spec for LRU eviction: the leftmost entry with
the smallest last-access order. -/
def specLruPick : List (Int × Nat × Nat) → Option (Int × Nat × Nat)
  | [] => none
  | p :: rest =>
      some ((specLruPick rest).elim p (fun q => if q.2.2 < p.2.2 then q else p))

/-- Next future access of a frame according to an occurrence map whose
lists keep the soonest access last; `-1` when the frame is never
referenced again. -/
def nextOf (freq : Dict (List Nat)) (k : Int) : Int :=
  match ((dget freq k).getD []).getLast? with
  | some n => (n : Int)
  | none => -1

/-- Entry demanded by the spec for the OPT farthest-future rule: the
leftmost entry whose next future access is the largest. -/
def specMaxPick (freq : Dict (List Nat)) : List (Int × Nat × Nat) → Option (Int × Nat × Nat)
  | [] => none
  | p :: rest =>
      some ((specMaxPick freq rest).elim p
        (fun q => if nextOf freq q.1 > nextOf freq p.1 then q else p))

/-- A resident entry whose occurrence list is exhausted: the frame is
never referenced again. -/
def emptyFuture (freq : Dict (List Nat)) (p : Int × Nat × Nat) : Bool :=
  ((dget freq p.1).getD []).isEmpty

/-- Victim demanded by the spec for OPT eviction: a never-again-used
frame with the smallest last-access order when one exists, otherwise the
frame with the farthest next use; ties to the earliest-inserted entry. -/
def specOptVictim (freq : Dict (List Nat)) (l : List (Int × Nat × Nat)) : Option Int :=
  let empt := l.filter (emptyFuture freq)
  if empt.isEmpty then (specMaxPick freq l).map (fun q => q.1)
  else (specLruPick empt).map (fun q => q.1)

theorem specLruPick_mem : ∀ {l : List (Int × Nat × Nat)} {q},
    specLruPick l = some q → q ∈ l := by
  intro l
  induction l with
  | nil => intro q h; simp [specLruPick] at h
  | cons p rest ih =>
      intro q h
      simp only [specLruPick, Option.some.injEq] at h
      cases hr : specLruPick rest with
      | none => rw [hr] at h; simp only [Option.elim] at h; simp [← h]
      | some q' =>
          rw [hr] at h
          simp only [Option.elim] at h
          split at h
          · subst h; exact List.mem_cons_of_mem _ (ih hr)
          · simp [← h]

theorem specMaxPick_mem {freq} : ∀ {l : List (Int × Nat × Nat)} {q},
    specMaxPick freq l = some q → q ∈ l := by
  intro l
  induction l with
  | nil => intro q h; simp [specMaxPick] at h
  | cons p rest ih =>
      intro q h
      simp only [specMaxPick, Option.some.injEq] at h
      cases hr : specMaxPick freq rest with
      | none => rw [hr] at h; simp only [Option.elim] at h; simp [← h]
      | some q' =>
          rw [hr] at h
          simp only [Option.elim] at h
          split at h
          · subst h; exact List.mem_cons_of_mem _ (ih hr)
          · simp [← h]

/-- The spec-side LRU choice is the leftmost minimum: everything before it
has a strictly larger order, everything after it a larger-or-equal one. -/
theorem specLruPick_char : ∀ {l : List (Int × Nat × Nat)} {q}, specLruPick l = some q →
    ∃ l₁ l₂, l = l₁ ++ q :: l₂ ∧ (∀ p ∈ l₁, q.2.2 < p.2.2) ∧ (∀ p ∈ l₂, q.2.2 ≤ p.2.2) := by
  intro l
  induction l with
  | nil => intro q h; simp [specLruPick] at h
  | cons p rest ih =>
      intro q h
      simp only [specLruPick, Option.some.injEq] at h
      cases hr : specLruPick rest with
      | none =>
          rw [hr] at h
          simp only [Option.elim] at h
          subst h
          cases rest with
          | nil => exact ⟨[], [], by simp⟩
          | cons a b => simp [specLruPick] at hr
      | some q' =>
          rw [hr] at h
          simp only [Option.elim] at h
          obtain ⟨a, b, hab, h₁, h₂⟩ := ih hr
          split at h
          · subst h
            refine ⟨p :: a, b, by simp [hab], ?_, h₂⟩
            intro x hx
            rcases List.mem_cons.mp hx with rfl | hx
            · omega
            · exact h₁ x hx
          · subst h
            refine ⟨[], rest, by simp, by simp, ?_⟩
            intro x hx
            rw [hab] at hx
            rcases List.mem_append.mp hx with hx | hx
            · have := h₁ x hx; omega
            · rcases List.mem_cons.mp hx with rfl | hx
              · omega
              · have := h₂ x hx; omega

/-- The spec-side farthest-future choice is the leftmost maximum. -/
theorem specMaxPick_char {freq} : ∀ {l : List (Int × Nat × Nat)} {q},
    specMaxPick freq l = some q →
    ∃ l₁ l₂, l = l₁ ++ q :: l₂ ∧ (∀ p ∈ l₁, nextOf freq p.1 < nextOf freq q.1) ∧
      (∀ p ∈ l₂, nextOf freq p.1 ≤ nextOf freq q.1) := by
  intro l
  induction l with
  | nil => intro q h; simp [specMaxPick] at h
  | cons p rest ih =>
      intro q h
      simp only [specMaxPick, Option.some.injEq] at h
      cases hr : specMaxPick freq rest with
      | none =>
          rw [hr] at h
          simp only [Option.elim] at h
          subst h
          cases rest with
          | nil => exact ⟨[], [], by simp⟩
          | cons a b => simp [specMaxPick] at hr
      | some q' =>
          rw [hr] at h
          simp only [Option.elim] at h
          obtain ⟨a, b, hab, h₁, h₂⟩ := ih hr
          split at h
          · subst h
            refine ⟨p :: a, b, by simp [hab], ?_, h₂⟩
            intro x hx
            rcases List.mem_cons.mp hx with rfl | hx
            · omega
            · exact h₁ x hx
          · subst h
            refine ⟨[], rest, by simp, by simp, ?_⟩
            intro x hx
            rw [hab] at hx
            rcases List.mem_append.mp hx with hx | hx
            · have := h₁ x hx; omega
            · rcases List.mem_cons.mp hx with rfl | hx
              · omega
              · have := h₂ x hx; omega

/-- The LRU eviction scan realises the spec-side choice, whatever the seed. -/
theorem lruScan_eq (l : List (Int × Nat × Nat)) (lru : Nat) (fte : Option Int) :
    lruScan l lru fte =
      (specLruPick l).elim fte (fun q => if q.2.2 < lru then some q.1 else fte) := by
  induction l generalizing lru fte with
  | nil => simp [lruScan, specLruPick]
  | cons p rest ih =>
      obtain ⟨k, e⟩ := p
      simp only [lruScan, specLruPick, Option.elim]
      by_cases h : e.2 < lru
      · rw [if_pos h, ih]
        cases hr : specLruPick rest with
        | none => simp only [Option.elim]; rw [if_pos h]
        | some q =>
            simp only [Option.elim]
            by_cases h2 : q.2.2 < e.2
            · rw [if_pos h2, if_pos h2, if_pos (by omega : q.2.2 < lru)]
            · rw [if_neg h2, if_neg h2]
              simp only []
              rw [if_pos h]
      · rw [if_neg h, ih]
        cases hr : specLruPick rest with
        | none => simp only [Option.elim]; rw [if_neg h]
        | some q =>
            simp only [Option.elim]
            by_cases h2 : q.2.2 < e.2
            · rw [if_pos h2]
            · rw [if_neg h2, if_neg (by omega : ¬ q.2.2 < lru)]
              exact (if_neg h).symm

theorem emptyFuture_of_dget {freq : Dict (List Nat)} {k : Int} {e : Nat × Nat} {fl}
    (h : dget freq k = some fl) : emptyFuture freq (k, e) = fl.isEmpty := by
  simp [emptyFuture, h]

theorem nextOf_of_getLast {freq : Dict (List Nat)} {k : Int} {fl : List Nat} {n : Nat}
    (h : dget freq k = some fl) (hl : fl.getLast? = some n) : nextOf freq k = (n : Int) := by
  simp [nextOf, h, hl]

/-- Once a never-again-used candidate has been recorded (`lru` strictly
below `sys.maxsize`), the OPT scan degenerates to the LRU scan over the
entries whose occurrence lists are empty. -/
theorem optScan_found (freq : Dict (List Nat)) :
    ∀ (l : List (Int × Nat × Nat)) (nxt : Int) (lru : Nat) (fte : Option Int),
    (∀ p ∈ l, (dget freq p.1).isSome) → lru < sysMaxsize →
    optScan freq l nxt lru fte =
      .ok ((specLruPick (l.filter (emptyFuture freq))).elim fte
        (fun q => if q.2.2 < lru then some q.1 else fte)) := by
  intro l
  induction l with
  | nil => intro nxt lru fte _ _; simp [optScan, specLruPick]
  | cons p rest ih =>
      intro nxt lru fte hf hlru
      obtain ⟨k, e⟩ := p
      obtain ⟨fl, hfl⟩ := Option.isSome_iff_exists.mp (hf (k, e) (List.mem_cons_self _ _))
      have hf' : ∀ p ∈ rest, (dget freq p.1).isSome :=
        fun p hp => hf p (List.mem_cons_of_mem _ hp)
      have hef : emptyFuture freq (k, e) = fl.isEmpty := emptyFuture_of_dget hfl
      simp only [optScan, hfl]
      by_cases hcond : fl.isEmpty = true ∧ e.2 < lru
      · rw [if_pos hcond, ih nxt e.2 (some k) hf' (lt_trans hcond.2 hlru)]
        rw [List.filter_cons, hef, if_pos hcond.1]
        simp only [specLruPick]
        cases hpk : specLruPick (rest.filter (emptyFuture freq)) with
        | none =>
            simp only [Option.elim]
            rw [if_pos hcond.2]
        | some q =>
            simp only [Option.elim]
            by_cases h2 : q.2.2 < e.2
            · rw [if_pos h2, if_pos h2, if_pos (by omega : q.2.2 < lru)]
            · rw [if_neg h2, if_neg h2]
              simp only []
              rw [if_pos hcond.2]
      · rw [if_neg hcond, if_neg (by omega : ¬ lru = sysMaxsize),
          ih nxt lru fte hf' hlru, List.filter_cons, hef]
        by_cases hemp : fl.isEmpty = true
        · have hge : lru ≤ e.2 := by
            rcases Nat.lt_or_ge e.2 lru with h | h
            · exact absurd ⟨hemp, h⟩ hcond
            · exact h
          rw [if_pos hemp]
          simp only [specLruPick]
          cases hpk : specLruPick (rest.filter (emptyFuture freq)) with
          | none =>
              simp only [Option.elim]
              rw [if_neg (by omega : ¬ e.2 < lru)]
          | some q =>
              simp only [Option.elim]
              by_cases h2 : q.2.2 < e.2
              · rw [if_pos h2]
              · rw [if_neg h2, if_neg (by omega : ¬ q.2.2 < lru)]
                have hne : ¬ (k, e).2.2 < lru := by change ¬ e.2 < lru; omega
                rw [if_neg hne]
        · rw [if_neg hemp]

/-- While no never-again-used frame has been seen (`lru` still at
`sys.maxsize`), the OPT scan tracks the farthest next future access, and
switches to the never-again-used rule as soon as one candidate appears:
the final victim is rule 1 whenever any entry has an exhausted occurrence
list, and rule 2 only otherwise. -/
theorem optScan_search (freq : Dict (List Nat)) :
    ∀ (l : List (Int × Nat × Nat)) (nxt : Int) (fte : Option Int),
    (∀ p ∈ l, (dget freq p.1).isSome) → (∀ p ∈ l, p.2.2 < sysMaxsize) →
    optScan freq l nxt sysMaxsize fte =
      .ok (if (l.filter (emptyFuture freq)).isEmpty then
        (specMaxPick freq l).elim fte (fun q => if nextOf freq q.1 > nxt then some q.1 else fte)
      else (specLruPick (l.filter (emptyFuture freq))).map (fun q => q.1)) := by
  intro l
  induction l with
  | nil => intro nxt fte _ _; simp [optScan, specMaxPick]
  | cons p rest ih =>
      intro nxt fte hf hord
      obtain ⟨k, e⟩ := p
      obtain ⟨fl, hfl⟩ := Option.isSome_iff_exists.mp (hf (k, e) (List.mem_cons_self _ _))
      have hf' : ∀ p ∈ rest, (dget freq p.1).isSome :=
        fun p hp => hf p (List.mem_cons_of_mem _ hp)
      have hord' : ∀ p ∈ rest, p.2.2 < sysMaxsize :=
        fun p hp => hord p (List.mem_cons_of_mem _ hp)
      have horde : e.2 < sysMaxsize := hord (k, e) (List.mem_cons_self _ _)
      have hef : emptyFuture freq (k, e) = fl.isEmpty := emptyFuture_of_dget hfl
      simp only [optScan, hfl]
      by_cases hemp : fl.isEmpty = true
      · rw [if_pos ⟨hemp, horde⟩,
          optScan_found freq rest nxt e.2 (some k) hf' horde,
          List.filter_cons, hef, if_pos hemp]
        simp only [List.isEmpty_cons, Bool.false_eq_true, if_false, specLruPick]
        cases hpk : specLruPick (rest.filter (emptyFuture freq)) with
        | none => simp [Option.elim]
        | some q =>
            simp only [Option.elim]
            by_cases h2 : q.2.2 < e.2
            · rw [if_pos h2, if_pos h2]
              simp
            · rw [if_neg h2, if_neg h2]
              simp
      · rw [if_neg (fun hc => hemp hc.1), if_pos trivial]
        have hns : fl ≠ [] := fun h => hemp (by simp [h])
        obtain ⟨last, hl⟩ := Option.isSome_iff_exists.mp (List.getLast?_isSome.mpr hns)
        have hnext : nextOf freq k = (last : Int) := nextOf_of_getLast hfl hl
        simp only [hl]
        rw [List.filter_cons, hef, if_neg hemp]
        by_cases hgt : (last : Int) > nxt
        · rw [if_pos hgt, ih last (some k) hf' hord']
          by_cases hfe : (rest.filter (emptyFuture freq)).isEmpty = true
          · rw [if_pos hfe, if_pos hfe]
            simp only [specMaxPick]
            cases hmp : specMaxPick freq rest with
            | none =>
                simp only [Option.elim]
                rw [hnext, if_pos hgt]
            | some q =>
                simp only [Option.elim]
                rw [hnext]
                by_cases h2 : nextOf freq q.1 > (last : Int)
                · rw [if_pos h2, if_pos h2, if_pos (by omega : nextOf freq q.1 > nxt)]
                · rw [if_neg h2, if_neg h2]
                  simp only []
                  rw [hnext, if_pos hgt]
          · rw [if_neg hfe, if_neg hfe]
        · rw [if_neg hgt, ih nxt fte hf' hord']
          by_cases hfe : (rest.filter (emptyFuture freq)).isEmpty = true
          · rw [if_pos hfe, if_pos hfe]
            simp only [specMaxPick]
            cases hmp : specMaxPick freq rest with
            | none =>
                simp only [Option.elim]
                rw [hnext, if_neg hgt]
            | some q =>
                simp only [Option.elim]
                rw [hnext]
                by_cases h2 : nextOf freq q.1 > (last : Int)
                · rw [if_pos h2]
                · rw [if_neg h2, if_neg (by omega : ¬ nextOf freq q.1 > nxt)]
                  simp only []
                  rw [hnext, if_neg hgt]
          · rw [if_neg hfe, if_neg hfe]

/-- C7: in the LRU simulation, whenever an eviction is required from a
full table the eviction loop selects the resident frame with the smallest
`last_access_order`, and between frames of equal order the one that
entered the table earliest (the leftmost in dictionary order) is chosen:
the scanned victim equals the spec-side leftmost minimum, which is
strictly smaller than every earlier entry's order and no larger than
every later entry's order.  The order bound is satisfied in every run,
orders being line indices. -/
theorem C7_lru_victim_rule (entries : Dict (Nat × Nat))
    (hord : ∀ p ∈ entries, p.2.2 < sysMaxsize) :
    lruVictim entries = (specLruPick entries).map (fun q => q.1) ∧
    ∀ q, specLruPick entries = some q →
      ∃ l₁ l₂, entries = l₁ ++ q :: l₂ ∧
        (∀ p ∈ l₁, q.2.2 < p.2.2) ∧ (∀ p ∈ l₂, q.2.2 ≤ p.2.2) := by
  refine ⟨?_, fun q h => specLruPick_char h⟩
  rw [lruVictim, lruScan_eq]
  cases hpk : specLruPick entries with
  | none => simp
  | some q =>
      simp only [Option.elim, Option.map_some']
      rw [if_pos (hord q (specLruPick_mem hpk))]

/-- C7 witness: on a concrete resident set the victim is the entry with
the smallest order, the tie between orders 2 and 2 going to the earlier
entry. -/
theorem C7_lru_victim_rule_witness :
    lruVictim [((5 : Int), (0, 3)), ((7 : Int), (1, 2)), ((9 : Int), (0, 2))] = some 7 := by
  have h := (C7_lru_victim_rule
    [((5 : Int), (0, 3)), ((7 : Int), (1, 2)), ((9 : Int), (0, 2))] (by decide)).1
  rw [h]
  decide

/-- C5: in the OPT simulation, whenever an eviction is required from a
full table, the eviction loop returns — for any arrangement of the
resident entries — the spec-side victim: a frame with an exhausted
occurrence list when one exists (rule 1, smallest last-access order,
ties to the earliest-inserted), and only otherwise the frame whose next
future occurrence is farthest (rule 2, ties to the earliest-inserted).
The hypotheses (every resident frame has an occurrence list and orders
stay below `sys.maxsize`) hold in every run. -/
theorem C5_opt_victim_rule (freq : Dict (List Nat)) (entries : List (Int × Nat × Nat))
    (hf : ∀ p ∈ entries, (dget freq p.1).isSome)
    (hord : ∀ p ∈ entries, p.2.2 < sysMaxsize) :
    optScan freq entries (-1) sysMaxsize none = .ok (specOptVictim freq entries) ∧
    (∀ q, specLruPick (entries.filter (emptyFuture freq)) = some q →
      ∃ l₁ l₂, entries.filter (emptyFuture freq) = l₁ ++ q :: l₂ ∧
        (∀ p ∈ l₁, q.2.2 < p.2.2) ∧ (∀ p ∈ l₂, q.2.2 ≤ p.2.2)) ∧
    (∀ q, specMaxPick freq entries = some q →
      ∃ l₁ l₂, entries = l₁ ++ q :: l₂ ∧
        (∀ p ∈ l₁, nextOf freq p.1 < nextOf freq q.1) ∧
        (∀ p ∈ l₂, nextOf freq p.1 ≤ nextOf freq q.1)) := by
  refine ⟨?_, fun q h => specLruPick_char h, fun q h => specMaxPick_char h⟩
  rw [optScan_search freq entries (-1) none hf hord]
  simp only [specOptVictim]
  by_cases hfe : (entries.filter (emptyFuture freq)).isEmpty = true
  · rw [if_pos hfe, if_pos hfe]
    cases hmp : specMaxPick freq entries with
    | none => simp
    | some q =>
        have hqm := specMaxPick_mem hmp
        have hne : ¬ emptyFuture freq q = true := by
          intro hcon
          have hmemf : q ∈ entries.filter (emptyFuture freq) :=
            List.mem_filter.mpr ⟨hqm, hcon⟩
          rw [List.isEmpty_iff] at hfe
          rw [hfe] at hmemf
          exact absurd hmemf (List.not_mem_nil q)
        obtain ⟨fl, hfl⟩ := Option.isSome_iff_exists.mp (hf q hqm)
        have hflne : fl ≠ [] := by
          intro hcon
          exact hne (by simp [emptyFuture, hfl, hcon])
        obtain ⟨n, hn⟩ := Option.isSome_iff_exists.mp (List.getLast?_isSome.mpr hflne)
        simp only [Option.elim, Option.map_some']
        rw [if_pos (by rw [nextOf_of_getLast hfl hn]; omega : nextOf freq q.1 > -1)]
  · rw [if_neg hfe, if_neg hfe]

/-- C5 witness: on a concrete resident set in which the second entry is
never referenced again, rule 1 fires and evicts it even though the third
entry has the farthest next occurrence. -/
theorem C5_opt_victim_rule_witness :
    optScan [((3 : Int), ([] : List Nat)), (5, [9]), (7, [44])]
      [((5 : Int), (0, 1)), ((3 : Int), (0, 2)), ((7 : Int), (1, 0))]
      (-1) sysMaxsize none = .ok (some 3) := by
  have h := (C5_opt_victim_rule [((3 : Int), ([] : List Nat)), (5, [9]), (7, [44])]
    [((5 : Int), (0, 1)), ((3 : Int), (0, 2)), ((7 : Int), (1, 0))]
    (by decide) (by decide)).1
  rw [h]
  exact congrArg Except.ok (by decide)

/-- C4: with a capacity-0 table (`split 0:1`), the first reference routed
to that table is a miss on a table that reports full while empty; the
eviction loop never assigns `frame_to_evict`, and `entries[None]` raises a
KeyError, so the simulation crashes instead of completing with the fault
counted — under both LRU and OPT. -/
theorem C4_capacity_zero_keyerror :
    lru_sim "0:1" 4 (some 10) ["l 0 0"] = .error .keyError ∧
    opt_sim "0:1" 4 (some 10) ["l 0 0"] = .error .keyError := by
  exact ⟨by with_unfolding_all rfl, by with_unfolding_all rfl⟩

/-- C1 counterexample: with frame_total 3 and split `1:1` each table gets
the fractional capacity 3/2; after two distinct references to process 0
its table holds 2 entries while its frames value is 3/2, so
`resident.size() ≤ capacity` is violated. -/
theorem C1_resident_bound_counterexample :
    (lru_sim "1:1" 3 (some 10) ["l 0 0", "l 100000 0"]).map
      (fun r => r.1.map (fun t => ((t.entries.length : ℚ), t.frames)))
      = .ok [(2, 3/2), (0, 3/2)] ∧
    ¬ ((2 : ℚ) ≤ 3/2) := by
  refine ⟨by with_unfolding_all rfl, by norm_num⟩

/-- C2 counterexample: with frame_total 3 and split ratio 1:1 the source
assigns capacity 3/2 (the exact quotient), and 3/2 differs from the
claimed integer `floor(3 * 1 / (1 + 1)) = 1`. -/
theorem C2_split_floor_counterexample :
    (split_memory "1:1" 3).map (fun ts => ts.map (fun t => t.frames))
      = .ok [3/2, 3/2] ∧
    (⌊(3 : ℚ) * 1 / (1 + 1)⌋ : ℚ) = 1 ∧ ¬ ((3 : ℚ)/2 = 1) := by
  refine ⟨by with_unfolding_all rfl, by norm_num, by norm_num⟩

theorem flNorm_pos : ∀ (fuel : Nat) (s pw : ℚ), 0 < s → 0 < pw →
    0 < (flNorm fuel s pw).1 ∧ 0 < (flNorm fuel s pw).2 := by
  intro fuel
  induction fuel with
  | zero => intro s pw hs hpw; exact ⟨hs, hpw⟩
  | succ n ih =>
      intro s pw hs hpw
      rw [flNorm]
      split
      · exact ih _ _ (by positivity) (by positivity)
      · split
        · exact ih _ _ (by positivity) (by positivity)
        · exact ⟨hs, hpw⟩

theorem flRound_nonneg {s pw : ℚ} (hs : 0 < s) (hpw : 0 < pw) :
    0 ≤ flRound s pw := by
  have hfl : 0 ≤ ⌊s⌋ := Int.floor_nonneg.mpr hs.le
  rw [flRound]
  split_ifs
  · exact mul_nonneg (by exact_mod_cast hfl) hpw.le
  · exact mul_nonneg (by exact_mod_cast (show (0 : ℤ) ≤ ⌊s⌋ + 1 by omega)) hpw.le
  · exact mul_nonneg (by exact_mod_cast hfl) hpw.le
  · exact mul_nonneg (by exact_mod_cast (show (0 : ℤ) ≤ ⌊s⌋ + 1 by omega)) hpw.le

theorem fl64_nonneg {q : ℚ} (hq : 0 ≤ q) : 0 ≤ fl64 q := by
  rw [fl64]
  rcases eq_or_lt_of_le hq with h | h
  · rw [if_pos h.symm]
  · rw [if_neg (ne_of_gt h), if_pos h, flPos]
    obtain ⟨h1, h2⟩ := flNorm_pos 2200 q 1 h one_pos
    exact flRound_nonneg h1 h2

/-- C2 amended: for split digits d0, d2 (`d0 + d2 > 0`) and nonnegative
frame_total, `split_memory` succeeds and assigns process i the
IEEE-double value `fl(fl(d_i / (d0 + d2)) · fl(frame_total))` — the
quotient, the int-to-float conversion and the product each rounded to
binary64 — which is neither the floor nor in general the exact quotient;
the stored capacities are nonnegative, but they need not sum to
frame_total and an evenly dividing split need not store an integer:
split 1:2 of 4 stores capacities summing to `4 - 2⁻⁵²`, and split 7:3 of
90 stores `63 - 2⁻⁴⁷` for the first process although the exact quotient
is 63. -/
theorem C2_split_round (ms : String) (frames : Int) (c0 c2 : Char) (d0 d2 : Nat)
    (h0 : ms.toList.get? 0 = some c0) (hp0 : pyIntDigit c0 = some d0)
    (h2 : ms.toList.get? 2 = some c2) (hp2 : pyIntDigit c2 = some d2)
    (hsum : d0 + d2 ≠ 0) (hf : 0 ≤ frames) :
    split_memory ms frames = .ok
      [page_table.init (fl64 (fl64 ((d0 : ℚ) / ((d0 : ℚ) + (d2 : ℚ))) * fl64 (frames : ℚ))),
       page_table.init (fl64 (fl64 ((d2 : ℚ) / ((d0 : ℚ) + (d2 : ℚ))) * fl64 (frames : ℚ)))] ∧
    0 ≤ fl64 (fl64 ((d0 : ℚ) / ((d0 : ℚ) + (d2 : ℚ))) * fl64 (frames : ℚ)) ∧
    0 ≤ fl64 (fl64 ((d2 : ℚ) / ((d0 : ℚ) + (d2 : ℚ))) * fl64 (frames : ℚ)) ∧
    (split_memory "1:2" 4).map (fun ts => ts.map (fun t => t.frames)) =
      .ok [(6004799503160661 : ℚ) / 2 ^ 52, (6004799503160661 : ℚ) / 2 ^ 51] ∧
    (6004799503160661 : ℚ) / 2 ^ 52 + (6004799503160661 : ℚ) / 2 ^ 51 ≠ (4 : ℚ) ∧
    (split_memory "7:3" 90).map (fun ts => (ts.map (fun t => t.frames)).get? 0) =
      .ok (some (63 - (1 : ℚ) / 2 ^ 47)) ∧
    63 - (1 : ℚ) / 2 ^ 47 ≠ (63 : ℚ) ∧ 63 - (1 : ℚ) / 2 ^ 47 ≠ (62 : ℚ) := by
  have hfq : (0 : ℚ) ≤ (frames : ℚ) := by exact_mod_cast hf
  have hnn : ∀ dd : ℕ, 0 ≤ fl64 (fl64 ((dd : ℚ) / ((d0 : ℚ) + (d2 : ℚ))) *
      fl64 (frames : ℚ)) := by
    intro dd
    exact fl64_nonneg (mul_nonneg
      (fl64_nonneg (div_nonneg (Nat.cast_nonneg dd) (by positivity)))
      (fl64_nonneg hfq))
  refine ⟨?_, hnn d0, hnn d2, ?_, by norm_num, ?_, by norm_num, by norm_num⟩
  · simp only [split_memory, h0, hp0, h2, hp2]
    rw [if_neg (by push_neg; exact ⟨Int.ofNat_nonneg d0, Int.ofNat_nonneg d2⟩),
      if_neg hsum]
  · with_unfolding_all rfl
  · with_unfolding_all rfl

/-- C2 witness: the amended rule at frame_total 4 and split 1:1 — every
rounding is exact here — gives both tables capacity 2. -/
theorem C2_split_round_witness :
    split_memory "1:1" 4 = .ok [page_table.init 2, page_table.init 2] := by
  have h := (C2_split_round "1:1" 4 '1' '1' 1 1 rfl (by decide) rfl (by decide)
    (by decide) (by decide)).1
  rw [h]
  with_unfolding_all rfl

theorem pow_toNat (k : Nat) : ((2 : Int) ^ k).toNat = 2 ^ k := by
  rw [show ((2 : ℤ) ^ k) = ((2 ^ k : ℕ) : ℤ) by push_cast; ring]
  exact Int.toNat_natCast _

theorem log2Faithful_lgFloor : log2Faithful lgFloor := by
  intro p hp
  refine ⟨⟨by rw [lgFloor]; omega, by rw [lgFloor]; omega⟩, ?_⟩
  intro k hk
  rw [lgFloor, hk, pow_toNat, Nat.log2_two_pow]

theorem nat_log2_pow49_sub_one : Nat.log2 (2 ^ 49 - 1) = 48 := by
  rw [Nat.log2_eq_log_two]
  exact Nat.log_eq_of_pow_le_of_lt_pow (by norm_num) (by norm_num)

theorem toNat_pow49_sub_one : ((2 : ℤ) ^ 49 - 1).toNat = 2 ^ 49 - 1 := by
  rw [show ((2 : ℤ) ^ 49 - 1) = ((2 ^ 49 - 1 : ℕ) : ℤ) by norm_num]
  exact Int.toNat_natCast _

theorem log2Faithful_lgNear : log2Faithful lgNear := by
  intro p hp
  by_cases hcase : p = 2 ^ 49 - 1
  · refine ⟨⟨?_, ?_⟩, ?_⟩
    · rw [hcase, lgNear, if_pos rfl, toNat_pow49_sub_one, nat_log2_pow49_sub_one]
      norm_num
    · rw [hcase, lgNear, if_pos rfl, toNat_pow49_sub_one, nat_log2_pow49_sub_one]
      norm_num
    · intro k hk
      exfalso
      have heq : (2 : ℤ) ^ 49 - 1 = 2 ^ k := by rw [← hcase, hk]
      rcases k with _ | j
      · norm_num at heq
      · have hodd : ((2 : ℤ) ^ 49 - 1) % 2 = 1 := by decide
        have heven : ((2 : ℤ) ^ (j + 1)) % 2 = 0 := by
          rw [pow_succ]
          exact Int.mul_emod_left _ _
        rw [heq] at hodd
        omega
  · have h := log2Faithful_lgFloor p hp
    refine ⟨⟨?_, ?_⟩, ?_⟩
    · rw [lgNear, if_neg hcase]
      exact h.1.1
    · rw [lgNear, if_neg hcase]
      exact h.1.2
    · intro k hk
      rw [lgNear, if_neg hcase]
      exact h.2 k hk

/-- C9 counterexample: page size 3 is not a power of two, yet under the
floor platform log2 the configuration succeeds with shift
`int(log2 3) + 10 = 11` and addresses then translate by that shift
(0x1000 >> 11 = 2); moreover the two admissible platform behaviors
`lgFloor` and `lgNear` — both satisfying `log2Faithful` — give the
different shifts 58 and 59 at page size `2^49 - 1`, so not even a single
shift formula in the page size is true of the program. -/
theorem C9_pagesize_counterexample :
    configureOffset lgFloor 3 = .ok (some 11) ∧
    parse_line (some 11) "l 1000 0" = .ok (0, 2, 0) ∧
    configureOffset lgFloor (2 ^ 49 - 1) = .ok (some 58) ∧
    configureOffset lgNear (2 ^ 49 - 1) = .ok (some 59) := by
  have h3 : lgFloor 3 = 1 := by
    have hl : Nat.log2 3 = 1 := by
      rw [Nat.log2_eq_log_two]
      exact Nat.log_eq_of_pow_le_of_lt_pow (by norm_num) (by norm_num)
    rw [lgFloor, show ((3 : Int)).toNat = 3 from rfl, hl]
    rfl
  refine ⟨?_, by with_unfolding_all rfl, ?_, ?_⟩
  · rw [configureOffset, if_pos (by norm_num), if_neg (by norm_num), h3]
    rfl
  · rw [configureOffset, if_pos (by norm_num), if_neg (by norm_num),
      show lgFloor (2 ^ 49 - 1) = 48 by
        rw [lgFloor, toNat_pow49_sub_one, nat_log2_pow49_sub_one]
        rfl]
    rfl
  · rw [configureOffset, if_pos (by norm_num), if_neg (by norm_num),
      show lgNear (2 ^ 49 - 1) = 49 from if_pos rfl]
    rfl

/-- C9 amended: configuring the page size fails (with `math.log2`'s
ValueError) exactly for negative page sizes; a zero page size leaves the
shift unset (`None`, so translation later fails); every positive page
size — power of two or not — succeeds, with shift `int(log2 p) + 10`
computed from the platform's float logarithm: exactly `k + 10` when
`p = 2^k`, and within one of `⌊log2 p⌋ + 10` in general (near a power of
two the float can round up: at `p = 2^49 - 1` a correctly rounded log2
gives shift 59 while the floor gives 58). -/
theorem C9_offset_rule (lg : Int → Int) (hlg : log2Faithful lg) (p : Int) :
    (configureOffset lg p = .error .valueError ↔ p < 0) ∧
    (configureOffset lg p = .ok none ↔ p = 0) ∧
    (0 < p → ∃ s : Nat, configureOffset lg p = .ok (some s) ∧
      Nat.log2 p.toNat + 9 ≤ s ∧ s ≤ Nat.log2 p.toNat + 11) ∧
    (∀ k : Nat, p = 2 ^ k → configureOffset lg p = .ok (some (k + 10))) := by
  refine ⟨?_, ?_, ?_, ?_⟩
  · rw [configureOffset]
    rcases lt_trichotomy p 0 with h | h | h
    · rw [if_pos (by omega), if_pos h]
      simp [h]
    · rw [if_neg (by omega)]
      simp
      omega
    · rw [if_pos (by omega), if_neg (by omega)]
      simp
      omega
  · rw [configureOffset]
    rcases eq_or_ne p 0 with h | h
    · rw [if_neg (by omega)]
      simp [h]
    · rw [if_pos h]
      split <;> simp [h]
  · intro h
    have hnn : 0 ≤ lg p := by
      obtain ⟨⟨hlo, hhi⟩, hpow⟩ := hlg p h
      by_cases h1 : p = 1
      · rw [hpow 0 (by rw [h1]; norm_num)]
        norm_num
      · have h2 : 1 ≤ Nat.log2 p.toNat := by
          rw [Nat.log2_eq_log_two]
          exact Nat.log_pos (by norm_num) (by omega)
        omega
    obtain ⟨⟨hlo, hhi⟩, _⟩ := hlg p h
    refine ⟨(lg p).toNat + 10, ?_, by omega, by omega⟩
    rw [configureOffset, if_pos (by omega), if_neg (by omega)]
  · intro k hk
    have h1 : (0 : Int) < p := by rw [hk]; positivity
    obtain ⟨_, hpow⟩ := hlg p h1
    rw [configureOffset, if_pos (by omega), if_neg (by omega), hpow k hk,
      Int.toNat_natCast]

/-- C9 witness: the amended rule under the floor platform log2 at page
size 8 gives shift 13. -/
theorem C9_offset_rule_witness : configureOffset lgFloor 8 = .ok (some 13) := by
  exact (C9_offset_rule lgFloor log2Faithful_lgFloor 8).2.2.2 3 (by norm_num)

/-- C8 counterexample: the line `s 1A 5` has a third field starting with
the digit 5 — by the claim decoding must fail, but the source decodes it
to process index 5; and a tab-separated line with three
whitespace-separated valid fields — by the claim a success — fails with an
IndexError because the source splits on single spaces only. -/
theorem C8_parse_line_counterexample :
    parse_line (some 10) "s 1A 5" = .ok (1, 0, 5) ∧
    parse_line (some 10) "l\t12 0" = .error .indexError := by
  exact ⟨by with_unfolding_all rfl, by with_unfolding_all rfl⟩

/-- C8 amended: for trace lines of ASCII characters, decoding with a
configured shift fails exactly when the line split on single space
characters has fewer than three fields, or the second field is not
parseable by Python's `int(·, 16)`, or the third field is empty or
starts with a character that is not a digit (any digit 0-9 is accepted
as a process index).  Decoding is a pure function, so it has no side
effects.  Beyond ASCII, CPython's `int` additionally accepts Unicode
decimal digits and whitespace (`int('٥') = 5`, `int('١A', 16) = 26`), so
a line such as `s 1A ٥` decodes to process index 5 — such lines are
outside this rule, which is why it is stated for ASCII lines only. -/
theorem C8_parse_line_rule (off : Nat) (lineStr : String)
    (_hascii : ∀ c ∈ lineStr.toList, c.toNat < 128) :
    (∃ e, parse_line (some off) lineStr = .error e) ↔
      ((lineStr.splitOn " ").length < 3 ∨
       (∃ f1, (lineStr.splitOn " ").get? 1 = some f1 ∧ pyIntHex f1 = none) ∨
       (∃ f2, (lineStr.splitOn " ").get? 2 = some f2 ∧
         (f2.toList.get? 0).bind pyIntDigit = none)) := by
  cases h0 : (lineStr.splitOn " ").get? 0 with
  | none =>
      refine iff_of_true ⟨.indexError, by simp only [parse_line, h0]⟩ (Or.inl ?_)
      have := List.get?_eq_none.mp h0
      omega
  | some f0 =>
  cases h1 : (lineStr.splitOn " ").get? 1 with
  | none =>
      refine iff_of_true ⟨.indexError, by simp only [parse_line, h0, h1]⟩ (Or.inl ?_)
      have := List.get?_eq_none.mp h1
      omega
  | some f1 =>
  cases hhex : pyIntHex f1 with
  | none =>
      exact iff_of_true ⟨.valueError, by simp only [parse_line, h0, h1, hhex]⟩
        (Or.inr (Or.inl ⟨f1, rfl, hhex⟩))
  | some addr =>
  cases h2 : (lineStr.splitOn " ").get? 2 with
  | none =>
      refine iff_of_true ⟨.indexError, by simp only [parse_line, h0, h1, hhex, h2]⟩
        (Or.inl ?_)
      have := List.get?_eq_none.mp h2
      omega
  | some f2 =>
  have hlen : 2 < (lineStr.splitOn " ").length := by
    by_contra hcon
    rw [List.get?_eq_none.mpr (by omega)] at h2
    exact Option.noConfusion h2
  cases hc : f2.toList.get? 0 with
  | none =>
      refine iff_of_true
        ⟨.indexError, by simp only [parse_line, h0, h1, hhex, h2, hc]⟩
        (Or.inr (Or.inr ⟨f2, rfl, by rw [hc]; rfl⟩))
  | some c =>
  cases hd : pyIntDigit c with
  | none =>
      refine iff_of_true
        ⟨.valueError, by simp only [parse_line, h0, h1, hhex, h2, hc, hd]⟩
        (Or.inr (Or.inr ⟨f2, rfl, by rw [hc]; simpa using hd⟩))
  | some ti =>
  refine iff_of_false ?_ ?_
  · rintro ⟨e, he⟩
    simp only [parse_line, h0, h1, hhex, h2, hc, hd] at he
    exact Except.noConfusion he
  · rintro (ha | ⟨f1x, hf1x, hhx⟩ | ⟨f2x, hf2x, hdx⟩)
    · omega
    · obtain rfl : f1 = f1x := Option.some.inj hf1x
      rw [hhex] at hhx
      exact Option.noConfusion hhx
    · obtain rfl : f2 = f2x := Option.some.inj hf2x
      rw [hc] at hdx
      simp [hd] at hdx

/-- C8 witness: the amended rule at the ASCII line `l 12`, which has
only two fields: decoding fails, and the rule's first disjunct holds. -/
theorem C8_parse_line_rule_witness :
    ((("l 12" : String).splitOn " ").length < 3 ∨
     (∃ f1, (("l 12" : String).splitOn " ").get? 1 = some f1 ∧ pyIntHex f1 = none) ∨
     (∃ f2, (("l 12" : String).splitOn " ").get? 2 = some f2 ∧
       (f2.toList.get? 0).bind pyIntDigit = none)) := by
  exact (C8_parse_line_rule 10 "l 12" (by decide)).mp
    ⟨.indexError, by with_unfolding_all rfl⟩

/-! ### Dictionary lemmas -/

theorem dcontains_iff {α} {d : Dict α} {k : Int} :
    dcontains d k = true ↔ ∃ p ∈ d, p.1 = k := by
  simp [dcontains]

theorem dget_isSome_of_key {α} {d : Dict α} {k : Int} (h : ∃ p ∈ d, p.1 = k) :
    ∃ v, dget d k = some v := by
  obtain ⟨p, hp, hpk⟩ := h
  cases hf : d.find? (fun q => decide (q.1 = k)) with
  | none =>
      exact absurd (by exact decide_eq_true hpk) (List.find?_eq_none.mp hf p hp)
  | some q =>
      exact ⟨q.2, by rw [dget, hf]; rfl⟩

theorem dset_length {α} (d : Dict α) (k : Int) (v : α) :
    (dset d k v).length = if dcontains d k then d.length else d.length + 1 := by
  by_cases h : dcontains d k = true
  · rw [dset, if_pos h, if_pos h]
    simp
  · rw [dset, if_neg h, if_neg h]
    simp

theorem dset_map_fst {α} (d : Dict α) (k : Int) (v : α) :
    (dset d k v).map Prod.fst =
      if dcontains d k then d.map Prod.fst else d.map Prod.fst ++ [k] := by
  by_cases h : dcontains d k = true
  · rw [dset, if_pos h, if_pos h, List.map_map]
    apply List.map_congr_left
    intro p hp
    by_cases h2 : p.1 = k
    · simp [Function.comp, h2]
    · simp [Function.comp, h2]
  · rw [dset, if_neg h, if_neg h]
    simp

theorem dpop_sub {α} {d : Dict α} {k : Int} {p} (h : p ∈ dpop d k) : p ∈ d :=
  List.mem_of_mem_filter h

theorem dpop_map_fst_sublist {α} (d : Dict α) (k : Int) :
    List.Sublist ((dpop d k).map Prod.fst) (d.map Prod.fst) :=
  List.Sublist.map Prod.fst (List.filter_sublist d)

theorem dpop_length {α} {d : Dict α} {k : Int}
    (hnd : (d.map Prod.fst).Nodup) (hk : ∃ p ∈ d, p.1 = k) :
    (dpop d k).length + 1 = d.length := by
  induction d with
  | nil => simp at hk
  | cons q d ih =>
      simp only [List.map_cons, List.nodup_cons] at hnd
      by_cases hq : q.1 = k
      · have hall : ∀ p ∈ d, ¬ p.1 = k := by
          intro p hp hpk
          apply hnd.1
          rw [hq, ← hpk]
          exact List.mem_map_of_mem Prod.fst hp
        rw [dpop, List.filter_cons, if_neg (by simp [hq])]
        rw [List.filter_eq_self.mpr (by intro p hp; simpa using hall p hp)]
        simp
      · rw [dpop, List.filter_cons, if_pos (by simpa using hq)]
        have hk2 : ∃ p ∈ d, p.1 = k := by
          obtain ⟨p, hp, hpk⟩ := hk
          rcases List.mem_cons.mp hp with rfl | hp
          · exact absurd hpk hq
          · exact ⟨p, hp, hpk⟩
        simp only [List.length_cons]
        rw [← ih hnd.2 hk2]
        rfl

theorem dcontains_dpop_false {α} {d : Dict α} {k f : Int}
    (h : ¬ dcontains d f = true) : ¬ dcontains (dpop d k) f = true := by
  intro hc
  apply h
  rw [dcontains_iff] at hc ⊢
  obtain ⟨p, hp, hpf⟩ := hc
  exact ⟨p, dpop_sub hp, hpf⟩

/-- Whatever the seed, a frame returned by the LRU scan is the seed or a
key of the scanned list. -/
theorem lruScan_some_mem :
    ∀ (l : List (Int × Nat × Nat)) (lru : Nat) (fte : Option Int) (k : Int),
    lruScan l lru fte = some k → fte = some k ∨ ∃ p ∈ l, p.1 = k := by
  intro l
  induction l with
  | nil => intro lru fte k h; exact Or.inl h
  | cons p rest ih =>
      intro lru fte k h
      rw [lruScan] at h
      split at h
      · rcases ih _ _ _ h with h2 | h2
        · exact Or.inr ⟨p, List.mem_cons_self _ _, Option.some.inj h2⟩
        · obtain ⟨q, hq, hqk⟩ := h2
          exact Or.inr ⟨q, List.mem_cons_of_mem _ hq, hqk⟩
      · rcases ih _ _ _ h with h2 | h2
        · exact Or.inl h2
        · obtain ⟨q, hq, hqk⟩ := h2
          exact Or.inr ⟨q, List.mem_cons_of_mem _ hq, hqk⟩

/-- Whatever the seed, a frame returned by the OPT scan is the seed or a
key of the scanned list. -/
theorem optScan_ok_some_mem (freq : Dict (List Nat)) :
    ∀ (l : List (Int × Nat × Nat)) (nxt : Int) (lru : Nat) (fte : Option Int) (k : Int),
    optScan freq l nxt lru fte = .ok (some k) → fte = some k ∨ ∃ p ∈ l, p.1 = k := by
  intro l
  induction l with
  | nil =>
      intro nxt lru fte k h
      exact Or.inl (congrArg id (Except.ok.inj h))
  | cons p rest ih =>
      obtain ⟨kk, e⟩ := p
      intro nxt lru fte k h
      rw [optScan] at h
      cases hfl : dget freq kk with
      | none => rw [hfl] at h; exact Except.noConfusion h
      | some fl =>
          rw [hfl] at h
          simp only [] at h
          split at h
          · rcases ih _ _ _ _ h with h2 | h2
            · exact Or.inr ⟨(kk, e), List.mem_cons_self _ _, Option.some.inj h2⟩
            · obtain ⟨q, hq, hqk⟩ := h2
              exact Or.inr ⟨q, List.mem_cons_of_mem _ hq, hqk⟩
          · split at h
            · cases hl : fl.getLast? with
              | none => rw [hl] at h; exact Except.noConfusion h
              | some last =>
                  rw [hl] at h
                  simp only [] at h
                  split at h
                  · rcases ih _ _ _ _ h with h2 | h2
                    · exact Or.inr ⟨(kk, e), List.mem_cons_self _ _, Option.some.inj h2⟩
                    · obtain ⟨q, hq, hqk⟩ := h2
                      exact Or.inr ⟨q, List.mem_cons_of_mem _ hq, hqk⟩
                  · rcases ih _ _ _ _ h with h2 | h2
                    · exact Or.inl h2
                    · obtain ⟨q, hq, hqk⟩ := h2
                      exact Or.inr ⟨q, List.mem_cons_of_mem _ hq, hqk⟩
            · rcases ih _ _ _ _ h with h2 | h2
              · exact Or.inl h2
              · obtain ⟨q, hq, hqk⟩ := h2
                exact Or.inr ⟨q, List.mem_cons_of_mem _ hq, hqk⟩

/-! ### The resident-set invariant -/

/-- Invariant carried by every page table whose frames value is a natural
number: keys are distinct (a dictionary) and the resident count never
exceeds the frames value. -/
def tableInvariant (t : page_table) : Prop :=
  ((t.entries.map Prod.fst).Nodup) ∧ (∃ n : ℕ, t.frames = (n : ℚ)) ∧
    ((t.entries.length : ℚ) ≤ t.frames)

theorem isFull_iff (t : page_table) :
    t.isFull = true ↔ (t.entries.length : ℚ) = t.frames := by
  simp [page_table.isFull]

/-- A hit update (reassigning an existing key) keeps the key set and the
size. -/
theorem inv_entries_hit {entries : Dict (Nat × Nat)} {f : Int} {v}
    (hm : dcontains entries f = true) :
    (dset entries f v).map Prod.fst = entries.map Prod.fst ∧
    (dset entries f v).length = entries.length := by
  constructor
  · rw [dset_map_fst, if_pos hm]
  · rw [dset_length, if_pos hm]

/-- Inserting a fresh key into a non-full table preserves the invariant. -/
theorem inv_entries_miss_notfull {entries : Dict (Nat × Nat)} {frames : ℚ} {f : Int} {v}
    (hnd : (entries.map Prod.fst).Nodup) (hb : (entries.length : ℚ) ≤ frames)
    (hnat : ∃ n : ℕ, frames = (n : ℚ))
    (hm : ¬ dcontains entries f = true)
    (hnf : ¬ ((entries.length : ℚ) = frames)) :
    ((dset entries f v).map Prod.fst).Nodup ∧
    ((dset entries f v).length : ℚ) ≤ frames := by
  obtain ⟨n, rfl⟩ := hnat
  have hlen : entries.length < n := by
    have h1 : (entries.length : ℚ) < (n : ℚ) := lt_of_le_of_ne hb hnf
    exact_mod_cast h1
  constructor
  · rw [dset_map_fst, if_neg hm]
    rw [List.nodup_append]
    refine ⟨hnd, List.nodup_singleton f, ?_⟩
    intro a ha hb2
    rcases List.mem_singleton.mp hb2 with rfl
    exact hm (dcontains_iff.mpr (by
      obtain ⟨p, hp, hpk⟩ := List.mem_map.mp ha
      exact ⟨p, hp, hpk⟩))
  · rw [dset_length, if_neg hm]
    exact_mod_cast Nat.succ_le_of_lt hlen

/-- Evicting a resident key and inserting a fresh one preserves the
invariant. -/
theorem inv_entries_evict_insert {entries : Dict (Nat × Nat)} {frames : ℚ}
    {f k : Int} {v}
    (hnd : (entries.map Prod.fst).Nodup) (hb : (entries.length : ℚ) ≤ frames)
    (hkmem : ∃ p ∈ entries, p.1 = k)
    (hm : ¬ dcontains entries f = true) :
    ((dset (dpop entries k) f v).map Prod.fst).Nodup ∧
    ((dset (dpop entries k) f v).length : ℚ) ≤ frames := by
  have hmpop : ¬ dcontains (dpop entries k) f = true := dcontains_dpop_false hm
  have hndpop : ((dpop entries k).map Prod.fst).Nodup :=
    (dpop_map_fst_sublist entries k).nodup hnd
  constructor
  · rw [dset_map_fst, if_neg hmpop]
    rw [List.nodup_append]
    refine ⟨hndpop, List.nodup_singleton _, ?_⟩
    intro a ha hb2
    rcases List.mem_singleton.mp hb2 with rfl
    exact hmpop (dcontains_iff.mpr (by
      obtain ⟨p, hp, hpk⟩ := List.mem_map.mp ha
      exact ⟨p, hp, hpk⟩))
  · rw [dset_length, if_neg hmpop]
    rw [dpop_length hnd hkmem]
    exact hb

/-- Full inversion of a successful LRU step: the routed table exists, the
access counter increments, and the state splits into the hit, fault
without eviction, and fault with eviction cases of the source. -/
theorem lruStep_cases {tables : List page_table} {st : Stats} {i : Nat}
    {d : Nat} {f : Int} {idx : Nat} {r}
    (h : lruStep tables st i d f idx = .ok r) :
    ∃ t, tables.get? idx = some t ∧
      r.2.memory_accesses = st.memory_accesses + 1 ∧
      ((dcontains t.entries f = true ∧
          r.2.page_faults = st.page_faults ∧ r.2.disk_writes = st.disk_writes ∧
          ∃ e, dget t.entries f = some e ∧
            r.1 = tables.set idx
              { t with entries := dset t.entries f (if e.1 = 1 ∨ d = 1 then (1, i) else (0, i)) }) ∨
       (¬ dcontains t.entries f = true ∧ r.2.page_faults = st.page_faults + 1 ∧
          ((t.isFull = false ∧ r.2.disk_writes = st.disk_writes ∧
              r.1 = tables.set idx { t with entries := dset t.entries f (d, i) }) ∨
           (t.isFull = true ∧
              ∃ fte e, lruVictim t.entries = some fte ∧ dget t.entries fte = some e ∧
                r.2.disk_writes =
                  (if e.1 = 1 then st.disk_writes + 1 else st.disk_writes) ∧
                r.1 = tables.set idx
                  { t with entries := dset (dpop t.entries fte) f (d, i) })))) := by
  simp only [lruStep] at h
  split at h
  · exact Except.noConfusion h
  next t hget =>
    refine ⟨t, hget, ?_⟩
    split at h
    next hmiss =>
      split at h
      next hfull =>
        split at h
        · exact Except.noConfusion h
        next fte hv =>
          split at h
          · exact Except.noConfusion h
          next e he =>
            rw [Except.ok.injEq] at h
            subst h
            exact ⟨by split_ifs <;> rfl,
              Or.inr ⟨hmiss, by split_ifs <;> rfl,
                Or.inr ⟨hfull, fte, e, hv, he, by split_ifs <;> rfl,
                  by split_ifs <;> rfl⟩⟩⟩
      next hfull =>
        rw [Except.ok.injEq] at h
        subst h
        exact ⟨rfl, Or.inr ⟨hmiss, rfl,
          Or.inl ⟨Bool.not_eq_true _ ▸ (by simpa using hfull), rfl, rfl⟩⟩⟩
    next hhit =>
      split at h
      · exact Except.noConfusion h
      next e he =>
        rw [Except.ok.injEq] at h
        subst h
        have hc : dcontains t.entries f = true := by
          by_contra hc
          exact hhit hc
        refine ⟨rfl, Or.inl ⟨hc, rfl, rfl, e, he, ?_⟩⟩
        by_cases hd : e.1 = 1 ∨ d = 1
        · rw [if_pos hd, if_pos hd]
        · rw [if_neg hd, if_neg hd]

/-- Full inversion of a successful OPT second-pass step: hit, fault
without eviction, or fault with eviction; in every case the faulting or
hitting frame's own occurrence list is present, non-empty, and consumed
from the back. -/
theorem optStep_cases {tables : List page_table} {st : Stats} {i : Nat}
    {d : Nat} {f : Int} {idx : Nat} {r}
    (h : optStep tables st i d f idx = .ok r) :
    ∃ t, tables.get? idx = some t ∧
      r.2.memory_accesses = st.memory_accesses + 1 ∧
      ((dcontains t.entries f = true ∧
          r.2.page_faults = st.page_faults ∧ r.2.disk_writes = st.disk_writes ∧
          ∃ fl, dget t.freq f = some fl ∧ fl.isEmpty = false ∧
          ∃ e, dget t.entries f = some e ∧
            r.1 = tables.set idx
              ⟨t.frames, dset t.entries f (if e.1 = 1 ∨ d = 1 then (1, i) else (0, i)),
                dset t.freq f fl.dropLast⟩) ∨
       (¬ dcontains t.entries f = true ∧ r.2.page_faults = st.page_faults + 1 ∧
          ∃ fl, dget t.freq f = some fl ∧ fl.isEmpty = false ∧
          ((t.isFull = false ∧ r.2.disk_writes = st.disk_writes ∧
              r.1 = tables.set idx
                ⟨t.frames, dset t.entries f (d, i), dset t.freq f fl.dropLast⟩) ∨
           (t.isFull = true ∧
              ∃ fte e, optScan t.freq t.entries (-1) sysMaxsize none = .ok (some fte) ∧
                dget t.entries fte = some e ∧
                r.2.disk_writes =
                  (if e.1 = 1 then st.disk_writes + 1 else st.disk_writes) ∧
                r.1 = tables.set idx
                  ⟨t.frames, dset (dpop t.entries fte) f (d, i),
                    dset t.freq f fl.dropLast⟩)))) := by
  simp only [optStep, optInsert] at h
  split at h
  · exact Except.noConfusion h
  next t hget =>
    refine ⟨t, hget, ?_⟩
    split at h
    next hmiss =>
      split at h
      next hfull =>
        split at h
        · exact Except.noConfusion h
        · exact Except.noConfusion h
        next fte hscan =>
          split at h
          · exact Except.noConfusion h
          next e he =>
            split at h
            · exact Except.noConfusion h
            next fl hfl =>
              split at h
              · exact Except.noConfusion h
              next hemp =>
                rw [Except.ok.injEq] at h
                subst h
                exact ⟨by split_ifs <;> rfl,
                  Or.inr ⟨hmiss, by split_ifs <;> rfl,
                    fl, hfl, Bool.eq_false_iff.mpr hemp,
                    Or.inr ⟨hfull, fte, e, hscan, he, by split_ifs <;> rfl,
                      by split_ifs <;> rfl⟩⟩⟩
      next hfull =>
        split at h
        · exact Except.noConfusion h
        next fl hfl =>
          split at h
          · exact Except.noConfusion h
          next hemp =>
            rw [Except.ok.injEq] at h
            subst h
            exact ⟨rfl, Or.inr ⟨hmiss, rfl, fl, hfl, Bool.eq_false_iff.mpr hemp,
              Or.inl ⟨Bool.eq_false_iff.mpr (by simpa using hfull), rfl, rfl⟩⟩⟩
    next hhit =>
      split at h
      · exact Except.noConfusion h
      next fl hfl =>
        split at h
        · exact Except.noConfusion h
        next hemp =>
          split at h
          · exact Except.noConfusion h
          next e he =>
            rw [Except.ok.injEq] at h
            subst h
            have hc : dcontains t.entries f = true := by
              by_contra hc
              exact hhit hc
            refine ⟨rfl, Or.inl ⟨hc, rfl, rfl, fl, hfl, Bool.eq_false_iff.mpr hemp,
              e, he, ?_⟩⟩
            by_cases hd : e.1 = 1 ∨ d = 1
            · rw [if_pos hd, if_pos hd]
            · rw [if_neg hd, if_neg hd]

theorem isFull_false_ne {t : page_table} (h : t.isFull = false) :
    ¬ ((t.entries.length : ℚ) = t.frames) := by
  rw [← isFull_iff, h]
  simp

theorem tableInvariant_set {tables : List page_table} {idx : Nat} {tNew : page_table}
    (hinv : ∀ t ∈ tables, tableInvariant t) (hNew : tableInvariant tNew) :
    ∀ t ∈ tables.set idx tNew, tableInvariant t := by
  intro t ht
  rcases List.mem_or_eq_of_mem_set ht with hmem | rfl
  · exact hinv t hmem
  · exact hNew

theorem lruStep_tableInvariant {tables : List page_table} {st : Stats} {i : Nat}
    {d : Nat} {f : Int} {idx : Nat} {r}
    (hinv : ∀ t ∈ tables, tableInvariant t)
    (h : lruStep tables st i d f idx = .ok r) :
    ∀ t ∈ r.1, tableInvariant t := by
  obtain ⟨t, hget, _, hcases⟩ := lruStep_cases h
  obtain ⟨hnd, hnat, hb⟩ := hinv t (List.get?_mem hget)
  rcases hcases with ⟨hc, _, _, e, he, hr⟩ | ⟨hm, _, hrest⟩
  · rw [hr]
    refine tableInvariant_set hinv ⟨?_, hnat, ?_⟩
    · rw [(inv_entries_hit hc).1]
      exact hnd
    · rw [(inv_entries_hit hc).2]
      exact hb
  · rcases hrest with ⟨hfull, _, hr⟩ | ⟨hfull, fte, e, hv, he, _, hr⟩
    · rw [hr]
      obtain ⟨h1, h2⟩ := inv_entries_miss_notfull hnd hb hnat hm (isFull_false_ne hfull)
      exact tableInvariant_set hinv ⟨h1, hnat, h2⟩
    · rw [hr]
      have hkmem : ∃ p ∈ t.entries, p.1 = fte := by
        rcases lruScan_some_mem t.entries sysMaxsize none fte hv with h2 | h2
        · exact Option.noConfusion h2
        · exact h2
      obtain ⟨h1, h2⟩ := inv_entries_evict_insert hnd hb hkmem hm
      exact tableInvariant_set hinv ⟨h1, hnat, h2⟩

theorem optStep_tableInvariant {tables : List page_table} {st : Stats} {i : Nat}
    {d : Nat} {f : Int} {idx : Nat} {r}
    (hinv : ∀ t ∈ tables, tableInvariant t)
    (h : optStep tables st i d f idx = .ok r) :
    ∀ t ∈ r.1, tableInvariant t := by
  obtain ⟨t, hget, _, hcases⟩ := optStep_cases h
  obtain ⟨hnd, hnat, hb⟩ := hinv t (List.get?_mem hget)
  rcases hcases with ⟨hc, _, _, fl, hfl, _, e, he, hr⟩ | ⟨hm, _, fl, hfl, _, hrest⟩
  · rw [hr]
    refine tableInvariant_set hinv ⟨?_, hnat, ?_⟩
    · show ((dset t.entries f _).map Prod.fst).Nodup
      rw [(inv_entries_hit hc).1]
      exact hnd
    · show ((dset t.entries f _).length : ℚ) ≤ t.frames
      rw [(inv_entries_hit hc).2]
      exact hb
  · rcases hrest with ⟨hfull, _, hr⟩ | ⟨hfull, fte, e, hscan, he, _, hr⟩
    · rw [hr]
      obtain ⟨h1, h2⟩ := inv_entries_miss_notfull hnd hb hnat hm (isFull_false_ne hfull)
      exact tableInvariant_set hinv ⟨h1, hnat, h2⟩
    · rw [hr]
      have hkmem : ∃ p ∈ t.entries, p.1 = fte := by
        rcases optScan_ok_some_mem t.freq t.entries (-1) sysMaxsize none fte hscan
          with h2 | h2
        · exact Option.noConfusion h2
        · exact h2
      obtain ⟨h1, h2⟩ := inv_entries_evict_insert hnd hb hkmem hm
      exact tableInvariant_set hinv ⟨h1, hnat, h2⟩

theorem lruRunAux_tableInvariant (off : Option Nat) :
    ∀ (lines : List String) (tables : List page_table) (st : Stats) (i : Nat) r,
    (∀ t ∈ tables, tableInvariant t) →
    lruRunAux off lines tables st i = .ok r → ∀ t ∈ r.1, tableInvariant t := by
  intro lines
  induction lines with
  | nil =>
      intro tables st i r hinv h
      rw [lruRunAux] at h
      rw [Except.ok.injEq] at h
      subst h
      exact hinv
  | cons l rest ih =>
      intro tables st i r hinv h
      rw [lruRunAux] at h
      split at h
      · exact Except.noConfusion h
      split at h
      · exact Except.noConfusion h
      next tables2 st2 hstep =>
        exact ih _ _ _ _ (lruStep_tableInvariant hinv hstep) h

theorem optRunAux_tableInvariant (off : Option Nat) :
    ∀ (lines : List String) (tables : List page_table) (st : Stats) (i : Nat) r,
    (∀ t ∈ tables, tableInvariant t) →
    optRunAux off lines tables st i = .ok r → ∀ t ∈ r.1, tableInvariant t := by
  intro lines
  induction lines with
  | nil =>
      intro tables st i r hinv h
      rw [optRunAux] at h
      rw [Except.ok.injEq] at h
      subst h
      exact hinv
  | cons l rest ih =>
      intro tables st i r hinv h
      rw [optRunAux] at h
      split at h
      · exact Except.noConfusion h
      split at h
      · exact Except.noConfusion h
      next tables2 st2 hstep =>
        exact ih _ _ _ _ (optStep_tableInvariant hinv hstep) h

theorem optPass1_tableInvariant (off : Option Nat) :
    ∀ (lines : List String) (tables : List page_table) (i : Nat) r,
    (∀ t ∈ tables, tableInvariant t) →
    optPass1 off lines tables i = .ok r → ∀ t ∈ r, tableInvariant t := by
  intro lines
  induction lines with
  | nil =>
      intro tables i r hinv h
      rw [optPass1] at h
      rw [Except.ok.injEq] at h
      subst h
      exact hinv
  | cons l rest ih =>
      intro tables i r hinv h
      rw [optPass1] at h
      split at h
      · exact Except.noConfusion h
      next d f idx hparse =>
        split at h
        · exact Except.noConfusion h
        next t hget =>
          refine ih _ _ _ (tableInvariant_set hinv ?_) h
          have hbase := hinv t (List.get?_mem hget)
          split
          · exact hbase
          · split
            · exact hbase
            · exact hbase

theorem reverseFreq_tableInvariant {tables : List page_table}
    (hinv : ∀ t ∈ tables, tableInvariant t) :
    ∀ t ∈ tables.map reverseFreq, tableInvariant t := by
  intro t ht
  obtain ⟨s, hs, rfl⟩ := List.mem_map.mp ht
  exact hinv s hs

theorem split_memory_ok {ms : String} {frames : Int} {tabs}
    (h : split_memory ms frames = .ok tabs) :
    ∃ a b, tabs = [page_table.init a, page_table.init b] := by
  rw [split_memory] at h
  split at h
  · exact Except.noConfusion h
  split at h
  · exact Except.noConfusion h
  split at h
  · exact Except.noConfusion h
  split at h
  · exact Except.noConfusion h
  split at h
  · exact Except.noConfusion h
  split at h
  · exact Except.noConfusion h
  rw [Except.ok.injEq] at h
  exact ⟨_, _, h.symm⟩

/-! ### Counter lemmas -/

theorem lruStep_stats {tables : List page_table} {st : Stats} {i : Nat}
    {d : Nat} {f : Int} {idx : Nat} {r}
    (h : lruStep tables st i d f idx = .ok r) :
    r.2.memory_accesses = st.memory_accesses + 1 ∧
    st.page_faults ≤ r.2.page_faults ∧ r.2.page_faults ≤ st.page_faults + 1 ∧
    st.disk_writes ≤ r.2.disk_writes ∧
    r.2.disk_writes + st.page_faults ≤ st.disk_writes + r.2.page_faults := by
  obtain ⟨t, _, hacc, hcases⟩ := lruStep_cases h
  rcases hcases with ⟨_, hpf, hdw, _⟩ | ⟨_, hpf, hrest⟩
  · omega
  · rcases hrest with ⟨_, hdw, _⟩ | ⟨_, fte, e, _, _, hdw, _⟩
    · omega
    · by_cases hd : e.1 = 1
      · rw [if_pos hd] at hdw
        omega
      · rw [if_neg hd] at hdw
        omega

theorem optStep_stats {tables : List page_table} {st : Stats} {i : Nat}
    {d : Nat} {f : Int} {idx : Nat} {r}
    (h : optStep tables st i d f idx = .ok r) :
    r.2.memory_accesses = st.memory_accesses + 1 ∧
    st.page_faults ≤ r.2.page_faults ∧ r.2.page_faults ≤ st.page_faults + 1 ∧
    st.disk_writes ≤ r.2.disk_writes ∧
    r.2.disk_writes + st.page_faults ≤ st.disk_writes + r.2.page_faults := by
  obtain ⟨t, _, hacc, hcases⟩ := optStep_cases h
  rcases hcases with ⟨_, hpf, hdw, _⟩ | ⟨_, hpf, _, _, _, hrest⟩
  · omega
  · rcases hrest with ⟨_, hdw, _⟩ | ⟨_, fte, e, _, _, hdw, _⟩
    · omega
    · by_cases hd : e.1 = 1
      · rw [if_pos hd] at hdw
        omega
      · rw [if_neg hd] at hdw
        omega

theorem lruRunAux_stats (off : Option Nat) :
    ∀ (lines : List String) (tables : List page_table) (st : Stats) (i : Nat) r,
    lruRunAux off lines tables st i = .ok r →
    r.2.memory_accesses = st.memory_accesses + lines.length ∧
    st.page_faults ≤ r.2.page_faults ∧
    st.disk_writes ≤ r.2.disk_writes ∧
    r.2.page_faults + st.memory_accesses ≤ st.page_faults + r.2.memory_accesses ∧
    r.2.disk_writes + st.page_faults ≤ st.disk_writes + r.2.page_faults := by
  intro lines
  induction lines with
  | nil =>
      intro tables st i r h
      rw [lruRunAux, Except.ok.injEq] at h
      subst h
      simp
  | cons l rest ih =>
      intro tables st i r h
      rw [lruRunAux] at h
      split at h
      · exact Except.noConfusion h
      split at h
      · exact Except.noConfusion h
      next tables2 st2 hstep =>
        have h1 := lruStep_stats hstep
        dsimp only at h1
        have h2 := ih _ _ _ _ h
        simp only [List.length_cons]
        omega

theorem optRunAux_stats (off : Option Nat) :
    ∀ (lines : List String) (tables : List page_table) (st : Stats) (i : Nat) r,
    optRunAux off lines tables st i = .ok r →
    r.2.memory_accesses = st.memory_accesses + lines.length ∧
    st.page_faults ≤ r.2.page_faults ∧
    st.disk_writes ≤ r.2.disk_writes ∧
    r.2.page_faults + st.memory_accesses ≤ st.page_faults + r.2.memory_accesses ∧
    r.2.disk_writes + st.page_faults ≤ st.disk_writes + r.2.page_faults := by
  intro lines
  induction lines with
  | nil =>
      intro tables st i r h
      rw [optRunAux, Except.ok.injEq] at h
      subst h
      simp
  | cons l rest ih =>
      intro tables st i r h
      rw [optRunAux] at h
      split at h
      · exact Except.noConfusion h
      split at h
      · exact Except.noConfusion h
      next tables2 st2 hstep =>
        have h1 := optStep_stats hstep
        dsimp only at h1
        have h2 := ih _ _ _ _ h
        simp only [List.length_cons]
        omega

theorem lruRunAux_append (off : Option Nat) :
    ∀ (l1 l2 : List String) (tables : List page_table) (st : Stats) (i : Nat),
    lruRunAux off (l1 ++ l2) tables st i =
      match lruRunAux off l1 tables st i with
      | .error e => .error e
      | .ok (tables2, st2) => lruRunAux off l2 tables2 st2 (i + l1.length) := by
  intro l1
  induction l1 with
  | nil =>
      intro l2 tables st i
      simp [lruRunAux]
  | cons l rest ih =>
      intro l2 tables st i
      rw [List.cons_append, lruRunAux, lruRunAux]
      cases parse_line off l with
      | error e => rfl
      | ok v =>
          obtain ⟨d, f, idx⟩ := v
          simp only []
          cases lruStep tables st i d f idx with
          | error e => rfl
          | ok r =>
              obtain ⟨tables2, st2⟩ := r
              simp only []
              rw [ih]
              simp only [List.length_cons]
              rw [Nat.add_comm rest.length 1, ← Nat.add_assoc]

theorem optRunAux_append (off : Option Nat) :
    ∀ (l1 l2 : List String) (tables : List page_table) (st : Stats) (i : Nat),
    optRunAux off (l1 ++ l2) tables st i =
      match optRunAux off l1 tables st i with
      | .error e => .error e
      | .ok (tables2, st2) => optRunAux off l2 tables2 st2 (i + l1.length) := by
  intro l1
  induction l1 with
  | nil =>
      intro l2 tables st i
      simp [optRunAux]
  | cons l rest ih =>
      intro l2 tables st i
      rw [List.cons_append, optRunAux, optRunAux]
      cases parse_line off l with
      | error e => rfl
      | ok v =>
          obtain ⟨d, f, idx⟩ := v
          simp only []
          cases optStep tables st i d f idx with
          | error e => rfl
          | ok r =>
              obtain ⟨tables2, st2⟩ := r
              simp only []
              rw [ih]
              simp only [List.length_cons]
              rw [Nat.add_comm rest.length 1, ← Nat.add_assoc]

/-- Componentwise comparison of the three counters. -/
def statsLe (a b : Stats) : Prop :=
  a.memory_accesses ≤ b.memory_accesses ∧ a.page_faults ≤ b.page_faults ∧
    a.disk_writes ≤ b.disk_writes

/-- C10: the counters are natural numbers (hence non-negative), satisfy
`faults ≤ accesses` and `disk_writes ≤ faults` in every completed run,
equal the trace length in `accesses`, and grow monotonically along the
run: the state after a prefix of the trace is dominated by the state
after any extension. -/
theorem C10_counter_invariants (ms : String) (frames : Int) (off : Option Nat) :
    (∀ lines r, lru_sim ms frames off lines = .ok r →
      r.2.page_faults ≤ r.2.memory_accesses ∧ r.2.disk_writes ≤ r.2.page_faults ∧
      r.2.memory_accesses = lines.length) ∧
    (∀ lines r, opt_sim ms frames off lines = .ok r →
      r.2.page_faults ≤ r.2.memory_accesses ∧ r.2.disk_writes ≤ r.2.page_faults ∧
      r.2.memory_accesses = lines.length) ∧
    (∀ pre suf r1 r2, lru_sim ms frames off pre = .ok r1 →
      lru_sim ms frames off (pre ++ suf) = .ok r2 → statsLe r1.2 r2.2) ∧
    (∀ (tables : List page_table) (st : Stats) (i : Nat) pre suf r1 r2,
      optRunAux off pre tables st i = .ok r1 →
      optRunAux off (pre ++ suf) tables st i = .ok r2 → statsLe r1.2 r2.2) := by
  refine ⟨?_, ?_, ?_, ?_⟩
  · intro lines r h
    rw [lru_sim] at h
    split at h
    · exact Except.noConfusion h
    next tabs hsplit =>
      have := lruRunAux_stats off lines tabs Stats.init 0 r h
      simp only [Stats.init] at this
      omega
  · intro lines r h
    rw [opt_sim] at h
    split at h
    · exact Except.noConfusion h
    split at h
    · exact Except.noConfusion h
    next tabs1 hpass1 =>
      have := optRunAux_stats off lines _ Stats.init 0 r h
      simp only [Stats.init] at this
      omega
  · intro pre suf r1 r2 h1 h2
    rw [lru_sim] at h1 h2
    split at h1
    · exact Except.noConfusion h1
    next tabs hsplit =>
      rw [hsplit] at h2
      dsimp only at h2
      obtain ⟨t1, s1⟩ := r1
      rw [lruRunAux_append off pre suf tabs Stats.init 0, h1] at h2
      dsimp only at h2
      have := lruRunAux_stats off suf t1 s1 (0 + pre.length) r2 h2
      exact ⟨by dsimp only; omega, by dsimp only; omega, by dsimp only; omega⟩
  · intro tables st i pre suf r1 r2 h1 h2
    obtain ⟨t1, s1⟩ := r1
    rw [optRunAux_append off pre suf tables st i, h1] at h2
    dsimp only at h2
    have := optRunAux_stats off suf t1 s1 (i + pre.length) r2 h2
    exact ⟨by dsimp only; omega, by dsimp only; omega, by dsimp only; omega⟩

/-- C10 witness: the one-line LRU run has faults ≤ accesses,
disk writes ≤ faults, and accesses equal to the trace length. -/
theorem C10_counter_invariants_witness :
    (⟨1, 1, 0⟩ : Stats).page_faults ≤ (⟨1, 1, 0⟩ : Stats).memory_accesses ∧
    (⟨1, 1, 0⟩ : Stats).disk_writes ≤ (⟨1, 1, 0⟩ : Stats).page_faults ∧
    (⟨1, 1, 0⟩ : Stats).memory_accesses = (["l 0 0"] : List String).length :=
  (C10_counter_invariants "1:1" 4 (some 10)).1 ["l 0 0"]
    ⟨[⟨2, [((0 : Int), (0, 0))], []⟩, ⟨2, [], []⟩], ⟨1, 1, 0⟩⟩
    (by with_unfolding_all rfl)

/-- C3: `isFull` is true exactly when the entry count numerically equals
the frames value; a table whose frames value is not an integer is
therefore never full in any state, so a step routed to it (LRU or OPT)
never evicts — the key set only stays or grows by the new frame — and
never counts a disk write; concretely, with frame_total 3 split 1:1 a
table reaches 3 resident entries against capacity 3/2 with zero disk
writes. -/
theorem C3_isFull_fractional :
    (∀ t : page_table, t.isFull = true ↔ (t.entries.length : ℚ) = t.frames) ∧
    (∀ t : page_table, (∀ n : ℕ, t.frames ≠ (n : ℚ)) → t.isFull = false) ∧
    (∀ (tables : List page_table) (st : Stats) (i d : Nat) (f : Int) (idx : Nat) r
      (t : page_table), tables.get? idx = some t → (∀ n : ℕ, t.frames ≠ (n : ℚ)) →
      lruStep tables st i d f idx = .ok r →
      r.2.disk_writes = st.disk_writes ∧
      ∃ t2, r.1 = tables.set idx t2 ∧ t2.frames = t.frames ∧
        (t2.entries.map Prod.fst = t.entries.map Prod.fst ∨
         t2.entries.map Prod.fst = t.entries.map Prod.fst ++ [f])) ∧
    (∀ (tables : List page_table) (st : Stats) (i d : Nat) (f : Int) (idx : Nat) r
      (t : page_table), tables.get? idx = some t → (∀ n : ℕ, t.frames ≠ (n : ℚ)) →
      optStep tables st i d f idx = .ok r →
      r.2.disk_writes = st.disk_writes ∧
      ∃ t2, r.1 = tables.set idx t2 ∧ t2.frames = t.frames ∧
        (t2.entries.map Prod.fst = t.entries.map Prod.fst ∨
         t2.entries.map Prod.fst = t.entries.map Prod.fst ++ [f])) ∧
    ((lru_sim "1:1" 3 (some 10) ["l 0 0", "l 100000 0", "l 200000 0"]).map
        (fun r => (r.1.map (fun t => t.entries.length), r.2.disk_writes))
      = .ok ([3, 0], 0) ∧ ¬ ((3 : ℚ) ≤ 3/2)) := by
  have hfull_false : ∀ t : page_table, (∀ n : ℕ, t.frames ≠ (n : ℚ)) →
      t.isFull = false := by
    intro t hnat
    by_contra hcon
    have h1 : t.isFull = true := by
      cases h2 : t.isFull
      · exact absurd h2 hcon
      · rfl
    have h2 := (isFull_iff t).mp h1
    exact hnat t.entries.length h2.symm
  refine ⟨isFull_iff, hfull_false, ?_, ?_, by with_unfolding_all rfl, by norm_num⟩
  · intro tables st i d f idx r t hget hnat h
    obtain ⟨t0, hget0, _, hcases⟩ := lruStep_cases h
    rw [hget] at hget0
    obtain rfl : t = t0 := Option.some.inj hget0
    rcases hcases with ⟨hc, _, hdw, e, he, hr⟩ | ⟨hm, _, hrest⟩
    · exact ⟨hdw, _, hr, rfl, Or.inl (inv_entries_hit hc).1⟩
    · rcases hrest with ⟨_, hdw, hr⟩ | ⟨hfull, _⟩
      · refine ⟨hdw, _, hr, rfl, Or.inr ?_⟩
        show (dset t.entries f (d, i)).map Prod.fst = _
        rw [dset_map_fst, if_neg hm]
      · rw [hfull_false t hnat] at hfull
        exact Bool.noConfusion hfull
  · intro tables st i d f idx r t hget hnat h
    obtain ⟨t0, hget0, _, hcases⟩ := optStep_cases h
    rw [hget] at hget0
    obtain rfl : t = t0 := Option.some.inj hget0
    rcases hcases with ⟨hc, _, hdw, fl, hfl, _, e, he, hr⟩ | ⟨hm, _, fl, hfl, _, hrest⟩
    · refine ⟨hdw, _, hr, rfl, Or.inl ?_⟩
      show (dset t.entries f _).map Prod.fst = _
      rw [dset_map_fst, if_pos hc]
    · rcases hrest with ⟨_, hdw, hr⟩ | ⟨hfull, _⟩
      · refine ⟨hdw, _, hr, rfl, Or.inr ?_⟩
        show (dset t.entries f (d, i)).map Prod.fst = _
        rw [dset_map_fst, if_neg hm]
      · rw [hfull_false t hnat] at hfull
        exact Bool.noConfusion hfull

/-- C3 witness: a table whose frames value is the fraction 3/2 is not
full even though it could never have exactly 3/2 entries. -/
theorem C3_isFull_fractional_witness :
    (⟨3/2, [((0 : Int), (0, 0))], []⟩ : page_table).isFull = false := by
  apply C3_isFull_fractional.2.1
  intro n hn
  have h2 : (3 : ℚ) = (n : ℚ) * 2 := by
    have : (3 : ℚ) / 2 = (n : ℚ) := hn
    field_simp at this
    linarith
  have h3 : (3 : ℕ) = n * 2 := by exact_mod_cast h2
  omega

/-! ### Abstract demand paging

The comparison of the two policies goes through a small abstract theory
of demand paging over a request list: `Run` is any valid demand
execution, `optCost` the Bellman-minimal fault count, and the exchange
lemma `swapRun` trades a single cached page for one that is needed no
later without increasing the cost. -/

/-- Position of the next request of `k`, `⊤` when `k` is never requested
again. -/
def nextUse (k : Int) : List Int → ℕ∞
  | [] => ⊤
  | x :: ρ => if x = k then 0 else nextUse k ρ + 1

theorem enat_add_one_le_iff {a b : ℕ∞} : a + 1 ≤ b + 1 ↔ a ≤ b := by
  cases a with
  | top =>
      constructor
      · intro h
        cases b with
        | top => exact le_refl _
        | coe n =>
            exfalso
            have h2 : ((n : ℕ∞) + 1) = ((n + 1 : ℕ) : ℕ∞) := by
              push_cast
              rfl
            rw [h2] at h
            have h3 : (⊤ : ℕ∞) + 1 = ⊤ := rfl
            rw [h3] at h
            exact (ENat.coe_lt_top (n + 1)).not_le h
      · intro h
        exact add_le_add_right h 1
  | coe a =>
      cases b with
      | top => simp
      | coe b =>
          constructor
          · intro h
            have h2 : ((a : ℕ∞) + 1) = ((a + 1 : ℕ) : ℕ∞) := by push_cast; rfl
            have h3 : ((b : ℕ∞) + 1) = ((b + 1 : ℕ) : ℕ∞) := by push_cast; rfl
            rw [h2, h3, Nat.cast_le] at h
            rw [Nat.cast_le]
            omega
          · intro h
            exact add_le_add_right h 1

theorem enat_add_one_ne_zero (a : ℕ∞) : a + 1 ≠ 0 := by
  cases a with
  | top => simp [top_add]
  | coe a =>
      have h2 : ((a : ℕ∞) + 1) = ((a + 1 : ℕ) : ℕ∞) := by push_cast; rfl
      rw [h2]
      exact_mod_cast Nat.succ_ne_zero a

/-- Valid demand-paging executions with cache capacity `cap` from cache
`C` over the request list: a hit changes nothing, a fault on a non-full
cache inserts, a fault on a full cache evicts some cached page and
inserts; each fault costs one. -/
inductive Run (cap : ℕ) : Finset Int → List Int → ℕ → Prop where
  | nil : ∀ C, Run cap C [] 0
  | hit : ∀ C x ρ n, x ∈ C → Run cap C ρ n → Run cap C (x :: ρ) n
  | miss : ∀ C x ρ n, x ∉ C → C.card < cap → Run cap (insert x C) ρ n →
      Run cap C (x :: ρ) (n + 1)
  | evict : ∀ C x ρ n e, x ∉ C → cap ≤ C.card → e ∈ C →
      Run cap (insert x (C.erase e)) ρ n → Run cap C (x :: ρ) (n + 1)

/-- Bellman-minimal fault count of demand paging (`0` requests cost
nothing; a full-cache fault takes the best possible eviction).  The value
on a full cache of capacity 0 is junk — no valid execution exists there. -/
def optCost (cap : ℕ) : List Int → Finset Int → ℕ
  | [], _ => 0
  | x :: ρ, C =>
      if x ∈ C then optCost cap ρ C
      else if C.card < cap then 1 + optCost cap ρ (insert x C)
      else if hne : C.Nonempty then
        1 + (C.image (fun e => optCost cap ρ (insert x (C.erase e)))).min' (hne.image _)
      else 1

/-- Any valid execution costs at least `optCost`. -/
theorem optCost_le_run {cap : ℕ} :
    ∀ {C : Finset Int} {ρ : List Int} {n : ℕ}, Run cap C ρ n → optCost cap ρ C ≤ n := by
  intro C ρ n h
  induction h with
  | nil C => exact le_refl _
  | hit C x ρ n hx _ ih =>
      rw [optCost, if_pos hx]
      exact ih
  | miss C x ρ n hx hlt _ ih =>
      rw [optCost, if_neg hx, if_pos hlt]
      omega
  | evict C x ρ n e hx hge he hrun ih =>
      rw [optCost, if_neg hx, if_neg (by omega : ¬ C.card < cap),
        dif_pos ⟨e, he⟩]
      have hmin : (C.image (fun e => optCost cap ρ (insert x (C.erase e)))).min'
          ((Finset.nonempty_iff_ne_empty.mpr (by
            intro hc
            rw [hc] at he
            exact Finset.not_mem_empty e he)).image _) ≤
          optCost cap ρ (insert x (C.erase e)) :=
        Finset.min'_le _ _ (Finset.mem_image_of_mem _ he)
      omega

/-- `optCost` is attained by a valid execution whenever the cache is
within capacity and the capacity positive. -/
theorem optCost_run (cap : ℕ) :
    ∀ (ρ : List Int) (C : Finset Int), 0 < cap → C.card ≤ cap →
    Run cap C ρ (optCost cap ρ C) := by
  intro ρ
  induction ρ with
  | nil => intro C _ _; exact Run.nil C
  | cons x ρ ih =>
      intro C hpos hcard
      by_cases hx : x ∈ C
      · rw [optCost, if_pos hx]
        exact Run.hit C x ρ _ hx (ih C hpos hcard)
      · by_cases hlt : C.card < cap
        · rw [optCost, if_neg hx, if_pos hlt]
          rw [Nat.add_comm]
          exact Run.miss C x ρ _ hx hlt (ih (insert x C) hpos (by
            rw [Finset.card_insert_of_not_mem hx]
            omega))
        · have hcc : C.card = cap := by omega
          have hne : C.Nonempty := by
            rw [← Finset.card_pos, hcc]
            exact hpos
          rw [optCost, if_neg hx, if_neg hlt, dif_pos hne]
          obtain ⟨y, hy, hye⟩ := Finset.mem_image.mp (Finset.min'_mem
            (C.image (fun e => optCost cap ρ (insert x (C.erase e)))) (hne.image _))
          rw [← hye, Nat.add_comm]
          refine Run.evict C x ρ _ y hx (by omega) hy (ih _ hpos ?_)
          rw [Finset.card_insert_of_not_mem (fun hc =>
            hx (Finset.mem_of_mem_erase hc)), Finset.card_erase_of_mem hy]
          omega

theorem card_exchange {X : Finset Int} {x e : Int} (hx : x ∉ X) (he : e ∈ X) :
    (insert x (X.erase e)).card = X.card := by
  rw [Finset.card_insert_of_not_mem (fun hc => hx (Finset.mem_of_mem_erase hc)),
    Finset.card_erase_of_mem he]
  have hpos : 0 < X.card := Finset.card_pos.mpr ⟨e, he⟩
  omega

theorem nextUse_cons_self (k : Int) (ρ : List Int) : nextUse k (k :: ρ) = 0 := by
  simp [nextUse]

theorem nextUse_cons_ne {x k : Int} (h : x ≠ k) (ρ : List Int) :
    nextUse k (x :: ρ) = nextUse k ρ + 1 := by
  simp [nextUse, h]

/-- Exchange lemma: replacing one cached page `v` by a page `u` that is
requested no later than `v` turns any valid execution into one that is no
more expensive; replacing it by an arbitrary page costs at most one more
fault. -/
theorem swapRun (cap : ℕ) :
    ∀ (ρ : List Int) (X : Finset Int) (u v : Int) (n : ℕ),
    Run cap X ρ n → X.card = cap → v ∈ X → u ∉ X →
    ((nextUse u ρ ≤ nextUse v ρ → ∃ m, m ≤ n ∧ Run cap (insert u (X.erase v)) ρ m) ∧
     (∃ m, m ≤ n + 1 ∧ Run cap (insert u (X.erase v)) ρ m)) := by
  intro ρ
  induction ρ with
  | nil =>
      intro X u v n hrun hcard hv hu
      cases hrun with
      | nil => exact ⟨fun _ => ⟨0, le_refl 0, Run.nil _⟩, ⟨0, by omega, Run.nil _⟩⟩
  | cons x ρ ih =>
      intro X u v n hrun hcard hv hu
      have huv : u ≠ v := fun hc => hu (hc ▸ hv)
      have huev : u ∉ X.erase v := fun hc => hu (Finset.mem_of_mem_erase hc)
      have hYcard : (insert u (X.erase v)).card = X.card := card_exchange hu hv
      cases hrun with
      | hit _ _ _ _ hx hrest =>
          by_cases hxv : x = v
          · subst hxv
            constructor
            · intro hcond
              exfalso
              rw [nextUse_cons_self, nextUse_cons_ne (fun hc : x = u => huv hc.symm)]
                at hcond
              exact enat_add_one_ne_zero _ (le_antisymm hcond (zero_le _))
            · have hvY : x ∉ insert u (X.erase x) := by
                simp only [Finset.mem_insert, Finset.mem_erase]
                push_neg
                exact ⟨fun hc => huv hc.symm, fun hc => absurd rfl hc⟩
              refine ⟨n + 1, le_refl _, ?_⟩
              refine Run.evict _ x ρ n u hvY (by omega)
                (Finset.mem_insert_self u _) ?_
              rw [Finset.erase_insert huev, Finset.insert_erase hv]
              exact hrest
          · have hxY : x ∈ insert u (X.erase v) :=
              Finset.mem_insert_of_mem (Finset.mem_erase.mpr ⟨hxv, hx⟩)
            have hxu : x ≠ u := fun hc => hu (hc ▸ hx)
            obtain ⟨p1, p2⟩ := ih X u v n hrest hcard hv hu
            constructor
            · intro hcond
              rw [nextUse_cons_ne hxu, nextUse_cons_ne hxv] at hcond
              obtain ⟨m, hm, hrunY⟩ := p1 (enat_add_one_le_iff.mp hcond)
              exact ⟨m, hm, Run.hit _ x ρ m hxY hrunY⟩
            · obtain ⟨m, hm, hrunY⟩ := p2
              exact ⟨m, hm, Run.hit _ x ρ m hxY hrunY⟩
      | miss _ _ _ _ hx hlt _ =>
          exfalso
          omega
      | evict _ _ _ n' e hx hge he hrest =>
          have hxv : x ≠ v := fun hc => hx (hc ▸ hv)
          have heu : e ≠ u := fun hc => hu (hc ▸ he)
          by_cases hxu : x = u
          · subst hxu
            have huY : x ∈ insert x (X.erase v) := Finset.mem_insert_self _ _
            by_cases hev : e = v
            · subst hev
              exact ⟨fun _ => ⟨n', by omega, Run.hit _ x ρ n' huY hrest⟩,
                ⟨n', by omega, Run.hit _ x ρ n' huY hrest⟩⟩
            · have he' : e ∉ insert x (X.erase e) := by
                simp only [Finset.mem_insert, Finset.mem_erase]
                push_neg
                exact ⟨heu, fun hc => absurd rfl hc⟩
              have hv' : v ∈ insert x (X.erase e) :=
                Finset.mem_insert_of_mem
                  (Finset.mem_erase.mpr ⟨fun hc => hev hc.symm, hv⟩)
              have hcard' : (insert x (X.erase e)).card = cap := by
                rw [card_exchange hu he, hcard]
              obtain ⟨_, p2⟩ := ih (insert x (X.erase e)) e v n' hrest hcard' hv' he'
              obtain ⟨m, hm, hrunY⟩ := p2
              have hYeq : insert e ((insert x (X.erase e)).erase v) =
                  insert x (X.erase v) := by
                rw [Finset.erase_insert_of_ne hxv]
                ext a
                simp only [Finset.mem_insert, Finset.mem_erase]
                constructor
                · rintro (rfl | rfl | ⟨hav, hae, ha⟩)
                  · exact Or.inr ⟨fun hc => hev hc, he⟩
                  · exact Or.inl rfl
                  · exact Or.inr ⟨hav, ha⟩
                · rintro (rfl | ⟨hav, ha⟩)
                  · exact Or.inr (Or.inl rfl)
                  · by_cases hae : a = e
                    · exact Or.inl hae
                    · exact Or.inr (Or.inr ⟨hav, hae, ha⟩)
              rw [hYeq] at hrunY
              exact ⟨fun _ => ⟨m, by omega, Run.hit _ x ρ m huY hrunY⟩,
                ⟨m, by omega, Run.hit _ x ρ m huY hrunY⟩⟩
          · have hxY : x ∉ insert u (X.erase v) := by
              simp only [Finset.mem_insert, Finset.mem_erase]
              push_neg
              exact ⟨hxu, fun _ => hx⟩
            by_cases hev : e = v
            · subst hev
              have hYer : insert x ((insert u (X.erase e)).erase u) =
                  insert x (X.erase e) := by
                rw [Finset.erase_insert huev]
              refine ⟨fun _ => ⟨n' + 1, le_refl _, ?_⟩, ⟨n' + 1, by omega, ?_⟩⟩ <;>
                · refine Run.evict _ x ρ n' u hxY (by omega)
                    (Finset.mem_insert_self u _) ?_
                  rw [hYer]
                  exact hrest
            · have heY : e ∈ insert u (X.erase v) :=
                Finset.mem_insert_of_mem (Finset.mem_erase.mpr ⟨hev, he⟩)
              have hid : insert x ((insert u (X.erase v)).erase e) =
                  insert u ((insert x (X.erase e)).erase v) := by
                rw [Finset.erase_insert_of_ne (Ne.symm heu),
                  Finset.erase_insert_of_ne hxv]
                ext a
                simp only [Finset.mem_insert, Finset.mem_erase]
                constructor
                · rintro (rfl | rfl | ⟨hae, hav, ha⟩)
                  · exact Or.inr (Or.inl rfl)
                  · exact Or.inl rfl
                  · exact Or.inr (Or.inr ⟨hav, hae, ha⟩)
                · rintro (rfl | rfl | ⟨hav, hae, ha⟩)
                  · exact Or.inr (Or.inl rfl)
                  · exact Or.inl rfl
                  · exact Or.inr (Or.inr ⟨hae, hav, ha⟩)
              have hv' : v ∈ insert x (X.erase e) :=
                Finset.mem_insert_of_mem
                  (Finset.mem_erase.mpr ⟨fun hc => hev hc.symm, hv⟩)
              have hu' : u ∉ insert x (X.erase e) := by
                simp only [Finset.mem_insert, Finset.mem_erase]
                push_neg
                exact ⟨fun hc => hxu hc.symm, fun _ => hu⟩
              have hcard' : (insert x (X.erase e)).card = cap := by
                rw [card_exchange hx he, hcard]
              obtain ⟨p1, p2⟩ := ih (insert x (X.erase e)) u v n' hrest hcard' hv' hu'
              constructor
              · intro hcond
                rw [nextUse_cons_ne hxu, nextUse_cons_ne hxv] at hcond
                obtain ⟨m, hm, hrunY⟩ := p1 (enat_add_one_le_iff.mp hcond)
                rw [← hid] at hrunY
                exact ⟨m + 1, by omega, Run.evict _ x ρ m e hxY (by omega) heY hrunY⟩
              · obtain ⟨m, hm, hrunY⟩ := p2
                rw [← hid] at hrunY
                exact ⟨m + 1, by omega, Run.evict _ x ρ m e hxY (by omega) heY hrunY⟩

/-- Key consequence of the exchange lemma: evicting the page whose next use
is farthest (here `v`, compared against any alternative `u`) never increases
the optimal cost of serving the remaining requests. -/
theorem optCost_swap_le {cap : ℕ} {ρ : List Int} {X : Finset Int} {u v : Int}
    (hcond : nextUse u ρ ≤ nextUse v ρ) (hv : v ∈ X) (hu : u ∉ X)
    (hcard : X.card = cap) (hpos : 0 < cap) :
    optCost cap ρ (insert u (X.erase v)) ≤ optCost cap ρ X := by
  have hrun := optCost_run cap ρ X hpos (le_of_eq hcard)
  obtain ⟨p1, _⟩ := swapRun cap ρ X u v _ hrun hcard hv hu
  obtain ⟨m, hm, hrunY⟩ := p1 hcond
  exact le_trans (optCost_le_run hrunY) hm

/-! ### Keys of a dictionary as a finite set -/

def keysFinset {α} (d : Dict α) : Finset Int :=
  (d.map Prod.fst).toFinset

theorem mem_keysFinset {α} {d : Dict α} {k : Int} :
    k ∈ keysFinset d ↔ dcontains d k = true := by
  rw [keysFinset, List.mem_toFinset, dcontains_iff]
  constructor
  · intro h
    obtain ⟨p, hp, hpk⟩ := List.mem_map.mp h
    exact ⟨p, hp, hpk⟩
  · rintro ⟨p, hp, hpk⟩
    exact List.mem_map.mpr ⟨p, hp, hpk⟩

theorem keysFinset_card {α} {d : Dict α} (hnd : (d.map Prod.fst).Nodup) :
    (keysFinset d).card = d.length := by
  rw [keysFinset, List.toFinset_card_of_nodup hnd, List.length_map]

theorem keysFinset_dset_mem {α} {d : Dict α} {k : Int} {v : α}
    (h : dcontains d k = true) : keysFinset (dset d k v) = keysFinset d := by
  rw [keysFinset, keysFinset, dset_map_fst, if_pos h]

theorem keysFinset_dset_new {α} {d : Dict α} {k : Int} {v : α}
    (h : ¬ dcontains d k = true) :
    keysFinset (dset d k v) = insert k (keysFinset d) := by
  rw [keysFinset, keysFinset, dset_map_fst, if_neg h]
  ext a
  simp [or_comm]

theorem dpop_map_fst {α} (d : Dict α) (k : Int) :
    (dpop d k).map Prod.fst = (d.map Prod.fst).filter (fun a => ¬ a = k) := by
  induction d with
  | nil => rfl
  | cons p rest ih =>
      simp only [dpop] at ih ⊢
      rw [List.filter_cons, List.map_cons, List.filter_cons]
      by_cases hp : p.1 = k
      · rw [if_neg (by simp [hp]), if_neg (by simp [hp])]
        exact ih
      · rw [if_pos (by simp [hp]), if_pos (by simp [hp])]
        rw [List.map_cons, ih]

theorem keysFinset_dpop {α} (d : Dict α) (k : Int) :
    keysFinset (dpop d k) = (keysFinset d).erase k := by
  ext a
  rw [keysFinset, keysFinset, List.mem_toFinset, Finset.mem_erase,
    List.mem_toFinset, dpop_map_fst, List.mem_filter]
  simp [and_comm]

theorem find_update_pos {α} (k : Int) (v : α) :
    ∀ d : Dict α, dcontains d k = true →
    (d.map (fun p => if p.1 = k then (k, v) else p)).find? (fun p => p.1 = k) =
      some (k, v) := by
  intro d
  induction d with
  | nil => intro h; simp [dcontains] at h
  | cons p rest ih =>
      intro h
      by_cases hp : p.1 = k
      · rw [List.map_cons, if_pos hp, List.find?_cons_of_pos _ (by simp)]
      · have h2 : dcontains rest k = true := by simpa [dcontains, hp] using h
        rw [List.map_cons, if_neg hp, List.find?_cons_of_neg _ (by simp [hp])]
        exact ih h2

theorem find_update_ne {α} (k a : Int) (v : α) (hne : a ≠ k) :
    ∀ d : Dict α,
    (d.map (fun p => if p.1 = k then (k, v) else p)).find? (fun p => p.1 = a) =
      d.find? (fun p => p.1 = a) := by
  intro d
  induction d with
  | nil => rfl
  | cons p rest ih =>
      by_cases hp : p.1 = k
      · rw [List.map_cons, if_pos hp,
          List.find?_cons_of_neg _ (by simp [Ne.symm hne]),
          List.find?_cons_of_neg _ (by simp [hp, Ne.symm hne])]
        exact ih
      · rw [List.map_cons, if_neg hp]
        by_cases ha : p.1 = a
        · rw [List.find?_cons_of_pos _ (by simp [ha]),
            List.find?_cons_of_pos _ (by simp [ha])]
        · rw [List.find?_cons_of_neg _ (by simp [ha]),
            List.find?_cons_of_neg _ (by simp [ha])]
          exact ih

theorem find_append_single {α} (k a : Int) (v : α) (hne : a ≠ k) :
    ∀ d : Dict α,
    (d ++ [(k, v)]).find? (fun p => p.1 = a) = d.find? (fun p => p.1 = a) := by
  intro d
  induction d with
  | nil =>
      rw [List.nil_append, List.find?_cons_of_neg _ (by simp [Ne.symm hne])]
  | cons p rest ih =>
      by_cases ha : p.1 = a
      · rw [List.cons_append, List.find?_cons_of_pos _ (by simp [ha]),
          List.find?_cons_of_pos _ (by simp [ha])]
      · rw [List.cons_append, List.find?_cons_of_neg _ (by simp [ha]),
          List.find?_cons_of_neg _ (by simp [ha])]
        exact ih

theorem find_append_self {α} (k : Int) (v : α) :
    ∀ d : Dict α, (∀ p ∈ d, ¬ p.1 = k) →
    (d ++ [(k, v)]).find? (fun p => p.1 = k) = some (k, v) := by
  intro d
  induction d with
  | nil =>
      intro _
      rw [List.nil_append, List.find?_cons_of_pos _ (by simp)]
  | cons p rest ih =>
      intro hall
      rw [List.cons_append,
        List.find?_cons_of_neg _ (by simp [hall p (List.mem_cons_self p rest)])]
      exact ih (fun q hq => hall q (List.mem_cons_of_mem p hq))

theorem dget_dset_self {α} (d : Dict α) (k : Int) (v : α) :
    dget (dset d k v) k = some v := by
  by_cases h : dcontains d k = true
  · rw [dset, if_pos h, dget, find_update_pos k v d h]
    rfl
  · have hall : ∀ p ∈ d, ¬ p.1 = k := fun p hp hpk =>
      h (dcontains_iff.mpr ⟨p, hp, hpk⟩)
    rw [dset, if_neg h, dget, find_append_self k v d hall]
    rfl

theorem dget_dset_ne {α} (d : Dict α) {k a : Int} (v : α) (hne : a ≠ k) :
    dget (dset d k v) a = dget d a := by
  by_cases h : dcontains d k = true
  · rw [dset, if_pos h, dget, dget, find_update_ne k a v hne]
  · rw [dset, if_neg h, dget, dget, find_append_single k a v hne]

theorem insert_erase_swap {X : Finset Int} {x e v : Int} (hxv : x ≠ v) (he : e ∈ X)
    (hev : e ≠ v) :
    insert e ((insert x (X.erase e)).erase v) = insert x (X.erase v) := by
  rw [Finset.erase_insert_of_ne hxv]
  ext a
  simp only [Finset.mem_insert, Finset.mem_erase]
  constructor
  · rintro (rfl | rfl | ⟨hav, hae, ha⟩)
    · exact Or.inr ⟨hev, he⟩
    · exact Or.inl rfl
    · exact Or.inr ⟨hav, ha⟩
  · rintro (rfl | ⟨hav, ha⟩)
    · exact Or.inr (Or.inl rfl)
    · by_cases hae : a = e
      · exact Or.inl hae
      · exact Or.inr (Or.inr ⟨hav, hae, ha⟩)

theorem optCost_cons_hit {cap : ℕ} {x : Int} {ρ : List Int} {C : Finset Int}
    (h : x ∈ C) : optCost cap (x :: ρ) C = optCost cap ρ C := by
  rw [optCost, if_pos h]

theorem optCost_cons_miss {cap : ℕ} {x : Int} {ρ : List Int} {C : Finset Int}
    (hx : x ∉ C) (hlt : C.card < cap) :
    optCost cap (x :: ρ) C = 1 + optCost cap ρ (insert x C) := by
  rw [optCost, if_neg hx, if_pos hlt]

/-- If the evicted page `v` is one whose next use lies at least as far in
the future as every resident page's, the eviction is optimal: one fault
plus the optimal cost of the resulting cache is bounded by the optimal
cost before the fault. -/
theorem optCost_fault_farthest {cap : ℕ} {x v : Int} {ρ : List Int} {C : Finset Int}
    (hx : x ∉ C) (hv : v ∈ C) (hcard : C.card = cap)
    (hfar : ∀ k ∈ C, nextUse k ρ ≤ nextUse v ρ) :
    1 + optCost cap ρ (insert x (C.erase v)) ≤ optCost cap (x :: ρ) C := by
  have hne : C.Nonempty := ⟨v, hv⟩
  have hxv : x ≠ v := fun hc => hx (hc ▸ hv)
  rw [optCost, if_neg hx, if_neg (by omega : ¬ C.card < cap), dif_pos hne]
  obtain ⟨e, heC, hemin⟩ := Finset.mem_image.mp (Finset.min'_mem
    (C.image (fun e => optCost cap ρ (insert x (C.erase e)))) (hne.image _))
  rw [← hemin]
  have hle : optCost cap ρ (insert x (C.erase v)) ≤
      optCost cap ρ (insert x (C.erase e)) := by
    by_cases hev : e = v
    · subst hev
      exact le_refl _
    · have hpos : 0 < cap := hcard ▸ Finset.card_pos.mpr hne
      have hxe : x ≠ e := fun hc => hx (hc ▸ heC)
      have hvY : v ∈ insert x (C.erase e) :=
        Finset.mem_insert_of_mem (Finset.mem_erase.mpr ⟨fun hc => hev hc.symm, hv⟩)
      have heY : e ∉ insert x (C.erase e) := by
        simp only [Finset.mem_insert, Finset.mem_erase]
        push_neg
        exact ⟨fun hc => hxe hc.symm, fun hc => absurd rfl hc⟩
      have hYcard : (insert x (C.erase e)).card = cap := by
        rw [card_exchange hx heC, hcard]
      have hkey := optCost_swap_le (hfar e heC) hvY heY hYcard hpos
      rw [insert_erase_swap hxv heC hev] at hkey
      exact hkey
  omega

/-! ### Event-level runs: decoding the trace once -/

/-- Decode every trace line with `parse_line`, stopping at the first
failure — both simulators decode the lines in the same order with the
same offset. -/
def decodeTrace (off : Option Nat) : List String → Except PyErr (List (Nat × Int × Nat))
  | [] => .ok []
  | l :: rest =>
      match parse_line off l with
      | .error e => .error e
      | .ok ev =>
        match decodeTrace off rest with
        | .error e => .error e
        | .ok evs => .ok (ev :: evs)

/-- `lruRunAux` with the decoding already done. -/
def lruEvAux : List (Nat × Int × Nat) → List page_table → Stats → Nat →
    Except PyErr (List page_table × Stats)
  | [], tables, st, _ => .ok (tables, st)
  | (d, f, idx) :: rest, tables, st, i =>
      match lruStep tables st i d f idx with
      | .error e => .error e
      | .ok (tables2, st2) => lruEvAux rest tables2 st2 (i + 1)

/-- `optRunAux` with the decoding already done. -/
def optEvAux : List (Nat × Int × Nat) → List page_table → Stats → Nat →
    Except PyErr (List page_table × Stats)
  | [], tables, st, _ => .ok (tables, st)
  | (d, f, idx) :: rest, tables, st, i =>
      match optStep tables st i d f idx with
      | .error e => .error e
      | .ok (tables2, st2) => optEvAux rest tables2 st2 (i + 1)

/-- `optPass1` with the decoding already done. -/
def optPass1Ev : List (Nat × Int × Nat) → List page_table → Nat →
    Except PyErr (List page_table)
  | [], tables, _ => .ok tables
  | (_, frame, idx) :: rest, tables, i =>
      match tables.get? idx with
      | none => .error .indexError
      | some t =>
        optPass1Ev rest (tables.set idx
          (if ¬ dcontains t.freq frame then { t with freq := dset t.freq frame [i] }
           else
             match dget t.freq frame with
             | some fl => { t with freq := dset t.freq frame (fl ++ [i]) }
             | none => t)) (i + 1)

theorem decodeTrace_of_lruRunAux (off : Option Nat) :
    ∀ (lines : List String) (tables : List page_table) (st : Stats) (i : Nat) r,
    lruRunAux off lines tables st i = .ok r →
    ∃ evs, decodeTrace off lines = .ok evs := by
  intro lines
  induction lines with
  | nil => intro tables st i r _; exact ⟨[], rfl⟩
  | cons l rest ih =>
      intro tables st i r h
      rw [lruRunAux] at h
      split at h
      · exact Except.noConfusion h
      next d f idx hp =>
        split at h
        · exact Except.noConfusion h
        next tables2 st2 hstep =>
          obtain ⟨evs, hevs⟩ := ih _ _ _ _ h
          refine ⟨(d, f, idx) :: evs, ?_⟩
          rw [decodeTrace, hp, hevs]

theorem lruRunAux_eq_ev (off : Option Nat) :
    ∀ (lines : List String) (evs : List (Nat × Int × Nat)),
    decodeTrace off lines = .ok evs →
    ∀ (tables : List page_table) (st : Stats) (i : Nat),
    lruRunAux off lines tables st i = lruEvAux evs tables st i := by
  intro lines
  induction lines with
  | nil =>
      intro evs h tables st i
      rw [decodeTrace, Except.ok.injEq] at h
      subst h
      rfl
  | cons l rest ih =>
      intro evs h tables st i
      rw [decodeTrace] at h
      split at h
      · exact Except.noConfusion h
      next ev hp =>
        split at h
        · exact Except.noConfusion h
        next evs2 hdec =>
          rw [Except.ok.injEq] at h
          subst h
          obtain ⟨d, f, idx⟩ := ev
          rw [lruRunAux, hp, lruEvAux]
          simp only []
          cases lruStep tables st i d f idx with
          | error e => rfl
          | ok r2 =>
              obtain ⟨tables2, st2⟩ := r2
              simp only []
              exact ih _ hdec _ _ _

theorem optRunAux_eq_ev (off : Option Nat) :
    ∀ (lines : List String) (evs : List (Nat × Int × Nat)),
    decodeTrace off lines = .ok evs →
    ∀ (tables : List page_table) (st : Stats) (i : Nat),
    optRunAux off lines tables st i = optEvAux evs tables st i := by
  intro lines
  induction lines with
  | nil =>
      intro evs h tables st i
      rw [decodeTrace, Except.ok.injEq] at h
      subst h
      rfl
  | cons l rest ih =>
      intro evs h tables st i
      rw [decodeTrace] at h
      split at h
      · exact Except.noConfusion h
      next ev hp =>
        split at h
        · exact Except.noConfusion h
        next evs2 hdec =>
          rw [Except.ok.injEq] at h
          subst h
          obtain ⟨d, f, idx⟩ := ev
          rw [optRunAux, hp, optEvAux]
          simp only []
          cases optStep tables st i d f idx with
          | error e => rfl
          | ok r2 =>
              obtain ⟨tables2, st2⟩ := r2
              simp only []
              exact ih _ hdec _ _ _

theorem optPass1_eq_ev (off : Option Nat) :
    ∀ (lines : List String) (evs : List (Nat × Int × Nat)),
    decodeTrace off lines = .ok evs →
    ∀ (tables : List page_table) (i : Nat),
    optPass1 off lines tables i = optPass1Ev evs tables i := by
  intro lines
  induction lines with
  | nil =>
      intro evs h tables i
      rw [decodeTrace, Except.ok.injEq] at h
      subst h
      rfl
  | cons l rest ih =>
      intro evs h tables i
      rw [decodeTrace] at h
      split at h
      · exact Except.noConfusion h
      next ev hp =>
        split at h
        · exact Except.noConfusion h
        next evs2 hdec =>
          rw [Except.ok.injEq] at h
          subst h
          obtain ⟨d, f, idx⟩ := ev
          rw [optPass1, hp, optPass1Ev]
          simp only []
          cases tables.get? idx with
          | none => rfl
          | some t =>
              simp only []
              exact ih _ hdec _ _

/-! ### Per-table projections of an event list -/

/-- The frames of the events routed to table `j`, in order. -/
def projFrames (j : Nat) : List (Nat × Int × Nat) → List Int
  | [] => []
  | (_, f, idx) :: rest => if idx = j then f :: projFrames j rest else projFrames j rest

/-- The (global) positions at which frame `k` is accessed through table
`j`, starting the numbering of the remaining events at `i`. -/
def occList (j : Nat) (k : Int) : List (Nat × Int × Nat) → Nat → List Nat
  | [], _ => []
  | (_, f, idx) :: rest, i =>
      if idx = j ∧ f = k then i :: occList j k rest (i + 1)
      else occList j k rest (i + 1)

/-- Fault count of a table that never evicts: a fresh frame faults and is
inserted, a resident frame hits. -/
def faultsNoEvict : Finset Int → List Int → ℕ
  | _, [] => 0
  | C, x :: ρ => if x ∈ C then faultsNoEvict C ρ else faultsNoEvict (insert x C) ρ + 1

/-- Next-access value carried by a (reversed) occurrence list: the last
element, or `⊤` when the frame is never accessed again. -/
def nextE (fl : List Nat) : ℕ∞ :=
  match fl.getLast? with
  | none => ⊤
  | some m => (m : ℕ∞)

/-- Position of the next access to frame `k` through table `j`, or `⊤`. -/
def nextPos (j : Nat) (k : Int) (evs : List (Nat × Int × Nat)) (i : Nat) : ℕ∞ :=
  match (occList j k evs i).head? with
  | none => ⊤
  | some m => (m : ℕ∞)

theorem occList_cons_hit {j : Nat} {k f : Int} {d idx : Nat}
    {rest : List (Nat × Int × Nat)} {i : Nat} (h1 : idx = j) (h2 : f = k) :
    occList j k ((d, f, idx) :: rest) i = i :: occList j k rest (i + 1) := by
  rw [occList, if_pos ⟨h1, h2⟩]

theorem occList_cons_skip {j : Nat} {k f : Int} {d idx : Nat}
    {rest : List (Nat × Int × Nat)} {i : Nat} (h : ¬ (idx = j ∧ f = k)) :
    occList j k ((d, f, idx) :: rest) i = occList j k rest (i + 1) := by
  rw [occList, if_neg h]

theorem nextE_eq_nextPos {fl : List Nat} {j : Nat} {k : Int}
    {evs : List (Nat × Int × Nat)} {i : Nat}
    (h : fl.reverse = occList j k evs i) : nextE fl = nextPos j k evs i := by
  rw [nextE, nextPos, ← h, List.head?_reverse]

theorem nextPos_cons_hit {j : Nat} {k f : Int} {d idx : Nat}
    {rest : List (Nat × Int × Nat)} {i : Nat} (h1 : idx = j) (h2 : f = k) :
    nextPos j k ((d, f, idx) :: rest) i = (i : ℕ∞) := by
  simp only [nextPos, occList_cons_hit h1 h2, List.head?_cons]

theorem nextPos_cons_skip {j : Nat} {k f : Int} {d idx : Nat}
    {rest : List (Nat × Int × Nat)} {i : Nat} (h : ¬ (idx = j ∧ f = k)) :
    nextPos j k ((d, f, idx) :: rest) i = nextPos j k rest (i + 1) := by
  simp only [nextPos, occList_cons_skip h]

theorem occList_ge (j : Nat) (k : Int) :
    ∀ (evs : List (Nat × Int × Nat)) (i n : Nat),
    n ∈ occList j k evs i → i ≤ n := by
  intro evs
  induction evs with
  | nil => intro i n h; simp [occList] at h
  | cons ev rest ih =>
      obtain ⟨d, f, idx⟩ := ev
      intro i n h
      rw [occList] at h
      split at h
      · rcases List.mem_cons.mp h with rfl | h2
        · exact le_refl n
        · exact Nat.le_of_succ_le (ih (i + 1) n h2)
      · exact Nat.le_of_succ_le (ih (i + 1) n h)

/-- Ordering the residents by position of next access orders them by
next use along the projected request list: global positions of events
routed to one table are monotone in their projected index. -/
theorem nextPos_mono_nextUse (j : Nat) :
    ∀ (evs : List (Nat × Int × Nat)) (i : Nat) (u v : Int),
    nextPos j u evs i ≤ nextPos j v evs i →
    nextUse u (projFrames j evs) ≤ nextUse v (projFrames j evs) := by
  intro evs
  induction evs with
  | nil => intro i u v _; exact le_refl ⊤
  | cons ev rest ih =>
      obtain ⟨d, f, idx⟩ := ev
      intro i u v h
      by_cases hj : idx = j
      · rw [projFrames, if_pos hj]
        by_cases hfu : f = u
        · rw [hfu, nextUse_cons_self]
          exact zero_le _
        · by_cases hfv : f = v
          · exfalso
            rw [nextPos_cons_hit hj hfv, nextPos_cons_skip (fun hc => hfu hc.2)] at h
            cases hocc : occList j u rest (i + 1) with
            | nil =>
                rw [nextPos, hocc] at h
                exact ENat.coe_ne_top i (top_le_iff.mp h)
            | cons m l =>
                rw [nextPos, hocc, List.head?_cons] at h
                change (m : ℕ∞) ≤ (i : ℕ∞) at h
                have hm : i + 1 ≤ m :=
                  occList_ge j u rest (i + 1) m (hocc ▸ List.mem_cons_self m l)
                have hmi : m ≤ i := by exact_mod_cast h
                omega
          · rw [nextUse_cons_ne hfu, nextUse_cons_ne hfv, enat_add_one_le_iff]
            rw [nextPos_cons_skip (fun hc => hfu hc.2),
              nextPos_cons_skip (fun hc => hfv hc.2)] at h
            exact ih (i + 1) u v h
      · rw [projFrames, if_neg hj]
        rw [nextPos_cons_skip (fun hc => hj hc.1),
          nextPos_cons_skip (fun hc => hj hc.1)] at h
        exact ih (i + 1) u v h

theorem optScan_freq_some (freq : Dict (List Nat)) :
    ∀ (l : List (Int × Nat × Nat)) (nxt : Int) (lru : Nat) (fte : Option Int) r,
    optScan freq l nxt lru fte = .ok r →
    ∀ p ∈ l, ∃ fl, dget freq p.1 = some fl := by
  intro l
  induction l with
  | nil => intro nxt lru fte r _ p hp; simp at hp
  | cons q rest ih =>
      obtain ⟨k, e⟩ := q
      intro nxt lru fte r h p hp
      rw [optScan] at h
      cases hfl : dget freq k with
      | none => rw [hfl] at h; exact Except.noConfusion h
      | some fl =>
          rw [hfl] at h
          simp only [] at h
          rcases List.mem_cons.mp hp with rfl | hp2
          · exact ⟨fl, hfl⟩
          · split at h
            · exact ih _ _ _ _ h p hp2
            · split at h
              · cases hl : fl.getLast? with
                | none => rw [hl] at h; exact Except.noConfusion h
                | some last =>
                    rw [hl] at h
                    simp only [] at h
                    split at h
                    · exact ih _ _ _ _ h p hp2
                    · exact ih _ _ _ _ h p hp2
              · exact ih _ _ _ _ h p hp2

/-- On success the OPT eviction scan returns a frame whose next-access
value dominates every scanned frame's: an empty occurrence list counts as
`⊤`, a non-empty one as its last element.  The hypothesis is the
accumulator invariant, satisfied by the initial seed `(-1, maxsize,
none)`. -/
theorem optScan_farthest (freq : Dict (List Nat)) :
    ∀ (l : List (Int × Nat × Nat)) (nxt : Int) (lru : Nat) (fte : Option Int) (v : Int),
    optScan freq l nxt lru fte = .ok (some v) →
    ((lru = sysMaxsize ∧ ((fte = none ∧ nxt = -1) ∨
        (∃ w fl, fte = some w ∧ dget freq w = some fl ∧
          fl.getLast? = some nxt.toNat ∧ 0 ≤ nxt))) ∨
     (lru < sysMaxsize ∧ ∃ w fl, fte = some w ∧ dget freq w = some fl ∧ fl = [])) →
    ∃ flv, dget freq v = some flv ∧
      (∀ p ∈ l, ∀ fl2, dget freq p.1 = some fl2 → nextE fl2 ≤ nextE flv) ∧
      (∀ w, fte = some w → ∀ fl2, dget freq w = some fl2 → nextE fl2 ≤ nextE flv) := by
  intro l
  induction l with
  | nil =>
      intro nxt lru fte v h hinv
      rw [optScan, Except.ok.injEq] at h
      subst h
      rcases hinv with ⟨hlru, hcase⟩ | ⟨hlru, w, fl, hw, hfl, hemp⟩
      · rcases hcase with ⟨hnone, _⟩ | ⟨w, fl, hw, hfl, hlast, hnn⟩
        · exact Option.noConfusion hnone
        · obtain rfl : v = w := Option.some.inj hw
          refine ⟨fl, hfl, ?_, ?_⟩
          · intro p hp; simp at hp
          · intro w2 hw2 fl2 hfl2
            obtain rfl : v = w2 := Option.some.inj hw2
            rw [hfl] at hfl2
            obtain rfl : fl = fl2 := Option.some.inj hfl2
            exact le_refl _
      · obtain rfl : v = w := Option.some.inj hw
        refine ⟨fl, hfl, ?_, ?_⟩
        · intro p hp; simp at hp
        · intro w2 hw2 fl2 hfl2
          obtain rfl : v = w2 := Option.some.inj hw2
          rw [hfl] at hfl2
          obtain rfl : fl = fl2 := Option.some.inj hfl2
          exact le_refl _
  | cons q rest ih =>
      obtain ⟨k, e⟩ := q
      intro nxt lru fte v h hinv
      rw [optScan] at h
      cases hfl : dget freq k with
      | none => rw [hfl] at h; exact Except.noConfusion h
      | some fl =>
        rw [hfl] at h
        simp only [] at h
        split at h
        next hcond =>
          have hemp : fl = [] := by
            cases fl with
            | nil => rfl
            | cons a l2 => simp [List.isEmpty] at hcond
          have hlt : e.2 < sysMaxsize := by
            rcases hinv with ⟨hlru, _⟩ | ⟨hlru, _⟩
            · exact hlru ▸ hcond.2
            · exact lt_trans hcond.2 hlru
          obtain ⟨flv, hflv, hrest, hfte⟩ := ih nxt e.2 (some k) v h
            (Or.inr ⟨hlt, k, fl, rfl, hfl, hemp⟩)
          have htop : nextE flv = ⊤ := by
            have h1 := hfte k rfl fl hfl
            rw [hemp] at h1
            exact top_le_iff.mp h1
          refine ⟨flv, hflv, ?_, ?_⟩
          · intro p hp fl2 hfl2
            rcases List.mem_cons.mp hp with rfl | hp2
            · rw [htop]; exact le_top
            · exact hrest p hp2 fl2 hfl2
          · intro w hw fl2 hfl2
            rw [htop]; exact le_top
        next hcond =>
          split at h
          next hlru =>
            cases hl : fl.getLast? with
            | none => rw [hl] at h; exact Except.noConfusion h
            | some last =>
              rw [hl] at h
              simp only [] at h
              split at h
              next hgt =>
                obtain ⟨flv, hflv, hrest, hfte⟩ := ih (last : Int) lru (some k) v h
                  (Or.inl ⟨hlru, Or.inr ⟨k, fl, rfl, hfl,
                    by rw [hl, Int.toNat_natCast], Int.natCast_nonneg last⟩⟩)
                have hklv : nextE fl ≤ nextE flv := hfte k rfl fl hfl
                refine ⟨flv, hflv, ?_, ?_⟩
                · intro p hp fl2 hfl2
                  rcases List.mem_cons.mp hp with rfl | hp2
                  · rw [hfl] at hfl2
                    obtain rfl : fl = fl2 := Option.some.inj hfl2
                    exact hklv
                  · exact hrest p hp2 fl2 hfl2
                · intro w hw fl2 hfl2
                  rcases hinv with ⟨_, hcase⟩ | ⟨hlru2, _⟩
                  · rcases hcase with ⟨hnone, _⟩ | ⟨w0, fl0, hw0, hfl0, hlast0, hnn0⟩
                    · rw [hw] at hnone; exact Option.noConfusion hnone
                    · rw [hw0] at hw
                      obtain rfl : w0 = w := Option.some.inj hw
                      rw [hfl0] at hfl2
                      obtain rfl : fl0 = fl2 := Option.some.inj hfl2
                      have h1 : nextE fl0 = (nxt.toNat : ℕ∞) := by rw [nextE, hlast0]
                      have h2 : nextE fl = (last : ℕ∞) := by rw [nextE, hl]
                      have h3 : nxt.toNat ≤ last := by omega
                      calc nextE fl0 = (nxt.toNat : ℕ∞) := h1
                        _ ≤ (last : ℕ∞) := by exact_mod_cast h3
                        _ = nextE fl := h2.symm
                        _ ≤ nextE flv := hklv
                  · exact absurd hlru (ne_of_lt hlru2)
              next hgt =>
                rcases hinv with ⟨hlru1, hcase⟩ | ⟨hlru2, _⟩
                · rcases hcase with ⟨hnone, hnxt⟩ | ⟨w0, fl0, hw0, hfl0, hlast0, hnn0⟩
                  · exfalso
                    rw [hnxt] at hgt
                    have hge : (0 : ℤ) ≤ (last : ℤ) := Int.natCast_nonneg last
                    omega
                  · obtain ⟨flv, hflv, hrest, hfte⟩ := ih nxt lru fte v h
                      (Or.inl ⟨hlru1, Or.inr ⟨w0, fl0, hw0, hfl0, hlast0, hnn0⟩⟩)
                    have hwlv : nextE fl0 ≤ nextE flv := hfte w0 hw0 fl0 hfl0
                    refine ⟨flv, hflv, ?_, hfte⟩
                    intro p hp fl2 hfl2
                    rcases List.mem_cons.mp hp with rfl | hp2
                    · rw [hfl] at hfl2
                      obtain rfl : fl = fl2 := Option.some.inj hfl2
                      have h1 : nextE fl = (last : ℕ∞) := by rw [nextE, hl]
                      have h0 : nextE fl0 = (nxt.toNat : ℕ∞) := by rw [nextE, hlast0]
                      have h3 : last ≤ nxt.toNat := by omega
                      calc nextE fl = (last : ℕ∞) := h1
                        _ ≤ (nxt.toNat : ℕ∞) := by exact_mod_cast h3
                        _ = nextE fl0 := h0.symm
                        _ ≤ nextE flv := hwlv
                    · exact hrest p hp2 fl2 hfl2
                · exact absurd hlru (ne_of_lt hlru2)
          next hlru =>
            rcases hinv with ⟨hlru1, _⟩ | ⟨hlru2, w0, fl0, hw0, hfl0, hemp0⟩
            · exact absurd hlru1 hlru
            · obtain ⟨flv, hflv, hrest, hfte⟩ := ih nxt lru fte v h
                (Or.inr ⟨hlru2, w0, fl0, hw0, hfl0, hemp0⟩)
              have htop : (⊤ : ℕ∞) ≤ nextE flv := by
                have h1 := hfte w0 hw0 fl0 hfl0
                rw [hemp0] at h1
                exact h1
              refine ⟨flv, hflv, ?_, hfte⟩
              intro p hp fl2 hfl2
              rcases List.mem_cons.mp hp with rfl | hp2
              · exact le_trans le_top htop
              · exact hrest p hp2 fl2 hfl2

/-! ### The Belady argument: per-table invariants and step transfer -/

/-- Invariant needed by the Belady comparison: distinct keys, and — when
the capacity is a natural number — a resident count within it.  (A table
with a fractional capacity never reports full, so its resident count is
unbounded but it also never evicts.) -/
def tableInv2 (t : page_table) : Prop :=
  ((t.entries.map Prod.fst).Nodup) ∧
  (∀ n : ℕ, t.frames = (n : ℚ) → (t.entries.length : ℚ) ≤ t.frames)

/-- Occurrence-list invariant of the OPT second pass: every occurrence
list present in `freq` is the reversed list of the remaining positions at
which its frame is accessed through table `j`. -/
def optInvF (j : Nat) (evs : List (Nat × Int × Nat)) (i : Nat) (t : page_table) : Prop :=
  ∀ k l, dget t.freq k = some l → l.reverse = occList j k evs i

theorem nodup_dset {α} {d : Dict α} {f : Int} {v : α}
    (hnd : (d.map Prod.fst).Nodup) : ((dset d f v).map Prod.fst).Nodup := by
  rw [dset_map_fst]
  by_cases h : dcontains d f = true
  · rw [if_pos h]; exact hnd
  · rw [if_neg h]
    rw [List.nodup_append]
    refine ⟨hnd, List.nodup_singleton f, ?_⟩
    intro a ha hb
    rcases List.mem_singleton.mp hb with rfl
    obtain ⟨p, hp, hpk⟩ := List.mem_map.mp ha
    exact h (dcontains_iff.mpr ⟨p, hp, hpk⟩)

theorem dget_isSome_iff {α} {d : Dict α} {k : Int} :
    (∃ v, dget d k = some v) ↔ dcontains d k = true := by
  constructor
  · rintro ⟨v, hv⟩
    rw [dget] at hv
    cases hf : d.find? (fun p => p.1 = k) with
    | none => rw [hf] at hv; exact Option.noConfusion hv
    | some q =>
        have hq := List.find?_some hf
        have hqm := List.mem_of_find?_eq_some hf
        exact dcontains_iff.mpr ⟨q, hqm, by simpa using hq⟩
  · intro h
    obtain ⟨p, hp, hpk⟩ := dcontains_iff.mp h
    exact dget_isSome_of_key ⟨p, hp, hpk⟩

/-- Transfer of one successful LRU iteration to the routed table: the
invariant is preserved, the capacity is unchanged, and the fault
increment δ extends any abstract run (for a natural capacity) or the
no-eviction fault count (for a fractional one) of the remaining requests. -/
theorem lru_table_step {t t2 : page_table} {f : Int} {d i : Nat} {pf pf2 : ℕ}
    (hinv : tableInv2 t)
    (hcase :
      (dcontains t.entries f = true ∧ pf2 = pf ∧
        ∃ e : Nat × Nat, dget t.entries f = some e ∧
          t2 = { t with entries := dset t.entries f (if e.1 = 1 ∨ d = 1 then (1, i) else (0, i)) }) ∨
      (¬ dcontains t.entries f = true ∧ pf2 = pf + 1 ∧
        ((t.isFull = false ∧ t2 = { t with entries := dset t.entries f (d, i) }) ∨
         (t.isFull = true ∧ ∃ fte e, lruVictim t.entries = some fte ∧
            dget t.entries fte = some e ∧
            t2 = { t with entries := dset (dpop t.entries fte) f (d, i) })))) :
    tableInv2 t2 ∧ t2.frames = t.frames ∧
    ∃ δ : ℕ, pf2 = pf + δ ∧
      (∀ (ρ : List Int) (fc n : ℕ), t.frames = (n : ℚ) →
          Run n (keysFinset t2.entries) ρ fc →
          Run n (keysFinset t.entries) (f :: ρ) (fc + δ)) ∧
      (∀ (ρ : List Int) (fc : ℕ), (∀ n : ℕ, t.frames ≠ (n : ℚ)) →
          fc = faultsNoEvict (keysFinset t2.entries) ρ →
          fc + δ = faultsNoEvict (keysFinset t.entries) (f :: ρ)) := by
  obtain ⟨hnd, hb⟩ := hinv
  rcases hcase with ⟨hc, hpf, e, he, rfl⟩ | ⟨hm, hpf, hrest⟩
  · have hkeys : keysFinset (dset t.entries f
        (if e.1 = 1 ∨ d = 1 then (1, i) else (0, i))) = keysFinset t.entries :=
      keysFinset_dset_mem hc
    refine ⟨⟨nodup_dset hnd, ?_⟩, rfl, 0, by omega, ?_, ?_⟩
    · intro n hn
      show ((dset t.entries f _).length : ℚ) ≤ t.frames
      rw [dset_length, if_pos hc]
      exact hb n hn
    · intro ρ fc n hn hrun
      rw [Nat.add_zero]
      refine Run.hit _ f ρ fc (mem_keysFinset.mpr hc) ?_
      rwa [hkeys] at hrun
    · intro ρ fc hfr hfc
      rw [faultsNoEvict, if_pos (mem_keysFinset.mpr hc), Nat.add_zero, hfc, hkeys]
  · rcases hrest with ⟨hfull, rfl⟩ | ⟨hfull, fte, e, hvic, he, rfl⟩
    · have hkeys : keysFinset (dset t.entries f (d, i)) =
          insert f (keysFinset t.entries) := keysFinset_dset_new hm
      have hfne : ¬ ((t.entries.length : ℚ) = t.frames) := isFull_false_ne hfull
      have hlt : ∀ n : ℕ, t.frames = (n : ℚ) → t.entries.length < n := by
        intro n hn
        have h1 : (t.entries.length : ℚ) ≤ (n : ℚ) := by rw [← hn]; exact hb n hn
        have h2 : (t.entries.length : ℚ) ≠ (n : ℚ) := by rw [← hn]; exact hfne
        exact_mod_cast lt_of_le_of_ne h1 h2
      refine ⟨⟨nodup_dset hnd, ?_⟩, rfl, 1, by omega, ?_, ?_⟩
      · intro n hn
        show ((dset t.entries f (d, i)).length : ℚ) ≤ t.frames
        rw [dset_length, if_neg hm, hn]
        exact_mod_cast Nat.succ_le_of_lt (hlt n hn)
      · intro ρ fc n hn hrun
        refine Run.miss _ f ρ fc (fun hc2 => hm (mem_keysFinset.mp hc2)) ?_ ?_
        · rw [keysFinset_card hnd]
          exact hlt n hn
        · rwa [hkeys] at hrun
      · intro ρ fc hfr hfc
        rw [faultsNoEvict, if_neg (fun hc2 => hm (mem_keysFinset.mp hc2)), hfc, hkeys]
    · have hkmem : ∃ p ∈ t.entries, p.1 = fte := by
        rcases lruScan_some_mem t.entries sysMaxsize none fte hvic with h2 | h2
        · exact Option.noConfusion h2
        · exact h2
      have hkeys : keysFinset (dset (dpop t.entries fte) f (d, i)) =
          insert f ((keysFinset t.entries).erase fte) := by
        rw [keysFinset_dset_new (dcontains_dpop_false hm), keysFinset_dpop]
      have hlen : (dset (dpop t.entries fte) f (d, i)).length = t.entries.length := by
        rw [dset_length, if_neg (dcontains_dpop_false hm)]
        have h2 := dpop_length hnd hkmem
        omega
      have hndpop : ((dpop t.entries fte).map Prod.fst).Nodup :=
        (dpop_map_fst_sublist t.entries fte).nodup hnd
      have hfeq : (t.entries.length : ℚ) = t.frames := (isFull_iff t).mp hfull
      refine ⟨⟨nodup_dset hndpop, ?_⟩, rfl, 1, by omega, ?_, ?_⟩
      · intro n hn
        show ((dset (dpop t.entries fte) f (d, i)).length : ℚ) ≤ t.frames
        rw [hlen]
        exact le_of_eq hfeq
      · intro ρ fc n hn hrun
        have hftemem : fte ∈ keysFinset t.entries :=
          mem_keysFinset.mpr (dcontains_iff.mpr hkmem)
        refine Run.evict _ f ρ fc fte (fun hc2 => hm (mem_keysFinset.mp hc2)) ?_
          hftemem ?_
        · rw [keysFinset_card hnd]
          have h1 : t.entries.length = n := by
            have h2 : (t.entries.length : ℚ) = (n : ℚ) := by rw [hfeq, hn]
            exact_mod_cast h2
          omega
        · rwa [hkeys] at hrun
      · intro ρ fc hfr hfc
        exact absurd hfeq.symm (hfr t.entries.length)

/-- Decomposition of a successful LRU event run over the two tables: the
total fault increment splits into per-table counts, each of which is the
fault count of an abstract demand-paging run (natural capacity) or the
no-eviction fault count (fractional capacity) on that table's projected
request list. -/
theorem lruEvAux_two :
    ∀ (evs : List (Nat × Int × Nat)) (t0 t1 : page_table) (st : Stats) (i : Nat) r,
    tableInv2 t0 → tableInv2 t1 →
    lruEvAux evs [t0, t1] st i = .ok r →
    ∃ f0 f1, r.2.page_faults = st.page_faults + f0 + f1 ∧
      (∀ n : ℕ, t0.frames = (n : ℚ) →
        Run n (keysFinset t0.entries) (projFrames 0 evs) f0) ∧
      ((∀ n : ℕ, t0.frames ≠ (n : ℚ)) →
        f0 = faultsNoEvict (keysFinset t0.entries) (projFrames 0 evs)) ∧
      (∀ n : ℕ, t1.frames = (n : ℚ) →
        Run n (keysFinset t1.entries) (projFrames 1 evs) f1) ∧
      ((∀ n : ℕ, t1.frames ≠ (n : ℚ)) →
        f1 = faultsNoEvict (keysFinset t1.entries) (projFrames 1 evs)) := by
  intro evs
  induction evs with
  | nil =>
      intro t0 t1 st i r _ _ h
      rw [lruEvAux, Except.ok.injEq] at h
      subst h
      exact ⟨0, 0, by dsimp only; omega, fun n _ => Run.nil _, fun _ => rfl,
        fun n _ => Run.nil _, fun _ => rfl⟩
  | cons ev rest ih =>
      obtain ⟨d, f, idx⟩ := ev
      intro t0 t1 st i r hi0 hi1 h
      rw [lruEvAux] at h
      split at h
      · exact Except.noConfusion h
      next tables2 st2 hstep =>
        obtain ⟨t, hget, hacc, hcases⟩ := lruStep_cases hstep
        rcases idx with _ | idx1
        · have ht : t0 = t := Option.some.inj (show some t0 = some t from hget)
          subst ht
          have hpair : ∃ T, tables2 = [T, t1] ∧
              ((dcontains t0.entries f = true ∧
                  st2.page_faults = st.page_faults ∧
                  ∃ e : Nat × Nat, dget t0.entries f = some e ∧
                    T = { t0 with entries := dset t0.entries f (if e.1 = 1 ∨ d = 1 then (1, i) else (0, i)) }) ∨
               (¬ dcontains t0.entries f = true ∧
                  st2.page_faults = st.page_faults + 1 ∧
                  ((t0.isFull = false ∧
                      T = { t0 with entries := dset t0.entries f (d, i) }) ∨
                   (t0.isFull = true ∧ ∃ fte e,
                      lruVictim t0.entries = some fte ∧
                      dget t0.entries fte = some e ∧
                      T = { t0 with entries := dset (dpop t0.entries fte) f (d, i) })))) := by
            rcases hcases with ⟨hc, hpf, hdw, e, he, hr1⟩ | ⟨hm, hpf, hbr⟩
            · dsimp only at hpf hr1
              exact ⟨_, hr1, Or.inl ⟨hc, hpf, e, he, rfl⟩⟩
            · rcases hbr with ⟨hfull, hdw, hr1⟩ | ⟨hfull, fte, e, hvic, he, hdw, hr1⟩
              · dsimp only at hpf hr1
                exact ⟨_, hr1, Or.inr ⟨hm, hpf, Or.inl ⟨hfull, rfl⟩⟩⟩
              · dsimp only at hpf hr1
                exact ⟨_, hr1, Or.inr ⟨hm, hpf, Or.inr ⟨hfull, fte, e, hvic, he, rfl⟩⟩⟩
          obtain ⟨T, htab, hcase2⟩ := hpair
          obtain ⟨hinvT, hfrT, δ, hδ, hrunT, hfracT⟩ := lru_table_step hi0 hcase2
          rw [htab] at h
          obtain ⟨f0, f1, hsum, hr0, hfr0, hr1b, hfr1b⟩ :=
            ih T t1 st2 (i + 1) r hinvT hi1 h
          refine ⟨f0 + δ, f1, by omega, ?_, ?_, ?_, ?_⟩
          · intro n hn
            rw [projFrames, if_pos rfl]
            exact hrunT (projFrames 0 rest) f0 n hn (hr0 n (by rw [hfrT, hn]))
          · intro hfr
            rw [projFrames, if_pos rfl]
            exact hfracT (projFrames 0 rest) f0 hfr
              (hfr0 (fun n => by rw [hfrT]; exact hfr n))
          · intro n hn
            rw [projFrames, if_neg (by decide)]
            exact hr1b n hn
          · intro hfr
            rw [projFrames, if_neg (by decide)]
            exact hfr1b hfr
        · rcases idx1 with _ | idx2
          · have ht : t1 = t := Option.some.inj (show some t1 = some t from hget)
            subst ht
            have hpair : ∃ T, tables2 = [t0, T] ∧
                ((dcontains t1.entries f = true ∧
                    st2.page_faults = st.page_faults ∧
                    ∃ e : Nat × Nat, dget t1.entries f = some e ∧
                      T = { t1 with entries := dset t1.entries f (if e.1 = 1 ∨ d = 1 then (1, i) else (0, i)) }) ∨
                 (¬ dcontains t1.entries f = true ∧
                    st2.page_faults = st.page_faults + 1 ∧
                    ((t1.isFull = false ∧
                        T = { t1 with entries := dset t1.entries f (d, i) }) ∨
                     (t1.isFull = true ∧ ∃ fte e,
                        lruVictim t1.entries = some fte ∧
                        dget t1.entries fte = some e ∧
                        T = { t1 with entries := dset (dpop t1.entries fte) f (d, i) })))) := by
              rcases hcases with ⟨hc, hpf, hdw, e, he, hr1⟩ | ⟨hm, hpf, hbr⟩
              · dsimp only at hpf hr1
                exact ⟨_, hr1, Or.inl ⟨hc, hpf, e, he, rfl⟩⟩
              · rcases hbr with ⟨hfull, hdw, hr1⟩ | ⟨hfull, fte, e, hvic, he, hdw, hr1⟩
                · dsimp only at hpf hr1
                  exact ⟨_, hr1, Or.inr ⟨hm, hpf, Or.inl ⟨hfull, rfl⟩⟩⟩
                · dsimp only at hpf hr1
                  exact ⟨_, hr1, Or.inr ⟨hm, hpf, Or.inr ⟨hfull, fte, e, hvic, he, rfl⟩⟩⟩
            obtain ⟨T, htab, hcase2⟩ := hpair
            obtain ⟨hinvT, hfrT, δ, hδ, hrunT, hfracT⟩ := lru_table_step hi1 hcase2
            rw [htab] at h
            obtain ⟨f0, f1, hsum, hr0, hfr0, hr1b, hfr1b⟩ :=
              ih t0 T st2 (i + 1) r hi0 hinvT h
            refine ⟨f0, f1 + δ, by omega, ?_, ?_, ?_, ?_⟩
            · intro n hn
              rw [projFrames, if_neg (by decide)]
              exact hr0 n hn
            · intro hfr
              rw [projFrames, if_neg (by decide)]
              exact hfr0 hfr
            · intro n hn
              rw [projFrames, if_pos rfl]
              exact hrunT (projFrames 1 rest) f1 n hn (hr1b n (by rw [hfrT, hn]))
            · intro hfr
              rw [projFrames, if_pos rfl]
              exact hfracT (projFrames 1 rest) f1 hfr
                (hfr1b (fun n => by rw [hfrT]; exact hfr n))
          · exact Option.noConfusion hget

theorem optInvF_pop {j d2 i : Nat} {f : Int} {rest : List (Nat × Int × Nat)}
    {t : page_table} {fl : List Nat}
    (hocc : optInvF j ((d2, f, j) :: rest) i t)
    (hfl : dget t.freq f = some fl) :
    ∀ k l, dget (dset t.freq f fl.dropLast) k = some l →
      l.reverse = occList j k rest (i + 1) := by
  intro k l hl
  by_cases hk : k = f
  · rw [hk] at hl ⊢
    rw [dget_dset_self] at hl
    obtain rfl : fl.dropLast = l := Option.some.inj hl
    have h1 := hocc f fl hfl
    rw [occList_cons_hit rfl rfl] at h1
    have h2 : fl = (occList j f rest (i + 1)).reverse ++ [i] := by
      rw [← List.reverse_reverse fl, h1, List.reverse_cons]
    rw [h2, List.dropLast_concat, List.reverse_reverse]
  · rw [dget_dset_ne t.freq fl.dropLast hk] at hl
    have h1 := hocc k l hl
    rwa [occList_cons_skip (fun hc2 => hk hc2.2.symm)] at h1

theorem optInvF_skip {j i : Nat} {ev : Nat × Int × Nat} {rest : List (Nat × Int × Nat)}
    {t : page_table} (hne : ev.2.2 ≠ j) (hocc : optInvF j (ev :: rest) i t) :
    optInvF j rest (i + 1) t := by
  intro k l hl
  have h1 := hocc k l hl
  obtain ⟨d2, f2, idx2⟩ := ev
  rwa [occList_cons_skip (fun hc2 => hne hc2.1)] at h1

/-- Transfer of one successful OPT iteration to the routed table: the
invariants are preserved and the fault increment δ is dominated by the
Bellman cost (natural capacity) or matches the no-eviction count
(fractional capacity).  In the eviction case the occurrence-list
invariant turns the scan's winner into a farthest-next-use victim. -/
theorem opt_table_step {t t2 : page_table} {f : Int} {d i j : Nat} {pf pf2 : ℕ}
    {rest : List (Nat × Int × Nat)}
    (hinv : tableInv2 t)
    (hocc : optInvF j ((d, f, j) :: rest) i t)
    (hcase :
      (dcontains t.entries f = true ∧ pf2 = pf ∧
        ∃ fl, dget t.freq f = some fl ∧ fl.isEmpty = false ∧
        ∃ e : Nat × Nat, dget t.entries f = some e ∧
          t2 = ⟨t.frames, dset t.entries f (if e.1 = 1 ∨ d = 1 then (1, i) else (0, i)), dset t.freq f fl.dropLast⟩) ∨
      (¬ dcontains t.entries f = true ∧ pf2 = pf + 1 ∧
        ∃ fl, dget t.freq f = some fl ∧ fl.isEmpty = false ∧
        ((t.isFull = false ∧
            t2 = ⟨t.frames, dset t.entries f (d, i), dset t.freq f fl.dropLast⟩) ∨
         (t.isFull = true ∧ ∃ fte e,
            optScan t.freq t.entries (-1) sysMaxsize none = .ok (some fte) ∧
            dget t.entries fte = some e ∧
            t2 = ⟨t.frames, dset (dpop t.entries fte) f (d, i), dset t.freq f fl.dropLast⟩)))) :
    tableInv2 t2 ∧ t2.frames = t.frames ∧ optInvF j rest (i + 1) t2 ∧
    ∃ δ : ℕ, pf2 = pf + δ ∧
      (∀ n : ℕ, t.frames = (n : ℚ) →
          δ + optCost n (projFrames j rest) (keysFinset t2.entries) ≤
            optCost n (f :: projFrames j rest) (keysFinset t.entries)) ∧
      (∀ fc : ℕ, (∀ n : ℕ, t.frames ≠ (n : ℚ)) →
          fc = faultsNoEvict (keysFinset t2.entries) (projFrames j rest) →
          fc + δ = faultsNoEvict (keysFinset t.entries) (f :: projFrames j rest)) := by
  obtain ⟨hnd, hb⟩ := hinv
  rcases hcase with ⟨hc, hpf, fl, hfl, hflne, e, he, rfl⟩ | ⟨hm, hpf, fl, hfl, hflne, hbr⟩
  · have hkeys : keysFinset (dset t.entries f
        (if e.1 = 1 ∨ d = 1 then (1, i) else (0, i))) = keysFinset t.entries :=
      keysFinset_dset_mem hc
    refine ⟨⟨nodup_dset hnd, ?_⟩, rfl, ?_, 0, by omega, ?_, ?_⟩
    · intro n hn
      show ((dset t.entries f _).length : ℚ) ≤ t.frames
      rw [dset_length, if_pos hc]
      exact hb n hn
    · intro k l hl
      exact optInvF_pop hocc hfl k l hl
    · intro n hn
      rw [Nat.zero_add, hkeys, optCost_cons_hit (mem_keysFinset.mpr hc)]
    · intro fc hfr hfc
      rw [faultsNoEvict, if_pos (mem_keysFinset.mpr hc), Nat.add_zero, hfc, hkeys]
  · rcases hbr with ⟨hfull, rfl⟩ | ⟨hfull, fte, e, hscan, he, rfl⟩
    · have hkeys : keysFinset (dset t.entries f (d, i)) =
          insert f (keysFinset t.entries) := keysFinset_dset_new hm
      have hfne := isFull_false_ne hfull
      have hlt : ∀ n : ℕ, t.frames = (n : ℚ) → t.entries.length < n := by
        intro n hn
        have h1 : (t.entries.length : ℚ) ≤ (n : ℚ) := by rw [← hn]; exact hb n hn
        have h2 : (t.entries.length : ℚ) ≠ (n : ℚ) := by rw [← hn]; exact hfne
        exact_mod_cast lt_of_le_of_ne h1 h2
      refine ⟨⟨nodup_dset hnd, ?_⟩, rfl, ?_, 1, by omega, ?_, ?_⟩
      · intro n hn
        show ((dset t.entries f (d, i)).length : ℚ) ≤ t.frames
        rw [dset_length, if_neg hm, hn]
        exact_mod_cast Nat.succ_le_of_lt (hlt n hn)
      · intro k l hl
        exact optInvF_pop hocc hfl k l hl
      · intro n hn
        rw [optCost_cons_miss (fun hc2 => hm (mem_keysFinset.mp hc2))
          (by rw [keysFinset_card hnd]; exact hlt n hn), hkeys]
      · intro fc hfr hfc
        rw [faultsNoEvict, if_neg (fun hc2 => hm (mem_keysFinset.mp hc2)), hfc, hkeys]
    · have hkmem : ∃ p ∈ t.entries, p.1 = fte := by
        rcases optScan_ok_some_mem t.freq t.entries (-1) sysMaxsize none fte hscan
          with h2 | h2
        · exact Option.noConfusion h2
        · exact h2
      have hkeys : keysFinset (dset (dpop t.entries fte) f (d, i)) =
          insert f ((keysFinset t.entries).erase fte) := by
        rw [keysFinset_dset_new (dcontains_dpop_false hm), keysFinset_dpop]
      have hlen : (dset (dpop t.entries fte) f (d, i)).length = t.entries.length := by
        rw [dset_length, if_neg (dcontains_dpop_false hm)]
        have h2 := dpop_length hnd hkmem
        omega
      have hndpop : ((dpop t.entries fte).map Prod.fst).Nodup :=
        (dpop_map_fst_sublist t.entries fte).nodup hnd
      have hfeq : (t.entries.length : ℚ) = t.frames := (isFull_iff t).mp hfull
      have hftemem : fte ∈ keysFinset t.entries :=
        mem_keysFinset.mpr (dcontains_iff.mpr hkmem)
      have hfte_f : fte ≠ f := fun hc2 => hm (mem_keysFinset.mp (hc2 ▸ hftemem))
      obtain ⟨flv, hflv, hdom, _⟩ := optScan_farthest t.freq t.entries (-1)
        sysMaxsize none fte hscan (Or.inl ⟨rfl, Or.inl ⟨rfl, rfl⟩⟩)
      have hoccv : flv.reverse = occList j fte rest (i + 1) := by
        have h1 := hocc fte flv hflv
        rwa [occList_cons_skip (fun hc2 => hfte_f hc2.2.symm)] at h1
      have hfar : ∀ k ∈ keysFinset t.entries,
          nextUse k (projFrames j rest) ≤ nextUse fte (projFrames j rest) := by
        intro k hk
        obtain ⟨p, hp, hpk⟩ := dcontains_iff.mp (mem_keysFinset.mp hk)
        obtain ⟨flk, hflk⟩ := optScan_freq_some t.freq t.entries (-1)
          sysMaxsize none _ hscan p hp
        have hkf : k ≠ f := fun hc2 => hm (mem_keysFinset.mp (hc2 ▸ hk))
        have hocck : flk.reverse = occList j k rest (i + 1) := by
          have h1 := hocc k flk (by rw [← hpk]; exact hflk)
          rwa [occList_cons_skip (fun hc2 => hkf hc2.2.symm)] at h1
        have hdomk : nextE flk ≤ nextE flv := hdom p hp flk hflk
        rw [nextE_eq_nextPos hocck, nextE_eq_nextPos hoccv] at hdomk
        exact nextPos_mono_nextUse j rest (i + 1) k fte hdomk
      refine ⟨⟨nodup_dset hndpop, ?_⟩, rfl, ?_, 1, by omega, ?_, ?_⟩
      · intro n hn
        show ((dset (dpop t.entries fte) f (d, i)).length : ℚ) ≤ t.frames
        rw [hlen]
        exact le_of_eq hfeq
      · intro k l hl
        exact optInvF_pop hocc hfl k l hl
      · intro n hn
        have hcard : (keysFinset t.entries).card = n := by
          rw [keysFinset_card hnd]
          have h2 : (t.entries.length : ℚ) = (n : ℚ) := by rw [hfeq, hn]
          exact_mod_cast h2
        have hx : f ∉ keysFinset t.entries := fun hc2 => hm (mem_keysFinset.mp hc2)
        have hkey := optCost_fault_farthest hx hftemem hcard hfar
        rw [hkeys]
        exact hkey
      · intro fc hfr hfc
        exact absurd hfeq.symm (hfr t.entries.length)

/-- Decomposition of a successful OPT second-pass run over the two
tables: the total fault increment splits into per-table counts, each
bounded by the Bellman-optimal cost of that table's projected request
list (natural capacity) or equal to the no-eviction count (fractional
capacity). -/
theorem optEvAux_two :
    ∀ (evs : List (Nat × Int × Nat)) (t0 t1 : page_table) (st : Stats) (i : Nat) r,
    tableInv2 t0 → tableInv2 t1 →
    optInvF 0 evs i t0 → optInvF 1 evs i t1 →
    optEvAux evs [t0, t1] st i = .ok r →
    ∃ g0 g1, r.2.page_faults = st.page_faults + g0 + g1 ∧
      (∀ n : ℕ, t0.frames = (n : ℚ) →
        g0 ≤ optCost n (projFrames 0 evs) (keysFinset t0.entries)) ∧
      ((∀ n : ℕ, t0.frames ≠ (n : ℚ)) →
        g0 = faultsNoEvict (keysFinset t0.entries) (projFrames 0 evs)) ∧
      (∀ n : ℕ, t1.frames = (n : ℚ) →
        g1 ≤ optCost n (projFrames 1 evs) (keysFinset t1.entries)) ∧
      ((∀ n : ℕ, t1.frames ≠ (n : ℚ)) →
        g1 = faultsNoEvict (keysFinset t1.entries) (projFrames 1 evs)) := by
  intro evs
  induction evs with
  | nil =>
      intro t0 t1 st i r _ _ _ _ h
      rw [optEvAux, Except.ok.injEq] at h
      subst h
      exact ⟨0, 0, by dsimp only; omega, fun n _ => Nat.zero_le _, fun _ => rfl,
        fun n _ => Nat.zero_le _, fun _ => rfl⟩
  | cons ev rest ih =>
      obtain ⟨d, f, idx⟩ := ev
      intro t0 t1 st i r hi0 hi1 ho0 ho1 h
      rw [optEvAux] at h
      split at h
      · exact Except.noConfusion h
      next tables2 st2 hstep =>
        obtain ⟨t, hget, hacc, hcases⟩ := optStep_cases hstep
        rcases idx with _ | idx1
        · have ht : t0 = t := Option.some.inj (show some t0 = some t from hget)
          subst ht
          have hpair : ∃ T, tables2 = [T, t1] ∧
              ((dcontains t0.entries f = true ∧
                  st2.page_faults = st.page_faults ∧
                  ∃ fl, dget t0.freq f = some fl ∧ fl.isEmpty = false ∧
                  ∃ e : Nat × Nat, dget t0.entries f = some e ∧
                    T = ⟨t0.frames, dset t0.entries f (if e.1 = 1 ∨ d = 1 then (1, i) else (0, i)), dset t0.freq f fl.dropLast⟩) ∨
               (¬ dcontains t0.entries f = true ∧
                  st2.page_faults = st.page_faults + 1 ∧
                  ∃ fl, dget t0.freq f = some fl ∧ fl.isEmpty = false ∧
                  ((t0.isFull = false ∧
                      T = ⟨t0.frames, dset t0.entries f (d, i), dset t0.freq f fl.dropLast⟩) ∨
                   (t0.isFull = true ∧ ∃ fte e,
                      optScan t0.freq t0.entries (-1) sysMaxsize none = .ok (some fte) ∧
                      dget t0.entries fte = some e ∧
                      T = ⟨t0.frames, dset (dpop t0.entries fte) f (d, i), dset t0.freq f fl.dropLast⟩)))) := by
            rcases hcases with ⟨hc, hpf, hdw, fl, hfl, hflne, e, he, hr1⟩ |
              ⟨hm, hpf, fl, hfl, hflne, hbr⟩
            · dsimp only at hpf hr1
              exact ⟨_, hr1, Or.inl ⟨hc, hpf, fl, hfl, hflne, e, he, rfl⟩⟩
            · rcases hbr with ⟨hfull, hdw, hr1⟩ | ⟨hfull, fte, e, hscan, he, hdw, hr1⟩
              · dsimp only at hpf hr1
                exact ⟨_, hr1, Or.inr ⟨hm, hpf, fl, hfl, hflne, Or.inl ⟨hfull, rfl⟩⟩⟩
              · dsimp only at hpf hr1
                exact ⟨_, hr1, Or.inr ⟨hm, hpf, fl, hfl, hflne,
                  Or.inr ⟨hfull, fte, e, hscan, he, rfl⟩⟩⟩
          obtain ⟨T, htab, hcase2⟩ := hpair
          obtain ⟨hinvT, hfrT, hoccT, δ, hδ, hboundT, hfracT⟩ :=
            opt_table_step hi0 ho0 hcase2
          have ho1b : optInvF 1 rest (i + 1) t1 := by
            refine optInvF_skip ?_ ho1
            intro hc
            exact Nat.noConfusion hc
          rw [htab] at h
          obtain ⟨g0, g1, hsum, hg0, hfr0, hg1, hfr1⟩ :=
            ih T t1 st2 (i + 1) r hinvT hi1 hoccT ho1b h
          refine ⟨g0 + δ, g1, by omega, ?_, ?_, ?_, ?_⟩
          · intro n hn
            rw [projFrames, if_pos rfl]
            have hIH := hg0 n (by rw [hfrT, hn])
            have hT2 := hboundT n hn
            omega
          · intro hfr
            rw [projFrames, if_pos rfl]
            exact hfracT g0 hfr (hfr0 (fun n => by rw [hfrT]; exact hfr n))
          · intro n hn
            rw [projFrames, if_neg (by decide)]
            exact hg1 n hn
          · intro hfr
            rw [projFrames, if_neg (by decide)]
            exact hfr1 hfr
        · rcases idx1 with _ | idx2
          · have ht : t1 = t := Option.some.inj (show some t1 = some t from hget)
            subst ht
            have hpair : ∃ T, tables2 = [t0, T] ∧
                ((dcontains t1.entries f = true ∧
                    st2.page_faults = st.page_faults ∧
                    ∃ fl, dget t1.freq f = some fl ∧ fl.isEmpty = false ∧
                    ∃ e : Nat × Nat, dget t1.entries f = some e ∧
                      T = ⟨t1.frames, dset t1.entries f (if e.1 = 1 ∨ d = 1 then (1, i) else (0, i)), dset t1.freq f fl.dropLast⟩) ∨
                 (¬ dcontains t1.entries f = true ∧
                    st2.page_faults = st.page_faults + 1 ∧
                    ∃ fl, dget t1.freq f = some fl ∧ fl.isEmpty = false ∧
                    ((t1.isFull = false ∧
                        T = ⟨t1.frames, dset t1.entries f (d, i), dset t1.freq f fl.dropLast⟩) ∨
                     (t1.isFull = true ∧ ∃ fte e,
                        optScan t1.freq t1.entries (-1) sysMaxsize none = .ok (some fte) ∧
                        dget t1.entries fte = some e ∧
                        T = ⟨t1.frames, dset (dpop t1.entries fte) f (d, i), dset t1.freq f fl.dropLast⟩)))) := by
              rcases hcases with ⟨hc, hpf, hdw, fl, hfl, hflne, e, he, hr1⟩ |
                ⟨hm, hpf, fl, hfl, hflne, hbr⟩
              · dsimp only at hpf hr1
                exact ⟨_, hr1, Or.inl ⟨hc, hpf, fl, hfl, hflne, e, he, rfl⟩⟩
              · rcases hbr with ⟨hfull, hdw, hr1⟩ | ⟨hfull, fte, e, hscan, he, hdw, hr1⟩
                · dsimp only at hpf hr1
                  exact ⟨_, hr1, Or.inr ⟨hm, hpf, fl, hfl, hflne, Or.inl ⟨hfull, rfl⟩⟩⟩
                · dsimp only at hpf hr1
                  exact ⟨_, hr1, Or.inr ⟨hm, hpf, fl, hfl, hflne,
                    Or.inr ⟨hfull, fte, e, hscan, he, rfl⟩⟩⟩
            obtain ⟨T, htab, hcase2⟩ := hpair
            obtain ⟨hinvT, hfrT, hoccT, δ, hδ, hboundT, hfracT⟩ :=
              opt_table_step hi1 ho1 hcase2
            have ho0b : optInvF 0 rest (i + 1) t0 := by
              refine optInvF_skip ?_ ho0
              intro hc
              exact Nat.noConfusion hc
            rw [htab] at h
            obtain ⟨g0, g1, hsum, hg0, hfr0, hg1, hfr1⟩ :=
              ih t0 T st2 (i + 1) r hi0 hinvT ho0b hoccT h
            refine ⟨g0, g1 + δ, by omega, ?_, ?_, ?_, ?_⟩
            · intro n hn
              rw [projFrames, if_neg (by decide)]
              exact hg0 n hn
            · intro hfr
              rw [projFrames, if_neg (by decide)]
              exact hfr0 hfr
            · intro n hn
              rw [projFrames, if_pos rfl]
              have hIH := hg1 n (by rw [hfrT, hn])
              have hT2 := hboundT n hn
              omega
            · intro hfr
              rw [projFrames, if_pos rfl]
              exact hfracT g1 hfr (hfr1 (fun n => by rw [hfrT]; exact hfr n))
          · exact Option.noConfusion hget

theorem pass1_table_freq (t : page_table) (f : Int) (i : Nat) (t2 : page_table)
    (ht2 : t2 = (if ¬ dcontains t.freq f then { t with freq := dset t.freq f [i] }
      else match dget t.freq f with
        | some fl => { t with freq := dset t.freq f (fl ++ [i]) }
        | none => t)) :
    t2.frames = t.frames ∧ t2.entries = t.entries ∧
    dget t2.freq f = some ((dget t.freq f).getD [] ++ [i]) ∧
    ∀ k, k ≠ f → dget t2.freq k = dget t.freq k := by
  subst ht2
  by_cases h : dcontains t.freq f = true
  · rw [if_neg (fun hc => hc h)]
    obtain ⟨fl, hfl⟩ := dget_isSome_iff.mpr h
    rw [hfl]
    simp only []
    refine ⟨trivial, trivial, ?_, ?_⟩
    · rw [dget_dset_self]
      rfl
    · intro k hk
      exact dget_dset_ne t.freq (fl ++ [i]) hk
  · rw [if_pos h]
    have hn : dget t.freq f = none := by
      cases hd : dget t.freq f with
      | none => rfl
      | some v => exact absurd (dget_isSome_iff.mp ⟨v, hd⟩) h
    refine ⟨rfl, rfl, ?_, ?_⟩
    · rw [hn, dget_dset_self]
      rfl
    · intro k hk
      exact dget_dset_ne t.freq [i] hk

/-- Characterization of the OPT first pass on the two tables: frames and
entries are untouched, and every occurrence list present at the end is
whatever was there before followed by the positions of that frame's
accesses through its table. -/
theorem optPass1Ev_two :
    ∀ (evs : List (Nat × Int × Nat)) (t0 t1 : page_table) (i : Nat) r,
    optPass1Ev evs [t0, t1] i = .ok r →
    ∃ p0 p1, r = [p0, p1] ∧
      (p0.frames = t0.frames ∧ p0.entries = t0.entries ∧
        ∀ k l, dget p0.freq k = some l →
          l = (dget t0.freq k).getD [] ++ occList 0 k evs i) ∧
      (p1.frames = t1.frames ∧ p1.entries = t1.entries ∧
        ∀ k l, dget p1.freq k = some l →
          l = (dget t1.freq k).getD [] ++ occList 1 k evs i) := by
  intro evs
  induction evs with
  | nil =>
      intro t0 t1 i r h
      rw [optPass1Ev, Except.ok.injEq] at h
      subst h
      refine ⟨t0, t1, rfl, ⟨rfl, rfl, ?_⟩, ⟨rfl, rfl, ?_⟩⟩
      · intro k l hl
        rw [hl]
        simp [occList]
      · intro k l hl
        rw [hl]
        simp [occList]
  | cons ev rest ih =>
      obtain ⟨d, f, idx⟩ := ev
      intro t0 t1 i r h
      rw [optPass1Ev] at h
      rcases idx with _ | idx1
      · have hget : [t0, t1].get? 0 = some t0 := rfl
        rw [hget] at h
        simp only [] at h
        obtain ⟨hf2, he2, hself, hother⟩ := pass1_table_freq t0 f i _ rfl
        obtain ⟨p0, p1, hr, ⟨hpf0, hpe0, hpq0⟩, hp1⟩ := ih _ t1 (i + 1) r h
        refine ⟨p0, p1, hr, ⟨?_, ?_, ?_⟩, ?_⟩
        · rw [hpf0, hf2]
        · rw [hpe0, he2]
        · intro k l hl
          have hq := hpq0 k l hl
          by_cases hk : k = f
          · rw [hk] at hq ⊢
            rw [hself] at hq
            rw [hq, occList_cons_hit rfl rfl]
            simp [List.append_assoc]
          · rw [hother k hk] at hq
            rw [hq, occList_cons_skip (fun hc => hk hc.2.symm)]
        · obtain ⟨hpf1, hpe1, hpq1⟩ := hp1
          refine ⟨hpf1, hpe1, ?_⟩
          intro k l hl
          rw [hpq1 k l hl, occList_cons_skip (fun hc => Nat.noConfusion hc.1)]
      · rcases idx1 with _ | idx2
        · have hget : [t0, t1].get? 1 = some t1 := rfl
          rw [hget] at h
          simp only [] at h
          obtain ⟨hf2, he2, hself, hother⟩ := pass1_table_freq t1 f i _ rfl
          obtain ⟨p0, p1, hr, hp0, ⟨hpf1, hpe1, hpq1⟩⟩ := ih t0 _ (i + 1) r h
          refine ⟨p0, p1, hr, ?_, ⟨?_, ?_, ?_⟩⟩
          · obtain ⟨hpf0, hpe0, hpq0⟩ := hp0
            refine ⟨hpf0, hpe0, ?_⟩
            intro k l hl
            rw [hpq0 k l hl, occList_cons_skip (fun hc => Nat.noConfusion hc.1)]
          · rw [hpf1, hf2]
          · rw [hpe1, he2]
          · intro k l hl
            have hq := hpq1 k l hl
            by_cases hk : k = f
            · rw [hk] at hq ⊢
              rw [hself] at hq
              rw [hq, occList_cons_hit rfl rfl]
              simp [List.append_assoc]
            · rw [hother k hk] at hq
              rw [hq, occList_cons_skip (fun hc => hk hc.2.symm)]
        · have hget : [t0, t1].get? (idx2 + 2) = none := rfl
          rw [hget] at h
          simp only [] at h
          exact Except.noConfusion h

theorem dget_map_reverse (d : Dict (List Nat)) (k : Int) :
    dget (d.map (fun p => (p.1, p.2.reverse))) k = (dget d k).map List.reverse := by
  induction d with
  | nil => rfl
  | cons p rest ih =>
      by_cases hp : p.1 = k
      · rw [List.map_cons, dget, List.find?_cons_of_pos _ (by simp [hp]), dget,
          List.find?_cons_of_pos _ (by simp [hp])]
        rfl
      · rw [List.map_cons, dget, List.find?_cons_of_neg _ (by simp [hp]), dget,
          List.find?_cons_of_neg _ (by simp [hp])]
        exact ih

/-- After the first pass (from empty occurrence lists) and the reversal
between the passes, the occurrence-list invariant holds at position 0. -/
theorem optInvF_start {j : Nat} {evs : List (Nat × Int × Nat)} {t p : page_table}
    (hq : ∀ k l, dget p.freq k = some l →
      l = (dget t.freq k).getD [] ++ occList j k evs 0)
    (hinit : t.freq = []) :
    optInvF j evs 0 (reverseFreq p) := by
  intro k l hl
  have hget : dget (reverseFreq p).freq k = (dget p.freq k).map List.reverse := by
    simp only [reverseFreq]
    exact dget_map_reverse p.freq k
  rw [hget] at hl
  cases hd : dget p.freq k with
  | none => rw [hd] at hl; exact Option.noConfusion hl
  | some l0 =>
      rw [hd] at hl
      have hl0 : l = l0.reverse := (Option.some.inj hl).symm
      have hocc := hq k l0 hd
      rw [hinit] at hocc
      simp only [dget, List.find?] at hocc
      rw [hl0, List.reverse_reverse, hocc]
      rfl

/-- C6: Belady optimality — for every memory split, frame budget, offset
and trace on which both simulations complete, the OPT simulation's total
page-fault count is at most the LRU simulation's.  Per routed table, the
LRU run is a valid demand-paging execution whose cost is at least the
Bellman-optimal cost of that table's request stream, while the OPT run's
cost is at most it (its evictions always pick a victim whose next use is
farthest, by the occurrence-list invariant); fractional-capacity tables
never evict under either policy and fault identically. -/
theorem C6_belady (ms : String) (frames : Int) (off : Option Nat)
    (lines : List String) (r1 r2 : List page_table × Stats)
    (h1 : lru_sim ms frames off lines = .ok r1)
    (h2 : opt_sim ms frames off lines = .ok r2) :
    r2.2.page_faults ≤ r1.2.page_faults := by
  rw [lru_sim] at h1
  rw [opt_sim] at h2
  cases hsm : split_memory ms frames with
  | error e => rw [hsm] at h1; exact Except.noConfusion h1
  | ok tabs =>
    rw [hsm] at h1 h2
    simp only [] at h1 h2
    obtain ⟨a, b, rfl⟩ := split_memory_ok hsm
    obtain ⟨evs, hdec⟩ := decodeTrace_of_lruRunAux off lines _ _ _ _ h1
    rw [lruRunAux_eq_ev off lines evs hdec] at h1
    cases hp1 : optPass1 off lines [page_table.init a, page_table.init b] 0 with
    | error e => rw [hp1] at h2; exact Except.noConfusion h2
    | ok ptabs =>
      rw [hp1] at h2
      simp only [] at h2
      rw [optPass1_eq_ev off lines evs hdec] at hp1
      obtain ⟨p0, p1, rfl, ⟨hpf0, hpe0, hpq0⟩, ⟨hpf1, hpe1, hpq1⟩⟩ :=
        optPass1Ev_two evs (page_table.init a) (page_table.init b) 0 ptabs hp1
      rw [optRunAux_eq_ev off lines evs hdec] at h2
      have h2b : optEvAux evs [reverseFreq p0, reverseFreq p1] Stats.init 0 =
          .ok r2 := h2
      have hinit_inv : ∀ c : ℚ, tableInv2 (page_table.init c) := by
        intro c
        constructor
        · exact List.nodup_nil
        · intro n hn
          simp only [page_table.init] at hn ⊢
          rw [hn]
          simp
      have hbase : ∀ (q : page_table) (t : page_table),
          q.frames = t.frames → q.entries = t.entries → tableInv2 t →
          tableInv2 (reverseFreq q) := by
        intro q t hqf hqe ht
        constructor
        · show ((reverseFreq q).entries.map Prod.fst).Nodup
          simp only [reverseFreq]
          rw [hqe]
          exact ht.1
        · intro n hn
          show (((reverseFreq q).entries.length : ℚ)) ≤ (reverseFreq q).frames
          simp only [reverseFreq] at hn ⊢
          rw [hqe, hqf]
          rw [hqf] at hn
          exact ht.2 n hn
      have hinv_r0 : tableInv2 (reverseFreq p0) :=
        hbase p0 (page_table.init a) hpf0 hpe0 (hinit_inv a)
      have hinv_r1 : tableInv2 (reverseFreq p1) :=
        hbase p1 (page_table.init b) hpf1 hpe1 (hinit_inv b)
      have hocc0 : optInvF 0 evs 0 (reverseFreq p0) := optInvF_start hpq0 rfl
      have hocc1 : optInvF 1 evs 0 (reverseFreq p1) := optInvF_start hpq1 rfl
      obtain ⟨f0, f1, hsum1, hR0, hF0, hR1, hF1⟩ :=
        lruEvAux_two evs (page_table.init a) (page_table.init b) Stats.init 0 r1
          (hinit_inv a) (hinit_inv b) h1
      obtain ⟨g0, g1, hsum2, hG0, hFF0, hG1, hFF1⟩ :=
        optEvAux_two evs (reverseFreq p0) (reverseFreq p1) Stats.init 0 r2
          hinv_r0 hinv_r1 hocc0 hocc1 h2b
      have hk0 : keysFinset (reverseFreq p0).entries =
          keysFinset (page_table.init a).entries := by
        simp only [reverseFreq]
        rw [hpe0]
      have hk1 : keysFinset (reverseFreq p1).entries =
          keysFinset (page_table.init b).entries := by
        simp only [reverseFreq]
        rw [hpe1]
      have hcmp0 : g0 ≤ f0 := by
        by_cases hnat : ∃ n : ℕ, a = (n : ℚ)
        · obtain ⟨n, hn⟩ := hnat
          have hrun := hR0 n hn
          have hopt := hG0 n (by
            show (reverseFreq p0).frames = (n : ℚ)
            simp only [reverseFreq]
            rw [hpf0]
            exact hn)
          rw [hk0] at hopt
          exact le_trans hopt (optCost_le_run hrun)
        · push_neg at hnat
          have hfr2 : ∀ n : ℕ, (reverseFreq p0).frames ≠ (n : ℚ) := by
            intro n hc
            simp only [reverseFreq] at hc
            rw [hpf0] at hc
            exact hnat n hc
          have hff := hFF0 hfr2
          have hlf := hF0 hnat
          rw [hff, hlf, hk0]
      have hcmp1 : g1 ≤ f1 := by
        by_cases hnat : ∃ n : ℕ, b = (n : ℚ)
        · obtain ⟨n, hn⟩ := hnat
          have hrun := hR1 n hn
          have hopt := hG1 n (by
            show (reverseFreq p1).frames = (n : ℚ)
            simp only [reverseFreq]
            rw [hpf1]
            exact hn)
          rw [hk1] at hopt
          exact le_trans hopt (optCost_le_run hrun)
        · push_neg at hnat
          have hfr2 : ∀ n : ℕ, (reverseFreq p1).frames ≠ (n : ℚ) := by
            intro n hc
            simp only [reverseFreq] at hc
            rw [hpf1] at hc
            exact hnat n hc
          have hff := hFF1 hfr2
          have hlf := hF1 hnat
          rw [hff, hlf, hk1]
      omega

/-- C6 witness: a concrete configuration and trace on which both
simulations complete, instantiating the Belady comparison. -/
theorem C6_belady_witness :
    ∃ r1 r2, lru_sim "1:3" 4 (some 12) ["l 1000 0"] = .ok r1 ∧
      opt_sim "1:3" 4 (some 12) ["l 1000 0"] = .ok r2 ∧
      r2.2.page_faults ≤ r1.2.page_faults := by
  have h1 : lru_sim "1:3" 4 (some 12) ["l 1000 0"] =
      .ok ([⟨1, [((1 : Int), ((0 : Nat), (0 : Nat)))], []⟩, ⟨3, [], []⟩],
        ⟨1, 1, 0⟩) := by
    with_unfolding_all rfl
  have h2 : opt_sim "1:3" 4 (some 12) ["l 1000 0"] =
      .ok ([⟨1, [((1 : Int), ((0 : Nat), (0 : Nat)))], [((1 : Int), ([] : List Nat))]⟩,
        ⟨3, [], []⟩], ⟨1, 1, 0⟩) := by
    with_unfolding_all rfl
  exact ⟨_, _, h1, h2, C6_belady "1:3" 4 (some 12) ["l 1000 0"] _ _ h1 h2⟩

/-! ### The per-table resident bound, conditioned on the stored capacity -/

theorem tableInv2_set {tables : List page_table} {idx : Nat} {tNew : page_table}
    (hinv : ∀ t ∈ tables, tableInv2 t) (hNew : tableInv2 tNew) :
    ∀ t ∈ tables.set idx tNew, tableInv2 t := by
  intro t ht
  rcases List.mem_or_eq_of_mem_set ht with hmem | rfl
  · exact hinv t hmem
  · exact hNew

theorem lruStep_tableInv2 {tables : List page_table} {st : Stats} {i : Nat}
    {d : Nat} {f : Int} {idx : Nat} {r}
    (hinv : ∀ t ∈ tables, tableInv2 t)
    (h : lruStep tables st i d f idx = .ok r) :
    ∀ t ∈ r.1, tableInv2 t := by
  obtain ⟨t, hget, _, hcases⟩ := lruStep_cases h
  have ht := hinv t (List.get?_mem hget)
  have hpack : ∃ T, r.1 = tables.set idx T ∧
      ((dcontains t.entries f = true ∧ r.2.page_faults = st.page_faults ∧
        ∃ e : Nat × Nat, dget t.entries f = some e ∧
          T = { t with entries := dset t.entries f (if e.1 = 1 ∨ d = 1 then (1, i) else (0, i)) }) ∨
       (¬ dcontains t.entries f = true ∧ r.2.page_faults = st.page_faults + 1 ∧
          ((t.isFull = false ∧ T = { t with entries := dset t.entries f (d, i) }) ∨
           (t.isFull = true ∧ ∃ fte e, lruVictim t.entries = some fte ∧
              dget t.entries fte = some e ∧
              T = { t with entries := dset (dpop t.entries fte) f (d, i) })))) := by
    rcases hcases with ⟨hc, hpf, hdw, e, he, hr⟩ | ⟨hm, hpf, hbr⟩
    · exact ⟨_, hr, Or.inl ⟨hc, hpf, e, he, rfl⟩⟩
    · rcases hbr with ⟨hfull, hdw, hr⟩ | ⟨hfull, fte, e, hvic, he, hdw, hr⟩
      · exact ⟨_, hr, Or.inr ⟨hm, hpf, Or.inl ⟨hfull, rfl⟩⟩⟩
      · exact ⟨_, hr, Or.inr ⟨hm, hpf, Or.inr ⟨hfull, fte, e, hvic, he, rfl⟩⟩⟩
  obtain ⟨T, hr1, hcase2⟩ := hpack
  obtain ⟨hinvT, _⟩ := lru_table_step ht hcase2
  rw [hr1]
  exact tableInv2_set hinv hinvT

theorem optStep_tableInv2 {tables : List page_table} {st : Stats} {i : Nat}
    {d : Nat} {f : Int} {idx : Nat} {r}
    (hinv : ∀ t ∈ tables, tableInv2 t)
    (h : optStep tables st i d f idx = .ok r) :
    ∀ t ∈ r.1, tableInv2 t := by
  obtain ⟨t, hget, _, hcases⟩ := optStep_cases h
  obtain ⟨hnd, hb⟩ := hinv t (List.get?_mem hget)
  rcases hcases with ⟨hc, _, _, fl, hfl, _, e, he, hr⟩ | ⟨hm, _, fl, hfl, _, hrest⟩
  · rw [hr]
    refine tableInv2_set hinv ⟨?_, ?_⟩
    · show ((dset t.entries f _).map Prod.fst).Nodup
      exact nodup_dset hnd
    · intro n hn
      show ((dset t.entries f _).length : ℚ) ≤ t.frames
      rw [dset_length, if_pos hc]
      exact hb n hn
  · rcases hrest with ⟨hfull, _, hr⟩ | ⟨hfull, fte, e, hscan, he, _, hr⟩
    · rw [hr]
      have hfne := isFull_false_ne hfull
      refine tableInv2_set hinv ⟨nodup_dset hnd, ?_⟩
      intro n hn
      have hn2 : t.frames = (n : ℚ) := hn
      show ((dset t.entries f (d, i)).length : ℚ) ≤ t.frames
      rw [dset_length, if_neg hm, hn2]
      have h1 : (t.entries.length : ℚ) ≤ (n : ℚ) := by rw [← hn2]; exact hb n hn2
      have h2 : (t.entries.length : ℚ) ≠ (n : ℚ) := by rw [← hn2]; exact hfne
      exact_mod_cast Nat.succ_le_of_lt (by exact_mod_cast lt_of_le_of_ne h1 h2)
    · rw [hr]
      have hkmem : ∃ p ∈ t.entries, p.1 = fte := by
        rcases optScan_ok_some_mem t.freq t.entries (-1) sysMaxsize none fte hscan
          with h2 | h2
        · exact Option.noConfusion h2
        · exact h2
      have hfeq : (t.entries.length : ℚ) = t.frames := (isFull_iff t).mp hfull
      have hndpop : ((dpop t.entries fte).map Prod.fst).Nodup :=
        (dpop_map_fst_sublist t.entries fte).nodup hnd
      refine tableInv2_set hinv ⟨nodup_dset hndpop, ?_⟩
      intro n hn
      show ((dset (dpop t.entries fte) f (d, i)).length : ℚ) ≤ t.frames
      rw [dset_length, if_neg (dcontains_dpop_false hm)]
      have h2 := dpop_length hnd hkmem
      rw [show (dpop t.entries fte).length + 1 = t.entries.length from h2]
      exact le_of_eq hfeq

theorem lruRunAux_tableInv2 (off : Option Nat) :
    ∀ (lines : List String) (tables : List page_table) (st : Stats) (i : Nat) r,
    (∀ t ∈ tables, tableInv2 t) →
    lruRunAux off lines tables st i = .ok r → ∀ t ∈ r.1, tableInv2 t := by
  intro lines
  induction lines with
  | nil =>
      intro tables st i r hinv h
      rw [lruRunAux, Except.ok.injEq] at h
      subst h
      exact hinv
  | cons l rest ih =>
      intro tables st i r hinv h
      rw [lruRunAux] at h
      split at h
      · exact Except.noConfusion h
      split at h
      · exact Except.noConfusion h
      next tables2 st2 hstep =>
        exact ih _ _ _ _ (lruStep_tableInv2 hinv hstep) h

theorem optRunAux_tableInv2 (off : Option Nat) :
    ∀ (lines : List String) (tables : List page_table) (st : Stats) (i : Nat) r,
    (∀ t ∈ tables, tableInv2 t) →
    optRunAux off lines tables st i = .ok r → ∀ t ∈ r.1, tableInv2 t := by
  intro lines
  induction lines with
  | nil =>
      intro tables st i r hinv h
      rw [optRunAux, Except.ok.injEq] at h
      subst h
      exact hinv
  | cons l rest ih =>
      intro tables st i r hinv h
      rw [optRunAux] at h
      split at h
      · exact Except.noConfusion h
      split at h
      · exact Except.noConfusion h
      next tables2 st2 hstep =>
        exact ih _ _ _ _ (optStep_tableInv2 hinv hstep) h

theorem optPass1_tableInv2 (off : Option Nat) :
    ∀ (lines : List String) (tables : List page_table) (i : Nat) r,
    (∀ t ∈ tables, tableInv2 t) →
    optPass1 off lines tables i = .ok r → ∀ t ∈ r, tableInv2 t := by
  intro lines
  induction lines with
  | nil =>
      intro tables i r hinv h
      rw [optPass1, Except.ok.injEq] at h
      subst h
      exact hinv
  | cons l rest ih =>
      intro tables i r hinv h
      rw [optPass1] at h
      split at h
      · exact Except.noConfusion h
      next d f idx hparse =>
        split at h
        · exact Except.noConfusion h
        next t hget =>
          refine ih _ _ _ (tableInv2_set hinv ?_) h
          have hbase := hinv t (List.get?_mem hget)
          split
          · exact hbase
          · split
            · exact hbase
            · exact hbase

theorem reverseFreq_tableInv2 {tables : List page_table}
    (hinv : ∀ t ∈ tables, tableInv2 t) :
    ∀ t ∈ tables.map reverseFreq, tableInv2 t := by
  intro t ht
  obtain ⟨q, hq, rfl⟩ := List.mem_map.mp ht
  exact hinv q hq

/-- C1 amended: at every step of either simulation, every page table
whose stored frames value equals a natural number `n` keeps
`len(entries) ≤ n` — `lruStep` and `optStep` preserve this from any
state, and every completed run of either simulation satisfies it, for
whatever capacities the split stores (every IEEE double is a rational,
and every intermediate state is the final state of the run on a prefix
of the trace, so the two run conjuncts cover all steps).  Conditioning
on the stored value matters twice: an evenly dividing split need not
store an integer (`0.7 * 90` stores `63 - 2⁻⁴⁷`, so that table's bound
is `63 - 2⁻⁴⁷`, not 63), and a table whose stored value is not an
integer is never full and its resident count can exceed it (see the
counterexample). -/
theorem C1_resident_bound_amended (ms : String) (frames : Int) (off : Option Nat)
    (lines : List String) :
    (∀ (tables : List page_table) (st : Stats) (i d : Nat) (f : Int) (idx : Nat) r,
      (∀ t ∈ tables, tableInv2 t) →
      lruStep tables st i d f idx = .ok r → ∀ t ∈ r.1, tableInv2 t) ∧
    (∀ (tables : List page_table) (st : Stats) (i d : Nat) (f : Int) (idx : Nat) r,
      (∀ t ∈ tables, tableInv2 t) →
      optStep tables st i d f idx = .ok r → ∀ t ∈ r.1, tableInv2 t) ∧
    (∀ r, lru_sim ms frames off lines = .ok r →
      ∀ t ∈ r.1, ∀ n : ℕ, t.frames = (n : ℚ) → (t.entries.length : ℚ) ≤ t.frames) ∧
    (∀ r, opt_sim ms frames off lines = .ok r →
      ∀ t ∈ r.1, ∀ n : ℕ, t.frames = (n : ℚ) → (t.entries.length : ℚ) ≤ t.frames) := by
  have hinit : ∀ (a b : ℚ) (t : page_table),
      t ∈ [page_table.init a, page_table.init b] → tableInv2 t := by
    intro a b t ht
    have hent : t.entries = [] := by
      rcases List.mem_cons.mp ht with rfl | ht2
      · rfl
      · rcases List.mem_cons.mp ht2 with rfl | ht3
        · rfl
        · exact absurd ht3 (List.not_mem_nil t)
    constructor
    · rw [hent]
      exact List.nodup_nil
    · intro n hn
      rw [hent, hn]
      simp
  refine ⟨fun _ _ _ _ _ _ _ hinv h => lruStep_tableInv2 hinv h,
    fun _ _ _ _ _ _ _ hinv h => optStep_tableInv2 hinv h, ?_, ?_⟩
  · intro r h
    rw [lru_sim] at h
    split at h
    · exact Except.noConfusion h
    next tabs hsplit =>
      obtain ⟨a, b, rfl⟩ := split_memory_ok hsplit
      intro t ht n hn
      exact (lruRunAux_tableInv2 off lines _ Stats.init 0 r (hinit a b) h t ht).2 n hn
  · intro r h
    rw [opt_sim] at h
    split at h
    · exact Except.noConfusion h
    next tabs hsplit =>
      split at h
      · exact Except.noConfusion h
      next tabs1 hpass1 =>
        obtain ⟨a, b, rfl⟩ := split_memory_ok hsplit
        have hinv1 := optPass1_tableInv2 off lines _ 0 tabs1 (hinit a b) hpass1
        intro t ht n hn
        exact (optRunAux_tableInv2 off lines (tabs1.map reverseFreq) Stats.init 0 r
          (reverseFreq_tableInv2 hinv1) h t ht).2 n hn

/-- C1 witness: after the one-line run with frame_total 4 and split 1:1
(capacities stored exactly as 2), the first table holds one entry
against its stored capacity 2. -/
theorem C1_resident_bound_amended_witness :
    ((⟨2, [((0 : Int), (0, 0))], []⟩ : page_table).entries.length : ℚ) ≤
      (⟨2, [((0 : Int), (0, 0))], []⟩ : page_table).frames := by
  have h := (C1_resident_bound_amended "1:1" 4 (some 10) ["l 0 0"]).2.2.1
    ⟨[⟨2, [((0 : Int), (0, 0))], []⟩, ⟨2, [], []⟩], ⟨1, 1, 0⟩⟩
    (by with_unfolding_all rfl)
  exact h _ (List.mem_cons_self _ _) 2 (by norm_num)
